import Mathlib

/-
Verification of the collaborative-document OT core of this repository.

The embedding covers:
- the quill-delta operation model (attribute maps, ops, push/chop
  normalization, compose and transform), which `OTEngine.ts` delegates to;
- `OTEngine` (server/src/services/OTEngine.ts);
- `DocumentService.applyOperation` (the version-gated write path) and the
  send-op branch of `registerCollabHandlers` (collabHandler.ts);
- the client collaboration core (client/src/hooks/useCollaboration.ts).

Machine integers are modelled as Nat (versions and lengths are non-negative
and far from any overflow boundary in the source).  Fallible paths return
Except.  Helper functions that the quill-delta library implements with
mutable iterators are modelled as fuel-indexed structural recursions so that
every definition is executable; the fuel is always instantiated with a
proven-sufficient bound.
-/

namespace GDocs

/- ── Attribute maps ──────────────────────────────────────────────────────
quill-delta `AttributeMap`: a JSON object mapping keys to values, where a
null value marks attribute removal and an absent key means "no opinion".
We model values as `Option String` (`none` = JSON null) and a map as an
association list kept strictly sorted by key, which makes structural
equality of the model coincide with lodash `isEqual` on the JS objects. -/

def charLt (a b : Char) : Bool := a.val.toNat < b.val.toNat

def lexLt : List Char → List Char → Bool
  | [], [] => false
  | [], _ :: _ => true
  | _ :: _, [] => false
  | a :: as, b :: bs => if charLt a b then true else if charLt b a then false else lexLt as bs

def keyLt (a b : String) : Bool := lexLt a.data b.data

/-- A single attribute value; `none` models JSON `null` (removal marker). -/
abbrev AttrVal := Option String

/-- An attribute map, canonically represented as a key-sorted association list. -/
abbrev AttrMap := List (String × AttrVal)

/-- Insert an entry into a sorted association list, replacing an equal key. -/
def insEntry (kv : String × AttrVal) : AttrMap → AttrMap
  | [] => [kv]
  | e :: m =>
    if keyLt kv.1 e.1 then kv :: e :: m
    else if keyLt e.1 kv.1 then e :: insEntry kv m
    else kv :: m

/-- Lookup by key in an association list. -/
def getKey (k : String) : AttrMap → Option AttrVal
  | [] => none
  | e :: m => if e.1 = k then some e.2 else getKey k m

namespace AttributeMap

/-- quill-delta `AttributeMap.compose(a, b, keepNull)`: start from a copy of
`b` (dropping `b`'s null values unless `keepNull`), then add every key of `a`
that `b` does not mention (keeping `a`'s values verbatim, nulls included);
an empty result is returned as `undefined` (`none`). -/
def compose (a b : Option AttrMap) (keepNull : Bool) : Option AttrMap :=
  let aM := a.getD []
  let bM := b.getD []
  let base := if keepNull then bM else bM.filter (fun e => e.2.isSome)
  let m := (aM.filter (fun e => (getKey e.1 bM).isNone)).foldr insEntry base
  if m.isEmpty then none else some m

/-- quill-delta `AttributeMap.transform(a, b, priority)`: with no `a` the
result is `b`; with no `b` the result is `undefined`; without priority `b`
simply wins; with priority only the keys of `b` that `a` leaves untouched
survive. -/
def transform (a b : Option AttrMap) (priority : Bool) : Option AttrMap :=
  match a with
  | none => b
  | some aM =>
    match b with
    | none => none
    | some bM =>
      if !priority then some bM
      else
        let m := bM.filter (fun e => (getKey e.1 aM).isNone)
        if m.isEmpty then none else some m

end AttributeMap

/- ── Delta operations ────────────────────────────────────────────────────
A quill delta is an ordered list of retain / insert / delete operations.
Text inserts carry a string (modelled as a list of characters so that the
iterator's splitting is a pure function); embed inserts are opaque length-1
objects modelled by a tag. -/

/-- One quill-delta operation. -/
inductive Op
  | insertText (s : List Char) (attrs : Option AttrMap)
  | insertEmbed (e : String) (attrs : Option AttrMap)
  | retain (n : Nat) (attrs : Option AttrMap)
  | delete (n : Nat)
  deriving DecidableEq

/-- A quill delta: an ordered list of operations. -/
abbrev Delta := List Op

namespace Op

/-- quill-delta `Op.length`. -/
def len : Op → Nat
  | insertText s _ => s.length
  | insertEmbed _ _ => 1
  | retain n _ => n
  | delete n => n

/-- Whether the op is an insert (text or embed). -/
def isInsert : Op → Bool
  | insertText _ _ => true
  | insertEmbed _ _ => true
  | _ => false

/-- Whether the op is a delete. -/
def isDelete : Op → Bool
  | delete _ => true
  | _ => false

/-- The iterator's `next(k)`: the first `k` units of an op (callers ensure
`0 < k ≤ len`). -/
def take (k : Nat) : Op → Op
  | insertText s a => insertText (s.take k) a
  | insertEmbed e a => insertEmbed e a
  | retain _ a => retain k a
  | delete _ => delete k

/-- What remains of an op after consuming its first `k` units. -/
def drop (k : Nat) : Op → Op
  | insertText s a => insertText (s.drop k) a
  | insertEmbed e a => insertEmbed e a
  | retain n a => retain (n - k) a
  | delete n => delete (n - k)

end Op

/- ── push / chop normalization ───────────────────────────────────────────
`Delta.push` appends an op to a delta, merging it with the previous op when
possible and always placing inserts before an adjacent delete; `chop` drops
a trailing attribute-less retain.  We fold `push` over an op stream with the
accumulator kept in reverse order (head = most recently pushed op). -/

/-- Merge two ops when quill-delta `push` would (text inserts with equal
attributes, retains with equal attributes, deletes). -/
def mergeOps (lastOp newOp : Op) : Option Op :=
  match lastOp, newOp with
  | .delete m, .delete n => some (.delete (m + n))
  | .insertText s a, .insertText t b => if a = b then some (.insertText (s ++ t) a) else none
  | .retain m a, .retain n b => if a = b then some (.retain (m + n) a) else none
  | _, _ => none

/-- quill-delta `Delta.push` on a reversed op list (head of `rev` is the last
op of the delta).  Deletes merge with deletes; an insert steps back over one
trailing delete (inserts are kept before deletes); mergeable neighbours are
merged; otherwise the op is appended. -/
def pushR (rev : List Op) (newOp : Op) : List Op :=
  match rev with
  | [] => [newOp]
  | lastOp :: rest =>
    match mergeOps lastOp newOp with
    | some merged => merged :: rest
    | none =>
      if lastOp.isDelete && newOp.isInsert then
        match rest with
        | [] => [lastOp, newOp]
        | last2 :: rest2 =>
          match mergeOps last2 newOp with
          | some merged => lastOp :: merged :: rest2
          | none => lastOp :: newOp :: last2 :: rest2
      else
        newOp :: rev

/-- Fold `push` over an op stream, producing the delta in normal order. -/
def pushFold (stream : List Op) : List Op :=
  (stream.foldl pushR []).reverse

/-- quill-delta `Delta.chop`: drop one trailing plain retain. -/
def chop (ops : List Op) : List Op :=
  match ops.reverse with
  | .retain (_ + 1) none :: rest => rest.reverse
  | _ => ops

/-- Build a normalized delta from an op stream, as quill-delta does by
pushing each produced op and chopping the result. -/
def normD (stream : List Op) : Delta :=
  chop (pushFold stream)

/- ── compose ─────────────────────────────────────────────────────────────
quill-delta `Delta.compose(other)`, written as a recursion on the two op
lists; the mutable `OpIterator`s of the JS source become explicit head
splitting with `Op.take` / `Op.drop`.  The recursion is indexed by a fuel
that a later lemma shows is always sufficient.  The JS fast paths (the
initial-plain-retain shortcut and the trailing `concat` shortcut) are pure
optimizations whose output differs from the main loop only by push-merging
on deltas that are not already push-normalized; the model always takes the
main loop and push-normalizes the whole output. -/

/-- The total number of length units in an op list. -/
def opsTotal (ops : List Op) : Nat := (ops.map Op.len).sum

/-- Fuel that dominates the number of loop iterations of the iterator pair. -/
def fuelFor (x y : List Op) : Nat :=
  2 * (opsTotal x + opsTotal y) + x.length + y.length + 1

/-- The ops emitted for one aligned chunk of the compose loop (`thisOp` and
`otherOp` already cut to the common length; `otherOp` is never an insert and
`thisOp` is never a delete here). -/
def composeEmit (thisOp otherOp : Op) : List Op :=
  match otherOp with
  | .retain L oat =>
    match thisOp with
    | .retain _ xat => [.retain L (AttributeMap.compose xat oat true)]
    | .insertText s xat => [.insertText s (AttributeMap.compose xat oat false)]
    | .insertEmbed e xat => [.insertEmbed e (AttributeMap.compose xat oat false)]
    | .delete _ => []
  | .delete L =>
    match thisOp with
    | .retain _ _ => [.delete L]
    | _ => []
  | _ => []

/-- The op stream emitted by the compose loop (`x` is `this`, `y` is
`other`).  Zero-length heads, which the JS iterator cannot make progress on,
are skipped; they cannot occur in structurally valid deltas. -/
def composeGo : Nat → List Op → List Op → List Op
  | 0, _, _ => []
  | fuel + 1, x, y =>
    match y with
    | yo :: y' =>
      if yo.isInsert then yo :: composeGo fuel x y'
      else
        match x with
        | xo :: x' =>
          if xo.isDelete then xo :: composeGo fuel x' y
          else
            let xl := xo.len
            let yl := yo.len
            if xl = 0 then composeGo fuel x' y
            else if yl = 0 then composeGo fuel x y'
            else
              let L := min xl yl
              let x2 := if L = xl then x' else xo.drop L :: x'
              let y2 := if L = yl then y' else yo.drop L :: y'
              composeEmit (xo.take L) (yo.take L) ++ composeGo fuel x2 y2
        | [] =>
          match yo with
          | .retain n oat => .retain n (AttributeMap.compose none oat true) :: composeGo fuel [] y'
          | .delete n => .delete n :: composeGo fuel [] y'
          | _ => []
    | [] =>
      match x with
      | [] => []
      | xo :: x' =>
        if xo.isDelete then xo :: composeGo fuel x' y
        else
          (match xo with
           | .insertText s a => [.insertText s (AttributeMap.compose a none false)]
           | .insertEmbed e a => [.insertEmbed e (AttributeMap.compose a none false)]
           | .retain k a => [.retain k (AttributeMap.compose a none true)]
           | .delete _ => []) ++ composeGo fuel x' []

/- ── transform ───────────────────────────────────────────────────────────
quill-delta `Delta.transform(other, priority)`; `x` is `this`, `y` is
`other`.  With `priority` this delta's inserts win positional ties (they are
skipped over with a retain); without it the other delta's insert is emitted
first. -/

/-- The op stream emitted by the transform loop. -/
def transformGo : Nat → List Op → List Op → Bool → List Op
  | 0, _, _, _ => []
  | fuel + 1, x, y, p =>
    match x with
    | xo :: x' =>
      if xo.isInsert && (p || !(y.head?.map Op.isInsert |>.getD false)) then
        .retain xo.len none :: transformGo fuel x' y p
      else
        match y with
        | yo :: y' =>
          if yo.isInsert then yo :: transformGo fuel x y' p
          else
            let xl := xo.len
            let yl := yo.len
            if xl = 0 then transformGo fuel x' y p
            else if yl = 0 then transformGo fuel x y' p
            else
              let L := min xl yl
              let x2 := if L = xl then x' else xo.drop L :: x'
              let y2 := if L = yl then y' else yo.drop L :: y'
              if xo.isDelete then transformGo fuel x2 y2 p
              else match yo with
                | .delete _ => .delete L :: transformGo fuel x2 y2 p
                | .retain _ oat =>
                  .retain L (AttributeMap.transform (match xo with
                    | .retain _ xat => xat
                    | _ => none) oat p) :: transformGo fuel x2 y2 p
                | _ => []
        | [] =>
          match xo with
          | .delete _ => transformGo fuel x' [] p
          | .retain n xat => .retain n (AttributeMap.transform xat none p) :: transformGo fuel x' [] p
          | _ => []
    | [] =>
      match y with
      | [] => []
      | yo :: y' =>
        if yo.isInsert then yo :: transformGo fuel [] y' p
        else
          match yo with
          | .retain n oat => .retain n (AttributeMap.transform none oat p) :: transformGo fuel [] y' p
          | .delete n => .delete n :: transformGo fuel [] y' p
          | _ => []

namespace Delta

/-- quill-delta `this.compose(other)`. -/
def compose (a b : Delta) : Delta := normD (composeGo (fuelFor a b) a b)

/-- quill-delta `this.transform(other, priority)`. -/
def transform (a b : Delta) (priority : Bool) : Delta :=
  normD (transformGo (fuelFor a b) a b priority)

end Delta

/- ── OTEngine (server/src/services/OTEngine.ts) ─────────────────────────── -/

namespace OTEngine

/-- `OTEngine.transform(clientOp, serverOp)` returns
`serverOp.transform(clientOp, false)`. -/
def transform (clientOp serverOp : Delta) : Delta :=
  Delta.transform serverOp clientOp false

/-- `OTEngine.compose(base, delta)` returns `base.compose(delta)`. -/
def compose (base delta : Delta) : Delta :=
  Delta.compose base delta

/-- `OTEngine.transformMultiple(incomingOp, committedOps)`: a left fold of
`OTEngine.transform` over the committed ops. -/
def transformMultiple (incomingOp : Delta) (committedOps : List Delta) : Delta :=
  committedOps.foldl (fun op committed => transform op committed) incomingOp

end OTEngine

/- Sanity checks of the embedding against quill-delta's documented
behaviour (including the README's transform example). -/
example : OTEngine.transformMultiple [.insertText ['B'] none] [[.insertText ['A'] none]] =
    [.insertText ['B'] none] := by decide

example : OTEngine.compose [.insertText ['A'] none] [.insertText ['B'] none] =
    [.insertText ['B', 'A'] none] := by decide

example : Delta.transform [.insertText ['A'] none] [.insertText ['B'] none] true =
    [.retain 1 none, .insertText ['B'] none] := by decide

example : Delta.transform [.insertText ['a'] none]
    [.insertText ['b'] none, .retain 5 none, .delete 3] true =
    [.retain 1 none, .insertText ['b'] none, .retain 5 none, .delete 3] := by decide

example : Delta.compose [.insertText ['a', 'b', 'c'] none] [.retain 1 none, .delete 1] =
    [.insertText ['a', 'c'] none] := by decide

/- ── Document store (server/src/models) ──────────────────────────────────
The two MongoDB collections: `documents` (snapshot + version) and
`operations` (append-only log with a unique index on `(docId, version)`). -/

/-- One document snapshot row of the `documents` collection. -/
structure DocSnap where
  content : Delta
  version : Nat
  deriving DecidableEq

/-- One row of the `operations` log collection. -/
structure LogEntry where
  docId : String
  version : Nat
  delta : Delta
  userId : String
  socketId : String
  deriving DecidableEq

/-- The persistent store: documents keyed by id, plus the operation log in
insertion order. -/
structure StoreSt where
  docs : List (String × DocSnap)
  log : List LogEntry
  deriving DecidableEq

/-- Lookup of a document row by id. -/
def findDocIn : List (String × DocSnap) → String → Option DocSnap
  | [], _ => none
  | e :: t, k => if e.1 = k then some e.2 else findDocIn t k

/-- Replacement of a document row by id (`_id` is unique, so replacing the
first match is replacing the match). -/
def setEntry : List (String × DocSnap) → String → DocSnap → List (String × DocSnap)
  | [], _, _ => []
  | e :: t, k, d => if e.1 = k then (e.1, d) :: t else e :: setEntry t k d

/-- `DocumentModel.findById`. -/
def findDoc (st : StoreSt) (docId : String) : Option DocSnap :=
  findDocIn st.docs docId

/-- The `$set` of the version-gated `findOneAndUpdate`. -/
def setDoc (st : StoreSt) (docId : String) (d : DocSnap) : StoreSt :=
  { st with docs := setEntry st.docs docId d }

/-- Stable insertion into a version-sorted list. -/
def insertByVersion (e : LogEntry) : List LogEntry → List LogEntry
  | [] => [e]
  | f :: l => if e.version < f.version then e :: f :: l else f :: insertByVersion e l

/-- Sort log entries by ascending version (`sort({ version: 1 })`). -/
def sortByVersion (l : List LogEntry) : List LogEntry :=
  l.foldr insertByVersion []

/-- Errors the write path can signal.  `versionAhead` is listed because the
specification names it; the code never raises it. -/
inductive ApplyErr
  | notFound
  | duplicateKey
  | tooMuchContention
  | versionAhead
  deriving DecidableEq

/- ── DocumentService (DocumentService.ts) ──────────────────────────────── -/

def MAX_RETRIES : Nat := 5

/-- Whether the version-gated `findOneAndUpdate` filter
`{ _id: docId, version: expectedVersion }` matches the store. -/
def gatePass (st : StoreSt) (docId : String) (expectedVersion : Nat) : Bool :=
  match findDoc st docId with
  | some d => d.version = expectedVersion
  | none => false

namespace DocumentService

/-- `DocumentService.getOperationsSince`: log entries of the document with
`version > fromVersion`, ascending. -/
def getOperationsSince (st : StoreSt) (docId : String) (fromVersion : Nat) : List LogEntry :=
  sortByVersion (st.log.filter (fun e => e.docId = docId && fromVersion < e.version))

/-- The retry loop of `DocumentService.applyOperation`.  `interf` models the
work of concurrent writers: before each attempt's version-gated update the
head interference function may mutate the store (this is the race the
`{ version: currentVersion }` filter guards against).  Returns the result,
the final store, and the number of loop iterations executed.  A duplicate
`(docId, version)` log row makes `OperationModel.create` reject, which the
source does not catch, so it surfaces as an error. -/
def applyOperationGo (docId : String) (clientDelta : Delta) (clientVersion : Nat)
    (userId socketId : String) :
    Nat → List (StoreSt → StoreSt) → StoreSt → Except ApplyErr (Delta × Nat) × StoreSt × Nat
  | 0, _, st => (.error .tooMuchContention, st, 0)
  | fuel + 1, interf, st =>
    match findDoc st docId with
    | none => (.error .notFound, st, 1)
    | some doc =>
      let transformedDelta :=
        if clientVersion < doc.version then
          OTEngine.transformMultiple clientDelta
            ((getOperationsSince st docId clientVersion).map (fun e => e.delta))
        else clientDelta
      let st' := (interf.headD id) st
      if gatePass st' docId doc.version then
        let st2 := setDoc st' docId ⟨OTEngine.compose doc.content transformedDelta, doc.version + 1⟩
        if st2.log.any (fun e => e.docId = docId && e.version == doc.version + 1) then
          (.error .duplicateKey, st2, 1)
        else
          (.ok (transformedDelta, doc.version + 1),
           { st2 with
              log := st2.log ++ [⟨docId, doc.version + 1, transformedDelta, userId, socketId⟩] },
           1)
      else
        let r := applyOperationGo docId clientDelta clientVersion userId socketId fuel interf.tail st'
        (r.1, r.2.1, r.2.2 + 1)

/-- `DocumentService.applyOperation` runs the loop with the `MAX_RETRIES`
attempt budget. -/
def applyOperation (docId : String) (clientDelta : Delta) (clientVersion : Nat)
    (userId socketId : String) (interf : List (StoreSt → StoreSt)) (st : StoreSt) :
    Except ApplyErr (Delta × Nat) × StoreSt × Nat :=
  applyOperationGo docId clientDelta clientVersion userId socketId MAX_RETRIES interf st

end DocumentService

/- ── Collaboration session, send-op branch (collabHandler.ts) ────────────
The Redis mutex only serializes work and never changes the success/error
messaging, so the model keeps the `applyOperation` call and the resulting
emissions: on success the transformed op is broadcast to the other room
members and the sender gets `op-ack`; on any thrown error the sender alone
gets `op-error` and nothing is broadcast. -/

/-- Messages a session can emit to clients. -/
inductive ServerMsg
  | receiveOp (delta : Delta) (version : Nat) (userId : String)
  | opAck (version : Nat)
  | opError (message : ApplyErr) (baseVersion : Nat)
  deriving DecidableEq

namespace collabHandler

/-- The `send-op` handler: returns (messages to the sender, messages
broadcast to the other subscribers, new store). -/
def sendOp (docId : String) (rawDelta : Delta) (baseVersion : Nat)
    (userId socketId : String) (interf : List (StoreSt → StoreSt)) (st : StoreSt) :
    List ServerMsg × List ServerMsg × StoreSt :=
  let r := DocumentService.applyOperation docId rawDelta baseVersion userId socketId interf st
  match r.1 with
  | .ok (transformedDelta, newVersion) =>
    ([.opAck newVersion], [.receiveOp transformedDelta newVersion userId], r.2.1)
  | .error e =>
    ([.opError e baseVersion], [], r.2.1)

end collabHandler

instance {α β : Type} [DecidableEq α] [DecidableEq β] : DecidableEq (Except α β) := fun x y =>
  match x, y with
  | .ok a, .ok b =>
    if h : a = b then .isTrue (by rw [h]) else .isFalse (fun hh => by cases hh; exact h rfl)
  | .error a, .error b =>
    if h : a = b then .isTrue (by rw [h]) else .isFalse (fun hh => by cases hh; exact h rfl)
  | .ok _, .error _ => .isFalse (fun hh => by cases hh)
  | .error _, .ok _ => .isFalse (fun hh => by cases hh)

/- ── Client collaboration core (client/src/hooks/useCollaboration.ts) ────
The three refs `knownVersion`, `inFlightOp`, `pendingOp` plus the Quill
editor contents (`view`; the hook reads and writes it through `quillRef`).
A user edit reaches the hook after Quill has already applied it to the
editor, so a local edit composes its delta into `view`; `updateContents`
composes, `setContents` replaces. -/

/-- The client-side state owned by the hook. -/
structure ClientSt where
  knownVersion : Nat
  inFlightOp : Option Delta
  pendingOp : Option Delta
  view : Delta
  deriving DecidableEq

/-- Messages the client emits to the server. -/
inductive ClientMsg
  | sendOp (docId : String) (delta : Delta) (baseVersion : Nat)
  | joinDoc (docId : String) (fromVersion : Nat)
  deriving DecidableEq

/-- Events the client core reacts to. -/
inductive ClientEvent
  | localEdit (delta : Delta)
  | opAck (version : Nat)
  | receiveOp (delta : Delta) (version : Nat) (userId : String)
  | catchupOps (ops : List (Delta × Nat)) (currentVersion : Nat)
  | docSnapshot (content : Delta) (version : Nat)
  | opError
  deriving DecidableEq

namespace useCollaboration

/-- `flushInflight`: emit `send-op` for the current in-flight op, if any. -/
def flushInflight (docId : String) (s : ClientSt) : List ClientMsg :=
  match s.inFlightOp with
  | none => []
  | some d => [.sendOp docId d s.knownVersion]

/-- `onLocalChange`: send immediately when idle, otherwise compose into the
pending buffer. -/
def onLocalChange (docId : String) (s : ClientSt) (delta : Delta) : ClientSt × List ClientMsg :=
  match s.inFlightOp with
  | none =>
    let s' := { s with inFlightOp := some delta, view := Delta.compose s.view delta }
    (s', flushInflight docId s')
  | some _ =>
    ({ s with
        pendingOp := some (match s.pendingOp with
          | some p => Delta.compose p delta
          | none => delta),
        view := Delta.compose s.view delta }, [])

/-- `handleAck`: record the confirmed version, clear the in-flight op, and
promote + send the pending buffer when present. -/
def handleAck (docId : String) (s : ClientSt) (version : Nat) : ClientSt × List ClientMsg :=
  let s1 := { s with knownVersion := version, inFlightOp := none }
  match s1.pendingOp with
  | some p =>
    let s2 := { s1 with inFlightOp := some p, pendingOp := none }
    (s2, flushInflight docId s2)
  | none => (s1, [])

/-- `handleRemoteOp`: apply a peer's committed op, transforming it over the
optimistic local ops (and them over it) when an in-flight op exists. -/
def handleRemoteOp (s : ClientSt) (rawDelta : Delta) (version : Nat) : ClientSt × List ClientMsg :=
  match s.inFlightOp with
  | some f =>
    let localAhead := match s.pendingOp with
      | some p => Delta.compose f p
      | none => f
    let remoteDelta := Delta.transform localAhead rawDelta true
    ({ s with
        inFlightOp := some (Delta.transform remoteDelta f false),
        pendingOp := s.pendingOp.map (fun p => Delta.transform remoteDelta p false),
        view := Delta.compose s.view remoteDelta,
        knownVersion := version }, [])
  | none =>
    ({ s with view := Delta.compose s.view rawDelta, knownVersion := version }, [])

/-- `handleCatchup`: replay every missed op, in the order the server sent
them, into the editor and adopt the server's current version. -/
def handleCatchup (s : ClientSt) (ops : List (Delta × Nat)) (currentVersion : Nat) :
    ClientSt × List ClientMsg :=
  ({ s with
      view := ops.foldl (fun v o => Delta.compose v o.1) s.view,
      knownVersion := currentVersion }, [])

/-- `handleSnapshot`: replace the editor contents and adopt the version. -/
def handleSnapshot (s : ClientSt) (content : Delta) (version : Nat) : ClientSt × List ClientMsg :=
  ({ s with view := content, knownVersion := version }, [])

/-- `handleOpError`: re-join from the known version and clear the optimistic
buffers. -/
def handleOpError (docId : String) (s : ClientSt) : ClientSt × List ClientMsg :=
  ({ s with inFlightOp := none, pendingOp := none }, [.joinDoc docId s.knownVersion])

/-- One client event step: the handler dispatch. -/
def step (docId : String) (s : ClientSt) : ClientEvent → ClientSt × List ClientMsg
  | .localEdit d => onLocalChange docId s d
  | .opAck v => handleAck docId s v
  | .receiveOp d v _ => handleRemoteOp s d v
  | .catchupOps ops cv => handleCatchup s ops cv
  | .docSnapshot c v => handleSnapshot s c v
  | .opError => handleOpError docId s

/-- The state of a fresh editor view. -/
def initialState : ClientSt := ⟨0, none, none, []⟩

/-- Run a sequence of events from the initial state. -/
def run (docId : String) (es : List ClientEvent) : ClientSt :=
  es.foldl (fun s e => (step docId s e).1) initialState

end useCollaboration

/- ── Structures for the OT diamond development ───────────────────────────
Unit-level view of deltas (one op per length unit), documents as element
lists, and an elementwise semantics, used to settle the diamond property of
compose/transform. -/

/-- Strict sortedness of an attribute map by key. -/
def SortedA (m : AttrMap) : Prop := List.Pairwise (fun e f => keyLt e.1 f.1 = true) m

/-- A canonical attribute-map option: absent, or sorted and non-empty (the
shape of every attribute object quill-delta produces). -/
def ValidA : Option AttrMap → Prop
  | none => True
  | some m => m ≠ [] ∧ SortedA m

/-- Option-level key lookup. -/
def aGet (k : String) (o : Option AttrMap) : Option AttrVal := o.bind (getKey k)

/-- One glyph of document content: a character of inserted text or one
embed object. -/
inductive Glyph
  | ch (c : Char)
  | emb (e : String)
  deriving DecidableEq

/-- One length-unit of a delta. -/
inductive UOp
  | uins (g : Glyph) (attrs : Option AttrMap)
  | uret (attrs : Option AttrMap)
  | udel
  deriving DecidableEq

/-- Whether a unit op is an insert. -/
def uIsIns : UOp → Bool
  | .uins _ _ => true
  | _ => false

/-- The unit ops of one delta op. -/
def explodeOp : Op → List UOp
  | .insertText s a => s.map (fun c => .uins (.ch c) a)
  | .insertEmbed e a => [.uins (.emb e) a]
  | .retain n a => List.replicate n (.uret a)
  | .delete n => List.replicate n .udel

/-- The unit ops of a delta. -/
def explode : List Op → List UOp
  | [] => []
  | o :: t => explodeOp o ++ explode t

/-- The op an isolated unit denotes. -/
def toOp : UOp → Op
  | .uins (.ch c) a => .insertText [c] a
  | .uins (.emb e) a => .insertEmbed e a
  | .uret a => .retain 1 a
  | .udel => .delete 1

/-- `Delta.transform` at unit granularity: the loop of `transformGo` with
every chunk of length one. -/
def uTransform : List UOp → List UOp → Bool → List UOp
  | xo :: x', y, p =>
    if uIsIns xo && (p || !(y.head?.map uIsIns |>.getD false)) then
      .uret none :: uTransform x' y p
    else
      match y with
      | yo :: y' =>
        if uIsIns yo then yo :: uTransform (xo :: x') y' p
        else
          match xo with
          | .udel => uTransform x' y' p
          | _ =>
            match yo with
            | .udel => .udel :: uTransform x' y' p
            | .uret oat =>
              .uret (AttributeMap.transform (match xo with
                | .uret xat => xat
                | _ => none) oat p) :: uTransform x' y' p
            | _ => []
      | [] =>
        match xo with
        | .udel => uTransform x' [] p
        | .uret xat => .uret (AttributeMap.transform xat none p) :: uTransform x' [] p
        | _ => []
  | [], y, p =>
    match y with
    | [] => []
    | yo :: y' =>
      if uIsIns yo then yo :: uTransform [] y' p
      else
        match yo with
        | .uret oat => .uret (AttributeMap.transform none oat p) :: uTransform [] y' p
        | .udel => .udel :: uTransform [] y' p
        | _ => []
  termination_by x y _ => x.length + y.length

/-- A document element: a glyph with its formatting. -/
abbrev Elem := Glyph × Option AttrMap

/-- A document: the list of its elements. -/
abbrev DocL := List Elem

/-- Formatting applied to an element by a retain, exactly as `compose` folds
a retain's attributes into an insert (`keepNull = false`). -/
def applyAttrE (a : Option AttrMap) (e : Elem) : Elem :=
  (e.1, AttributeMap.compose e.2 a false)

/-- Elementwise action of a unit-op list on a document: inserts produce
elements, retains reformat one element, deletes drop one element, and
whatever the list does not reach is kept (the implicit trailing retain). -/
def applyU : List UOp → DocL → Option DocL
  | [], d => some d
  | .uins g a :: u, d => (applyU u d).map (fun r => (g, a) :: r)
  | .uret a :: u, e :: d => (applyU u d).map (fun r => applyAttrE a e :: r)
  | .uret _ :: _, [] => none
  | .udel :: u, _ :: d => applyU u d
  | .udel :: _, [] => none

/-- The elements of an insert-only unit stream. -/
def insElems : List UOp → DocL
  | [] => []
  | .uins g a :: u => (g, a) :: insElems u
  | _ :: u => insElems u

/-- The document a (necessarily insert-only) delta denotes. -/
def docOfD (x : Delta) : DocL := insElems (explode x)

/-- How many document units a unit stream consumes (its base length). -/
def blenU : List UOp → Nat
  | [] => 0
  | .uins _ _ :: u => blenU u
  | .uret _ :: u => blenU u + 1
  | .udel :: u => blenU u + 1

/-- How many document units a unit stream produces (its target length). -/
def tlenU : List UOp → Nat
  | [] => 0
  | .uins _ _ :: u => tlenU u + 1
  | .uret _ :: u => tlenU u + 1
  | .udel :: u => tlenU u

/-- Structural validity of one delta op: no zero-length op, and attribute
objects canonical. -/
def ValidOp : Op → Prop
  | .insertText s a => s ≠ [] ∧ ValidA a
  | .insertEmbed _ a => ValidA a
  | .retain n a => n ≠ 0 ∧ ValidA a
  | .delete n => n ≠ 0

/-- Structural validity of a delta. -/
def ValidDelta (x : Delta) : Prop := ∀ o ∈ x, ValidOp o

/-- Validity of a unit op (canonical attribute objects). -/
def UValid : UOp → Prop
  | .uins _ a => ValidA a
  | .uret a => ValidA a
  | .udel => True

/-- Validity of a unit stream. -/
def UValidL (u : List UOp) : Prop := ∀ o ∈ u, UValid o

/-- Validity of a document: every element's formatting is canonical. -/
def ValidDocL (d : DocL) : Prop := ∀ e ∈ d, ValidA e.2

/-- A delta made of inserts only (the shape of a document snapshot). -/
def InsOnly (x : Delta) : Prop := ∀ o ∈ x, o.isInsert = true

/-- The insert-unit stream that lays down a document verbatim. -/
def unitsOfDoc (d : DocL) : List UOp := d.map (fun e => .uins e.1 e.2)

/-- Interference of a concurrent writer that bumps the document version
between a reader's load and its gated update, making every gate fail. -/
def bumpDoc (docId : String) (st : StoreSt) : StoreSt :=
  match findDoc st docId with
  | some d => setDoc st docId ⟨d.content, d.version + 1⟩
  | none => st

/-- Whether a message list contains a `send-op`. -/
def emitsSendOp (msgs : List ClientMsg) : Bool :=
  msgs.any (fun m => match m with | .sendOp _ _ _ => true | _ => false)

/- ════════════════════════ THEOREMS ════════════════════════ -/

/-- C2: the claim says the committed op wins positional ties, so that after
`[insert "A"]` is committed, `transformMultiple([insert "B"], [[insert "A"]])`
is `[retain 1, insert "B"]` and the content becomes `[insert "AB"]`.  The
code actually calls `serverOp.transform(clientOp, false)`, and in quill-delta
`priority = false` means the receiver (`serverOp`) does NOT win ties: the
transformed client insert keeps position 0.  So `transformMultiple` returns
`[insert "B"]` and the composed content is `[insert "BA"]`, contradicting
both the spec scenario and the code's own comment ("priority=false →
serverOp wins on positional ties"). -/
theorem c2_tiebreak_divergence :
    OTEngine.transformMultiple [.insertText ['B'] none] [[.insertText ['A'] none]] =
      [.insertText ['B'] none] ∧
    OTEngine.transformMultiple [.insertText ['B'] none] [[.insertText ['A'] none]] ≠
      [.retain 1 none, .insertText ['B'] none] ∧
    OTEngine.compose [.insertText ['A'] none]
        (OTEngine.transformMultiple [.insertText ['B'] none] [[.insertText ['A'] none]]) =
      [.insertText ['B', 'A'] none] := by
  decide

/-- C6 counterexample: with `inFlightOp = [insert "X"]` present, the claim
requires a replayed `[insert "Y"]` to be transformed against the in-flight op
(yielding view `[insert "XY"]` and an updated in-flight op); the code replays
it raw (view `[insert "YX"]`) and leaves the in-flight op untouched. -/
theorem c6_catchup_counterexample :
    (useCollaboration.step "d" ⟨3, some [.insertText ['X'] none], none, [.insertText ['X'] none]⟩
        (.catchupOps [([.insertText ['Y'] none], 4)] 4)).1.view =
      [.insertText ['Y', 'X'] none] ∧
    (useCollaboration.step "d" ⟨3, some [.insertText ['X'] none], none, [.insertText ['X'] none]⟩
        (.catchupOps [([.insertText ['Y'] none], 4)] 4)).1.view ≠
      Delta.compose [.insertText ['X'] none]
        (Delta.transform [.insertText ['X'] none] [.insertText ['Y'] none] true) ∧
    (useCollaboration.step "d" ⟨3, some [.insertText ['X'] none], none, [.insertText ['X'] none]⟩
        (.catchupOps [([.insertText ['Y'] none], 4)] 4)).1.inFlightOp =
      some [.insertText ['X'] none] := by
  decide

/-- C6 amended: `handleCatchup` applies each replayed delta to the local view
in the order received and sets `knownVersion = currentVersion`, but performs
no transformation at all: `inFlightOp` and `pendingOp` are neither consulted
nor updated, even when they are non-none, and nothing is emitted. -/
theorem c6_catchup_replays_raw (docId : String) (s : ClientSt)
    (ops : List (Delta × Nat)) (currentVersion : Nat) :
    useCollaboration.step docId s (.catchupOps ops currentVersion) =
      ({ s with
          view := ops.foldl (fun v o => Delta.compose v o.1) s.view,
          knownVersion := currentVersion }, []) := rfl

/-- C7 counterexample: a snapshot arriving while `inFlightOp` and `pendingOp`
are both set leaves both untouched, though the claim requires them cleared. -/
theorem c7_snapshot_counterexample :
    (useCollaboration.step "d"
        ⟨0, some [.insertText ['A'] none], some [.insertText ['B'] none], []⟩
        (.docSnapshot [.insertText ['Z'] none] 9)).1.inFlightOp ≠ none ∧
    (useCollaboration.step "d"
        ⟨0, some [.insertText ['A'] none], some [.insertText ['B'] none], []⟩
        (.docSnapshot [.insertText ['Z'] none] 9)).1.pendingOp ≠ none := by
  decide

/-- C7 amended: the snapshot handler replaces the local view with `content`
and sets `knownVersion = version`, but leaves `inFlightOp` and `pendingOp`
exactly as they were (it clears neither). -/
theorem c7_snapshot_keeps_buffers (docId : String) (s : ClientSt)
    (content : Delta) (version : Nat) :
    useCollaboration.step docId s (.docSnapshot content version) =
      ({ s with view := content, knownVersion := version }, []) := rfl

/-- C8 counterexample: with a pending op buffered, the first `op-ack(1)`
promotes it to in-flight and sends it; a second `op-ack(1)` then clears
`inFlightOp` (dropping the just-sent op), so the state after two acks differs
from the state after one — the second application is not a no-op. -/
theorem c8_ack_counterexample :
    (useCollaboration.step "d"
        ⟨0, some [.insertText ['A'] none], some [.insertText ['B'] none], []⟩
        (.opAck 1)).1.inFlightOp = some [.insertText ['B'] none] ∧
    (useCollaboration.step "d"
        (useCollaboration.step "d"
          ⟨0, some [.insertText ['A'] none], some [.insertText ['B'] none], []⟩
          (.opAck 1)).1
        (.opAck 1)).1.inFlightOp = none ∧
    (useCollaboration.step "d"
        (useCollaboration.step "d"
          ⟨0, some [.insertText ['A'] none], some [.insertText ['B'] none], []⟩
          (.opAck 1)).1
        (.opAck 1)).1 ≠
      (useCollaboration.step "d"
        ⟨0, some [.insertText ['A'] none], some [.insertText ['B'] none], []⟩
        (.opAck 1)).1 := by
  decide

/-- C8 amended: acknowledgement is idempotent exactly when no pending op is
buffered: if `pendingOp = none`, processing `op-ack(v)` emits nothing and a
second `op-ack(v)` reproduces the same state and emits nothing. -/
theorem c8_ack_idempotent_when_no_pending (docId : String) (s : ClientSt) (v : Nat)
    (h : s.pendingOp = none) :
    useCollaboration.step docId s (.opAck v) =
      ({ s with knownVersion := v, inFlightOp := none }, []) ∧
    useCollaboration.step docId (useCollaboration.step docId s (.opAck v)).1 (.opAck v) =
      ((useCollaboration.step docId s (.opAck v)).1, []) := by
  constructor
  · simp [useCollaboration.step, useCollaboration.handleAck, h]
  · simp [useCollaboration.step, useCollaboration.handleAck, h]

/-- Witness for C8's amended theorem at a concrete state. -/
theorem c8_ack_idempotent_witness :
    (⟨7, some [.insertText ['A'] none], none, []⟩ : ClientSt).pendingOp = none ∧
    useCollaboration.step "d" (⟨7, some [.insertText ['A'] none], none, []⟩ : ClientSt) (.opAck 9) =
      ({ (⟨7, some [.insertText ['A'] none], none, []⟩ : ClientSt) with
          knownVersion := 9, inFlightOp := none }, []) :=
  ⟨rfl, (c8_ack_idempotent_when_no_pending "d" _ 9 rfl).1⟩

/-- Updating a present key is visible to a subsequent lookup. -/
theorem findDocIn_setEntry (k : String) (d : DocSnap) :
    ∀ l : List (String × DocSnap), (findDocIn l k).isSome →
      findDocIn (setEntry l k d) k = some d := by
  intro l
  induction l with
  | nil => intro h; simp [findDocIn] at h
  | cons e t ih =>
    intro h
    by_cases hk : e.1 = k
    · simp [setEntry, findDocIn, hk]
    · simp only [findDocIn, setEntry, if_neg hk] at h ⊢
      exact ih h

/-- `setDoc` at a present key is visible to `findDoc`. -/
theorem findDoc_setDoc (st : StoreSt) (docId : String) (doc d : DocSnap)
    (h : findDoc st docId = some doc) :
    findDoc (setDoc st docId d) docId = some d := by
  have hs : (findDocIn st.docs docId).isSome := by
    rw [findDoc] at h; rw [h]; rfl
  exact findDocIn_setEntry docId d st.docs hs

/-- Bumping a present document is visible to `findDoc`. -/
theorem findDoc_bumpDoc (st : StoreSt) (docId : String) (doc : DocSnap)
    (h : findDoc st docId = some doc) :
    findDoc (bumpDoc docId st) docId = some ⟨doc.content, doc.version + 1⟩ := by
  rw [bumpDoc, h]
  exact findDoc_setDoc st docId doc _ h

/-- A conflict-free pass of the write loop: the document is present, the
client is not behind, no interference races the gate, and the log has no
entry at the target version; one iteration commits the raw delta. -/
theorem applyOperationGo_clean_commit (docId : String) (st : StoreSt) (doc : DocSnap)
    (delta : Delta) (cv : Nat) (u sck : String) (fuel : Nat)
    (hdoc : findDoc st docId = some doc)
    (hge : doc.version ≤ cv)
    (hnodup : st.log.any (fun e => e.docId = docId && e.version == doc.version + 1) = false) :
    DocumentService.applyOperationGo docId delta cv u sck (fuel + 1) [] st =
      (.ok (delta, doc.version + 1),
       { setDoc st docId ⟨OTEngine.compose doc.content delta, doc.version + 1⟩ with
          log := st.log ++ [⟨docId, doc.version + 1, delta, u, sck⟩] }, 1) := by
  have hgate : gatePass st docId doc.version = true := by simp [gatePass, hdoc]
  simp only [DocumentService.applyOperationGo, hdoc, List.headD, id]
  rw [if_neg (Nat.not_lt.mpr hge)]
  simp [hgate, setDoc, hnodup]

/-- C3 counterexample: on a version-0 document, a call with
`clientVersion = 5 > 0` does not fail with `VersionAhead`; it commits the
delta and mutates the store. -/
theorem c3_versionahead_counterexample :
    (DocumentService.applyOperation "d" [.insertText ['H'] none] 5 "u" "s" []
        ⟨[("d", ⟨[], 0⟩)], []⟩).1 = .ok ([.insertText ['H'] none], 1) ∧
    (DocumentService.applyOperation "d" [.insertText ['H'] none] 5 "u" "s" []
        ⟨[("d", ⟨[], 0⟩)], []⟩).1 ≠ .error .versionAhead ∧
    (DocumentService.applyOperation "d" [.insertText ['H'] none] 5 "u" "s" []
        ⟨[("d", ⟨[], 0⟩)], []⟩).2.1 ≠ ⟨[("d", ⟨[], 0⟩)], []⟩ := by
  decide

/-- C3 amended: `applyOperation` performs no version-ahead check.  Whenever
`clientVersion ≥ currentVersion` (the strict case included), the delta is
committed untransformed — exactly as in the `clientVersion = currentVersion`
case — with `newVersion = currentVersion + 1`, the snapshot composed, and
the log extended. -/
theorem c3_future_version_commits (docId : String) (st : StoreSt) (doc : DocSnap)
    (delta : Delta) (clientVersion : Nat) (u sck : String)
    (hdoc : findDoc st docId = some doc)
    (hge : doc.version ≤ clientVersion)
    (hnodup : st.log.any (fun e => e.docId = docId && e.version == doc.version + 1) = false) :
    (DocumentService.applyOperation docId delta clientVersion u sck [] st).1 =
      .ok (delta, doc.version + 1) ∧
    findDoc (DocumentService.applyOperation docId delta clientVersion u sck [] st).2.1 docId =
      some ⟨OTEngine.compose doc.content delta, doc.version + 1⟩ ∧
    (DocumentService.applyOperation docId delta clientVersion u sck [] st).2.1.log =
      st.log ++ [⟨docId, doc.version + 1, delta, u, sck⟩] := by
  have hcommit := applyOperationGo_clean_commit docId st doc delta clientVersion u sck
    (MAX_RETRIES - 1) hdoc hge hnodup
  have hrun : DocumentService.applyOperation docId delta clientVersion u sck [] st =
      DocumentService.applyOperationGo docId delta clientVersion u sck (MAX_RETRIES - 1 + 1) [] st := rfl
  rw [hrun, hcommit]
  refine ⟨rfl, ?_, rfl⟩
  exact findDoc_setDoc st docId doc _ hdoc

/-- Witness for C3's amended theorem on a version-0 document and
`clientVersion = 5`. -/
theorem c3_future_version_commits_witness :
    findDoc ⟨[("d", ⟨[], 0⟩)], []⟩ "d" = some ⟨[], 0⟩ ∧
    (DocumentService.applyOperation "d" [.insertText ['H'] none] 5 "u" "s" []
        ⟨[("d", ⟨[], 0⟩)], []⟩).1 = .ok ([.insertText ['H'] none], 1) :=
  ⟨rfl, by
    have h := c3_future_version_commits "d" ⟨[("d", ⟨[], 0⟩)], []⟩ ⟨[], 0⟩
      [.insertText ['H'] none] 5 "u" "s" rfl (by decide) rfl
    simpa using h.1⟩

/-- The retry loop executes at most `fuel` iterations. -/
theorem applyOperationGo_attempts_le (docId : String) (delta : Delta) (cv : Nat) (u sck : String) :
    ∀ (fuel : Nat) (interf : List (StoreSt → StoreSt)) (st : StoreSt),
      (DocumentService.applyOperationGo docId delta cv u sck fuel interf st).2.2 ≤ fuel := by
  intro fuel
  induction fuel with
  | zero => intro interf st; simp [DocumentService.applyOperationGo]
  | succ n ih =>
    intro interf st
    simp only [DocumentService.applyOperationGo]
    cases hdoc : findDoc st docId with
    | none => simp
    | some doc =>
      dsimp only
      by_cases hg : gatePass ((interf.headD id) st) docId doc.version = true
      · simp only [hg, if_true]
        split <;> split <;> simp
      · simp only [Bool.not_eq_true] at hg
        simp only [hg, Bool.false_eq_true, if_false]
        exact Nat.succ_le_succ (ih _ _)

/-- If every attempt loses the version race, the loop exhausts its budget
and signals contention. -/
theorem applyOperationGo_all_conflicts (docId : String) (delta : Delta) (cv : Nat)
    (u sck : String) :
    ∀ (fuel : Nat) (st : StoreSt) (doc : DocSnap), findDoc st docId = some doc →
      (DocumentService.applyOperationGo docId delta cv u sck fuel
        (List.replicate fuel (bumpDoc docId)) st).1 = .error .tooMuchContention := by
  intro fuel
  induction fuel with
  | zero => intro st doc h; rfl
  | succ n ih =>
    intro st doc h
    have hbump : findDoc (bumpDoc docId st) docId = some ⟨doc.content, doc.version + 1⟩ :=
      findDoc_bumpDoc st docId doc h
    have hg : gatePass (bumpDoc docId st) docId doc.version = false := by
      simp [gatePass, hbump]
    simp only [DocumentService.applyOperationGo, h, List.replicate, List.headD, List.tail_cons]
    simp only [hg, Bool.false_eq_true, if_false]
    exact ih (bumpDoc docId st) ⟨doc.content, doc.version + 1⟩ hbump

/-- C4: the write path is a bounded retry loop — `MAX_RETRIES` is 5, the
loop body runs at most `MAX_RETRIES` times, a run in which every attempt
loses the version race returns the contention error, and the session reports
any error to the sender alone as `op-error`, broadcasting nothing. -/
theorem c4_bounded_retry (docId : String) (delta : Delta) (baseVersion : Nat) (u sck : String)
    (interf : List (StoreSt → StoreSt)) (st : StoreSt) :
    MAX_RETRIES = 5 ∧
    (DocumentService.applyOperation docId delta baseVersion u sck interf st).2.2 ≤ MAX_RETRIES ∧
    (∀ doc, findDoc st docId = some doc →
      (DocumentService.applyOperation docId delta baseVersion u sck
        (List.replicate MAX_RETRIES (bumpDoc docId)) st).1 = .error .tooMuchContention) ∧
    (∀ e, (DocumentService.applyOperation docId delta baseVersion u sck interf st).1 = .error e →
      collabHandler.sendOp docId delta baseVersion u sck interf st =
        ([.opError e baseVersion], [],
         (DocumentService.applyOperation docId delta baseVersion u sck interf st).2.1)) := by
  refine ⟨rfl, applyOperationGo_attempts_le docId delta baseVersion u sck MAX_RETRIES interf st,
    fun doc hdoc =>
      applyOperationGo_all_conflicts docId delta baseVersion u sck MAX_RETRIES st doc hdoc,
    fun e herr => ?_⟩
  simp only [collabHandler.sendOp, herr]

/-- Witness for C4 on a concrete store where every attempt conflicts. -/
theorem c4_bounded_retry_witness :
    (DocumentService.applyOperation "d" [.insertText ['H'] none] 0 "u" "s"
        (List.replicate MAX_RETRIES (bumpDoc "d")) ⟨[("d", ⟨[], 0⟩)], []⟩).1 =
      .error .tooMuchContention ∧
    collabHandler.sendOp "d" [.insertText ['H'] none] 0 "u" "s"
        (List.replicate MAX_RETRIES (bumpDoc "d")) ⟨[("d", ⟨[], 0⟩)], []⟩ =
      ([.opError .tooMuchContention 0], [],
       (DocumentService.applyOperation "d" [.insertText ['H'] none] 0 "u" "s"
          (List.replicate MAX_RETRIES (bumpDoc "d")) ⟨[("d", ⟨[], 0⟩)], []⟩).2.1) := by
  have h := c4_bounded_retry "d" [.insertText ['H'] none] 0 "u" "s"
    (List.replicate MAX_RETRIES (bumpDoc "d")) ⟨[("d", ⟨[], 0⟩)], []⟩
  have hc := h.2.2.1 ⟨[], 0⟩ rfl
  exact ⟨hc, h.2.2.2 .tooMuchContention hc⟩

/-- C5 counterexample: a concurrent writer logs `(d, 1)` between the load
and the gate; the snapshot commit still passes the gate, but the log append
then hits the unique `(docId, version)` index and `applyOperation` surfaces
the duplicate as an error instead of treating it as success. -/
theorem c5_duplicate_counterexample :
    (DocumentService.applyOperation "d" [.insertText ['H'] none] 0 "u" "s"
        [fun st => { st with log := st.log ++ [⟨"d", 1, [], "x", "y"⟩] }]
        ⟨[("d", ⟨[], 0⟩)], []⟩).1 = .error .duplicateKey ∧
    (DocumentService.applyOperation "d" [.insertText ['H'] none] 0 "u" "s"
        [fun st => { st with log := st.log ++ [⟨"d", 1, [], "x", "y"⟩] }]
        ⟨[("d", ⟨[], 0⟩)], []⟩).1 ≠ .ok ([.insertText ['H'] none], 1) ∧
    (DocumentService.applyOperation "d" [.insertText ['H'] none] 0 "u" "s"
        [fun st => { st with log := st.log ++ [⟨"d", 1, [], "x", "y"⟩] }]
        ⟨[("d", ⟨[], 0⟩)], []⟩).2.1.log = [⟨"d", 1, [], "x", "y"⟩] := by
  decide

/-- C5 amended: when the log already holds an entry at `(docId, newVersion)`
after a successful version-gated commit, `applyOperation` does not treat the
duplicate as success: the (uncaught) unique-index rejection propagates as an
error; the log itself gains no entry from the failed append. -/
theorem c5_duplicate_propagates (docId : String) (st : StoreSt) (doc : DocSnap)
    (delta : Delta) (cv : Nat) (u sck : String)
    (hdoc : findDoc st docId = some doc)
    (hdup : st.log.any (fun e => e.docId = docId && e.version == doc.version + 1) = true) :
    (DocumentService.applyOperation docId delta cv u sck [] st).1 = .error .duplicateKey ∧
    (DocumentService.applyOperation docId delta cv u sck [] st).2.1.log = st.log := by
  have hgen : ∀ fuel : Nat,
      (DocumentService.applyOperationGo docId delta cv u sck (fuel + 1) [] st).1 =
        .error .duplicateKey ∧
      (DocumentService.applyOperationGo docId delta cv u sck (fuel + 1) [] st).2.1.log =
        st.log := by
    intro fuel
    have hgate : gatePass st docId doc.version = true := by simp [gatePass, hdoc]
    simp only [DocumentService.applyOperationGo, hdoc, List.headD, id]
    simp [hgate, setDoc, hdup]
  exact hgen (MAX_RETRIES - 1)

/-- Witness for C5's amended theorem on a store whose log already holds a
version-1 entry while the snapshot is still at version 0. -/
theorem c5_duplicate_propagates_witness :
    findDoc ⟨[("d", ⟨[], 0⟩)], [⟨"d", 1, [], "x", "y"⟩]⟩ "d" = some ⟨[], 0⟩ ∧
    (DocumentService.applyOperation "d" [.insertText ['H'] none] 0 "u" "s" []
        ⟨[("d", ⟨[], 0⟩)], [⟨"d", 1, [], "x", "y"⟩]⟩).1 = .error .duplicateKey :=
  ⟨rfl,
   (c5_duplicate_propagates "d" ⟨[("d", ⟨[], 0⟩)], [⟨"d", 1, [], "x", "y"⟩]⟩ ⟨[], 0⟩
      [.insertText ['H'] none] 0 "u" "s" rfl (by decide)).1⟩

/-- C9: a `send-op` is emitted only by a local edit that finds the channel
idle (`inFlightOp = none`) or by an acknowledgement (which has just retired
the previous in-flight op); and a local edit arriving while an op is in
flight emits nothing — it is composed into `pendingOp` and the in-flight op
is untouched. -/
theorem c9_single_outstanding (docId : String) (s : ClientSt) (e : ClientEvent) :
    (emitsSendOp (useCollaboration.step docId s e).2 = true →
      (s.inFlightOp = none ∧ ∃ d, e = .localEdit d) ∨ (∃ v, e = .opAck v)) ∧
    (∀ d f, s.inFlightOp = some f → e = .localEdit d →
      (useCollaboration.step docId s e).2 = [] ∧
      (useCollaboration.step docId s e).1.inFlightOp = some f ∧
      (useCollaboration.step docId s e).1.pendingOp =
        some (match s.pendingOp with
          | some p => Delta.compose p d
          | none => d)) := by
  constructor
  · intro hsend
    cases e with
    | localEdit d =>
      cases hf : s.inFlightOp with
      | none => exact .inl ⟨rfl, d, rfl⟩
      | some f =>
        simp [useCollaboration.step, useCollaboration.onLocalChange, hf, emitsSendOp] at hsend
    | opAck v => exact .inr ⟨v, rfl⟩
    | receiveOp d v u =>
      cases hf : s.inFlightOp <;>
        simp [useCollaboration.step, useCollaboration.handleRemoteOp, hf, emitsSendOp] at hsend
    | catchupOps ops cv =>
      simp [useCollaboration.step, useCollaboration.handleCatchup, emitsSendOp] at hsend
    | docSnapshot c v =>
      simp [useCollaboration.step, useCollaboration.handleSnapshot, emitsSendOp] at hsend
    | opError =>
      simp [useCollaboration.step, useCollaboration.handleOpError, emitsSendOp] at hsend
  · intro d f hf he
    subst he
    simp [useCollaboration.step, useCollaboration.onLocalChange, hf]

/-- Witness for C9 at concrete inputs: the first conjunct applied where a
send actually happens, the second where an op is in flight. -/
theorem c9_single_outstanding_witness :
    (emitsSendOp (useCollaboration.step "d" useCollaboration.initialState
        (.localEdit [.insertText ['A'] none])).2 = true →
      (useCollaboration.initialState.inFlightOp = none ∧
        ∃ d, ClientEvent.localEdit [.insertText ['A'] none] = .localEdit d) ∨
      (∃ v, ClientEvent.localEdit [.insertText ['A'] none] = .opAck v)) ∧
    ((useCollaboration.step "d"
        ⟨0, some [.insertText ['A'] none], none, []⟩
        (.localEdit [.insertText ['B'] none])).2 = [] ∧
      (useCollaboration.step "d"
        ⟨0, some [.insertText ['A'] none], none, []⟩
        (.localEdit [.insertText ['B'] none])).1.inFlightOp = some [.insertText ['A'] none] ∧
      (useCollaboration.step "d"
        ⟨0, some [.insertText ['A'] none], none, []⟩
        (.localEdit [.insertText ['B'] none])).1.pendingOp = some [.insertText ['B'] none]) :=
  ⟨(c9_single_outstanding "d" useCollaboration.initialState
      (.localEdit [.insertText ['A'] none])).1,
   (c9_single_outstanding "d" ⟨0, some [.insertText ['A'] none], none, []⟩
      (.localEdit [.insertText ['B'] none])).2
      [.insertText ['B'] none] [.insertText ['A'] none] rfl rfl⟩

/-- One event step preserves the buffer implication of C10. -/
theorem step_preserves_pending_inflight (docId : String) (s : ClientSt) (e : ClientEvent)
    (h : s.pendingOp ≠ none → s.inFlightOp ≠ none) :
    (useCollaboration.step docId s e).1.pendingOp ≠ none →
    (useCollaboration.step docId s e).1.inFlightOp ≠ none := by
  cases e with
  | localEdit d =>
    cases hf : s.inFlightOp <;>
      simp [useCollaboration.step, useCollaboration.onLocalChange, hf]
  | opAck v =>
    cases hp : s.pendingOp <;>
      simp [useCollaboration.step, useCollaboration.handleAck, hp]
  | receiveOp d v u =>
    cases hf : s.inFlightOp with
    | none =>
      intro hp
      simp only [useCollaboration.step, useCollaboration.handleRemoteOp, hf] at hp ⊢
      exact absurd hf (h hp)
    | some f =>
      cases hp : s.pendingOp <;>
        simp [useCollaboration.step, useCollaboration.handleRemoteOp, hf, hp]
  | catchupOps ops cv =>
    simpa [useCollaboration.step, useCollaboration.handleCatchup] using h
  | docSnapshot c v =>
    simpa [useCollaboration.step, useCollaboration.handleSnapshot] using h
  | opError =>
    simp [useCollaboration.step, useCollaboration.handleOpError]

/-- Folding events preserves the buffer implication of C10. -/
theorem run_pending_inflight_aux (docId : String) (es : List ClientEvent) :
    ∀ s : ClientSt, (s.pendingOp ≠ none → s.inFlightOp ≠ none) →
      ((es.foldl (fun s e => (useCollaboration.step docId s e).1) s).pendingOp ≠ none →
       (es.foldl (fun s e => (useCollaboration.step docId s e).1) s).inFlightOp ≠ none) := by
  induction es with
  | nil => intro s h; exact h
  | cons e t ih =>
    intro s h
    exact ih ((useCollaboration.step docId s e).1) (step_preserves_pending_inflight docId s e h)

/-- C10: from the initial state (both buffers empty), every sequence of
client events leaves a state in which a non-empty `pendingOp` implies a
non-empty `inFlightOp`. -/
theorem c10_pending_implies_inflight (docId : String) (es : List ClientEvent) :
    (useCollaboration.run docId es).pendingOp ≠ none →
    (useCollaboration.run docId es).inFlightOp ≠ none := by
  exact run_pending_inflight_aux docId es useCollaboration.initialState
    (fun hp => absurd rfl hp)

/-- Witness for C10 at a reachable state with a non-empty pending buffer. -/
theorem c10_pending_implies_inflight_witness :
    (useCollaboration.run "d"
      [.localEdit [.insertText ['A'] none], .localEdit [.insertText ['B'] none]]).inFlightOp ≠
      none :=
  c10_pending_implies_inflight "d"
    [.localEdit [.insertText ['A'] none], .localEdit [.insertText ['B'] none]]
    (by decide)

/- ── Key-order theory ──────────────────────────────────────────────────── -/

theorem charLt_irrefl (a : Char) : charLt a a = false := by simp [charLt]

theorem charLt_trans {a b c : Char} (h1 : charLt a b = true) (h2 : charLt b c = true) :
    charLt a c = true := by
  simp [charLt] at h1 h2 ⊢
  omega

theorem charLt_conn {a b : Char} (h1 : charLt a b = false) (h2 : charLt b a = false) : a = b := by
  simp [charLt] at h1 h2
  have hn : a.val.toNat = b.val.toNat := Nat.le_antisymm h2 h1
  exact Char.ext (UInt32.ext hn)

theorem lexLt_irrefl : ∀ l : List Char, lexLt l l = false := by
  intro l
  induction l with
  | nil => rfl
  | cons c t ih => simp [lexLt, charLt_irrefl, ih]

theorem lexLt_trans : ∀ {l1 l2 l3 : List Char},
    lexLt l1 l2 = true → lexLt l2 l3 = true → lexLt l1 l3 = true := by
  intro l1
  induction l1 with
  | nil =>
    intro l2 l3 h1 h2
    cases l2 with
    | nil => exact h2
    | cons b t2 =>
      cases l3 with
      | nil => simp [lexLt] at h2
      | cons c t3 => rfl
  | cons a t1 ih =>
    intro l2 l3 h1 h2
    cases l2 with
    | nil => simp [lexLt] at h1
    | cons b t2 =>
      cases l3 with
      | nil => simp [lexLt] at h2
      | cons c t3 =>
        simp only [lexLt] at h1 h2 ⊢
        cases hab : charLt a b with
        | true =>
          cases hbc : charLt b c with
          | true => simp [charLt_trans hab hbc]
          | false =>
            cases hcb : charLt c b with
            | true => simp [hbc, hcb] at h2
            | false =>
              have hbceq : b = c := charLt_conn hbc hcb
              subst hbceq
              simp [hab]
        | false =>
          cases hba : charLt b a with
          | true => simp [hab, hba] at h1
          | false =>
            have habeq : a = b := charLt_conn hab hba
            subst habeq
            simp [charLt_irrefl] at h1
            cases hac : charLt a c with
            | true => simp [hac]
            | false =>
              cases hca : charLt c a with
              | true => simp [hac, hca] at h2
              | false =>
                have haceq : a = c := charLt_conn hac hca
                subst haceq
                simp [charLt_irrefl] at h2 ⊢
                exact ih h1 h2

theorem lexLt_conn : ∀ {l1 l2 : List Char},
    lexLt l1 l2 = false → lexLt l2 l1 = false → l1 = l2 := by
  intro l1
  induction l1 with
  | nil =>
    intro l2 h1 _
    cases l2 with
    | nil => rfl
    | cons b t2 => simp [lexLt] at h1
  | cons a t1 ih =>
    intro l2 h1 h2
    cases l2 with
    | nil => simp [lexLt] at h2
    | cons b t2 =>
      simp only [lexLt] at h1 h2
      cases hab : charLt a b with
      | true => simp [hab] at h1
      | false =>
        cases hba : charLt b a with
        | true => simp [hab, hba] at h1 h2
        | false =>
          have hk : a = b := charLt_conn hab hba
          subst hk
          simp [charLt_irrefl] at h1 h2
          rw [ih h1 h2]

theorem keyLt_irrefl (a : String) : keyLt a a = false := lexLt_irrefl a.data

theorem keyLt_trans {a b c : String} (h1 : keyLt a b = true) (h2 : keyLt b c = true) :
    keyLt a c = true := lexLt_trans h1 h2

theorem keyLt_conn {a b : String} (h1 : keyLt a b = false) (h2 : keyLt b a = false) :
    a = b := by
  cases a with
  | mk d1 =>
    cases b with
    | mk d2 =>
      have hd : d1 = d2 := lexLt_conn h1 h2
      rw [hd]

theorem keyLt_ne {a b : String} (h : keyLt a b = true) : a ≠ b := by
  intro hh
  subst hh
  rw [keyLt_irrefl] at h
  exact Bool.false_ne_true h

/- ── Sorted-map lemmas ── -/

theorem getKey_insEntry (k : String) (kv : String × AttrVal) :
    ∀ m : AttrMap, getKey k (insEntry kv m) =
      if kv.1 = k then some kv.2 else getKey k m := by
  intro m
  induction m with
  | nil => simp [insEntry, getKey]
  | cons e t ih =>
    simp only [insEntry]
    cases h1 : keyLt kv.1 e.1 with
    | true =>
      simp only [if_pos rfl, if_true]
      simp [getKey]
    | false =>
      simp only [Bool.false_eq_true, if_false]
      cases h2 : keyLt e.1 kv.1 with
      | true =>
        simp only [if_true]
        simp only [getKey, ih]
        by_cases he : e.1 = k
        · subst he
          have hne : kv.1 ≠ e.1 := Ne.symm (keyLt_ne h2)
          simp [hne]
        · simp [he]
      | false =>
        simp only [Bool.false_eq_true, if_false]
        have heq : e.1 = kv.1 := keyLt_conn h2 h1
        simp only [getKey]
        by_cases hk : kv.1 = k
        · simp [hk]
        · have hek : ¬e.1 = k := fun hh => hk (heq ▸ hh)
          simp [hk, hek]

theorem getKey_foldr_ins (k : String) :
    ∀ (l : List (String × AttrVal)) (base : AttrMap),
      getKey k (l.foldr insEntry base) =
        match getKey k l with
        | some v => some v
        | none => getKey k base := by
  intro l
  induction l with
  | nil => intro base; rfl
  | cons e t ih =>
    intro base
    rw [List.foldr_cons, getKey_insEntry]
    by_cases he : e.1 = k
    · simp [getKey, he]
    · simp [getKey, he, ih]

theorem getKey_none_of_all_ne (k : String) :
    ∀ m : AttrMap, (∀ e ∈ m, e.1 ≠ k) → getKey k m = none := by
  intro m
  induction m with
  | nil => intro _; rfl
  | cons e t ih =>
    intro h
    simp only [getKey, if_neg (h e (by simp))]
    exact ih (fun f hf => h f (by simp [hf]))

theorem sortedA_cons {e : String × AttrVal} {t : AttrMap} :
    SortedA (e :: t) ↔ (∀ f ∈ t, keyLt e.1 f.1 = true) ∧ SortedA t := by
  simp [SortedA, List.pairwise_cons]

theorem getKey_mem (k : String) :
    ∀ m : AttrMap, ∀ v, getKey k m = some v → (k, v) ∈ m := by
  intro m
  induction m with
  | nil => intro v h; simp [getKey] at h
  | cons e t ih =>
    intro v h
    obtain ⟨a, b⟩ := e
    simp only [getKey] at h
    by_cases he : a = k
    · subst he
      rw [if_pos rfl] at h
      cases h
      exact List.mem_cons_self _ _
    · rw [if_neg he] at h
      exact List.mem_cons_of_mem _ (ih v h)

theorem getKey_filter (k : String) (p : String × AttrVal → Bool) :
    ∀ m : AttrMap, SortedA m →
      getKey k (m.filter p) =
        match getKey k m with
        | some v => if p (k, v) then some v else none
        | none => none := by
  intro m
  induction m with
  | nil => intro _; rfl
  | cons e t ih =>
    intro hs
    obtain ⟨hhead, htail⟩ := sortedA_cons.mp hs
    obtain ⟨a, b⟩ := e
    by_cases he : a = k
    · subst he
      have hnone : getKey a (List.filter p t) = none := by
        apply getKey_none_of_all_ne
        intro f hf
        have hft : f ∈ t := List.mem_of_mem_filter hf
        exact fun hh => keyLt_ne (hhead f hft) hh.symm
      cases hp : p (a, b) with
      | true =>
        rw [List.filter_cons]
        rw [hp]
        simp [getKey, hp]
      | false =>
        rw [List.filter_cons]
        rw [hp]
        simp [getKey, hp, hnone]
    · cases hp : p (a, b) with
      | true =>
        rw [List.filter_cons, hp]
        simp only [if_true, getKey, if_neg he]
        exact ih htail
      | false =>
        rw [List.filter_cons, hp]
        simp only [Bool.false_eq_true, if_false, getKey, if_neg he]
        exact ih htail

theorem sorted_getKey_ext :
    ∀ {m n : AttrMap}, SortedA m → SortedA n → (∀ k, getKey k m = getKey k n) → m = n := by
  intro m
  induction m with
  | nil =>
    intro n _ hn h
    cases n with
    | nil => rfl
    | cons f t =>
      have := h f.1
      simp [getKey] at this
  | cons e t ih =>
    intro n hm hn h
    cases n with
    | nil =>
      have := h e.1
      simp [getKey] at this
    | cons f u =>
      obtain ⟨hmh, hmt⟩ := sortedA_cons.mp hm
      obtain ⟨hnh, hnt⟩ := sortedA_cons.mp hn
      have hkeys : e.1 = f.1 := by
        by_contra hne
        cases hef : keyLt e.1 f.1 with
        | true =>
          have h1 := h e.1
          simp only [getKey, if_pos rfl] at h1
          have hne2 : ¬f.1 = e.1 := fun hh => hne hh.symm
          rw [if_neg hne2] at h1
          have hmem := getKey_mem e.1 u e.2 h1.symm
          have := hnh _ hmem
          exact keyLt_ne (keyLt_trans hef this) rfl
        | false =>
          cases hfe : keyLt f.1 e.1 with
          | true =>
            have h1 := h f.1
            simp only [getKey, if_pos rfl] at h1
            rw [if_neg hne] at h1
            have hmem := getKey_mem f.1 t f.2 h1
            have := hmh _ hmem
            exact keyLt_ne (keyLt_trans hfe this) rfl
          | false => exact hne (keyLt_conn hef hfe)
      have hvals : e.2 = f.2 := by
        have h1 := h e.1
        simp only [getKey, if_pos rfl, if_pos hkeys.symm] at h1
        exact Option.some.inj h1
      have htails : t = u := by
        apply ih hmt hnt
        intro k
        by_cases hk : e.1 = k
        · subst hk
          have h1 : getKey e.1 t = none := by
            apply getKey_none_of_all_ne
            intro g hg
            exact fun hh => keyLt_ne (hmh g hg) hh.symm
          have h2 : getKey e.1 u = none := by
            apply getKey_none_of_all_ne
            intro g hg
            exact fun hh => keyLt_ne (hnh g hg) (by rw [← hkeys, hh])
          rw [h1, h2]
        · have h1 := h k
          simp only [getKey, if_neg hk, if_neg (fun hh => hk (hkeys ▸ hh))] at h1
          exact h1
      calc e :: t = (e.1, e.2) :: t := rfl
        _ = (f.1, f.2) :: u := by rw [hkeys, hvals, htails]
        _ = f :: u := rfl

theorem mem_insEntry (kv : String × AttrVal) :
    ∀ m f, f ∈ insEntry kv m → f = kv ∨ f ∈ m := by
  intro m
  induction m with
  | nil =>
    intro f hf
    simp only [insEntry, List.mem_singleton] at hf
    exact .inl hf
  | cons e t ih =>
    intro f hf
    simp only [insEntry] at hf
    cases h1 : keyLt kv.1 e.1 with
    | true =>
      rw [h1] at hf
      simp only [if_pos rfl] at hf
      rcases List.mem_cons.mp hf with h | h
      · exact .inl h
      · exact .inr h
    | false =>
      rw [h1] at hf
      simp only [Bool.false_eq_true, if_false] at hf
      cases h2 : keyLt e.1 kv.1 with
      | true =>
        rw [h2] at hf
        simp only [if_pos rfl] at hf
        rcases List.mem_cons.mp hf with h | h
        · exact .inr (by simp [h])
        · rcases ih f h with h3 | h3
          · exact .inl h3
          · exact .inr (by simp [h3])
      | false =>
        rw [h2] at hf
        simp only [Bool.false_eq_true, if_false] at hf
        rcases List.mem_cons.mp hf with h | h
        · exact .inl h
        · exact .inr (by simp [h])

theorem insEntry_sorted (kv : String × AttrVal) :
    ∀ m : AttrMap, SortedA m → SortedA (insEntry kv m) := by
  intro m
  induction m with
  | nil => intro _; simp [insEntry, SortedA]
  | cons e t ih =>
    intro hs
    obtain ⟨hhead, htail⟩ := sortedA_cons.mp hs
    simp only [insEntry]
    cases h1 : keyLt kv.1 e.1 with
    | true =>
      simp only [if_true]
      refine sortedA_cons.mpr ⟨?_, hs⟩
      intro f hf
      rcases List.mem_cons.mp hf with hfe | hft
      · rw [hfe]; exact h1
      · exact keyLt_trans h1 (hhead f hft)
    | false =>
      simp only [Bool.false_eq_true, if_false]
      cases h2 : keyLt e.1 kv.1 with
      | true =>
        simp only [if_true]
        refine sortedA_cons.mpr ⟨?_, ih htail⟩
        intro f hf
        rcases mem_insEntry kv t f hf with hfk | hft
        · rw [hfk]; exact h2
        · exact hhead f hft
      | false =>
        simp only [Bool.false_eq_true, if_false]
        have heq : e.1 = kv.1 := keyLt_conn h2 h1
        refine sortedA_cons.mpr ⟨?_, htail⟩
        intro f hf
        rw [← heq]
        exact hhead f hf

theorem filter_sorted (p : String × AttrVal → Bool) {m : AttrMap} (hs : SortedA m) :
    SortedA (m.filter p) := by
  exact List.Pairwise.sublist (List.filter_sublist m) hs

theorem foldr_ins_sorted :
    ∀ (l : List (String × AttrVal)) {base : AttrMap}, SortedA base →
      SortedA (l.foldr insEntry base) := by
  intro l
  induction l with
  | nil => intro base h; exact h
  | cons e t ih =>
    intro base h
    exact insEntry_sorted e _ (ih h)

theorem aGet_ite_empty (m : AttrMap) (k : String) :
    aGet k (if m.isEmpty then none else some m) = getKey k m := by
  cases m with
  | nil => rfl
  | cons e t => rfl

theorem aGet_getD (a : Option AttrMap) (k : String) : aGet k a = getKey k (a.getD []) := by
  cases a <;> rfl

theorem validA_sorted {a : Option AttrMap} (ha : ValidA a) : SortedA (a.getD []) := by
  cases a with
  | none => simp [SortedA]
  | some m => exact ha.2

theorem comp_char_true (GA GB : Option AttrVal) :
    (match (match GA with
        | some v => if GB.isNone then some v else none
        | none => none) with
      | some v => some v
      | none => GB) =
    (match GB with
      | some v => if true || v.isSome then some v else none
      | none => GA) := by
  cases GA <;> cases GB <;> simp

theorem comp_char_false (GA GB : Option AttrVal) :
    (match (match GA with
        | some v => if GB.isNone then some v else none
        | none => none) with
      | some v => some v
      | none => match GB with
        | some v => if v.isSome then some v else none
        | none => none) =
    (match GB with
      | some v => if false || v.isSome then some v else none
      | none => GA) := by
  cases GA with
  | none =>
    cases GB with
    | none => simp
    | some v => cases v <;> simp
  | some w =>
    cases GB with
    | none => simp
    | some v => cases v <;> simp

theorem aGet_compose (a b : Option AttrMap) (kN : Bool)
    (ha : ValidA a) (hb : ValidA b) (k : String) :
    aGet k (AttributeMap.compose a b kN) =
      match aGet k b with
      | some v => if kN || v.isSome then some v else none
      | none => aGet k a := by
  simp only [AttributeMap.compose]
  rw [aGet_ite_empty, getKey_foldr_ins,
    getKey_filter _ _ _ (validA_sorted ha)]
  rw [aGet_getD a, aGet_getD b]
  cases kN with
  | true =>
    simp only [if_pos rfl]
    exact comp_char_true _ _
  | false =>
    simp only [Bool.false_eq_true, if_false]
    rw [getKey_filter _ _ _ (validA_sorted hb)]
    exact comp_char_false _ _

theorem aGet_transform (a b : Option AttrMap) (p : Bool)
    (hb : ValidA b) (k : String) :
    aGet k (AttributeMap.transform a b p) =
      if p && (aGet k a).isSome then none else aGet k b := by
  cases a with
  | none => simp [AttributeMap.transform, aGet]
  | some aM =>
    cases b with
    | none =>
      simp [AttributeMap.transform, aGet]
    | some bM =>
      cases p with
      | false => simp [AttributeMap.transform, aGet]
      | true =>
        simp only [AttributeMap.transform, Bool.not_true, Bool.false_eq_true, if_false]
        rw [aGet_ite_empty, getKey_filter _ _ _ hb.2]
        cases hga : getKey k aM <;> cases hgb : getKey k bM <;>
          simp [aGet, hga, hgb]

theorem compose_validA (a b : Option AttrMap) (kN : Bool)
    (_ha : ValidA a) (hb : ValidA b) : ValidA (AttributeMap.compose a b kN) := by
  have hbase : ∀ base : AttrMap, SortedA base →
      ValidA (if (((a.getD []).filter
          (fun e => (getKey e.1 (b.getD [])).isNone)).foldr insEntry base).isEmpty
        then none
        else some (((a.getD []).filter
          (fun e => (getKey e.1 (b.getD [])).isNone)).foldr insEntry base)) := by
    intro base hb2
    split
    · exact trivial
    · rename_i hne
      refine ⟨?_, foldr_ins_sorted _ hb2⟩
      intro hnil
      rw [hnil] at hne
      simp at hne
  simp only [AttributeMap.compose]
  cases kN with
  | true =>
    simp only [if_pos rfl]
    exact hbase _ (validA_sorted hb)
  | false =>
    simp only [Bool.false_eq_true, if_false]
    exact hbase _ (filter_sorted _ (validA_sorted hb))

theorem transform_validA (a b : Option AttrMap) (p : Bool)
    (hb : ValidA b) : ValidA (AttributeMap.transform a b p) := by
  cases a with
  | none => exact hb
  | some aM =>
    cases b with
    | none => trivial
    | some bM =>
      cases p with
      | false => simpa [AttributeMap.transform] using hb
      | true =>
        simp only [AttributeMap.transform, Bool.not_true, Bool.false_eq_true, if_false]
        split
        · exact trivial
        · rename_i hne
          refine ⟨?_, filter_sorted _ hb.2⟩
          intro hnil
          rw [hnil] at hne
          simp at hne

theorem validA_ext {a b : Option AttrMap} (ha : ValidA a) (hb : ValidA b)
    (h : ∀ k, aGet k a = aGet k b) : a = b := by
  cases a with
  | none =>
    cases b with
    | none => rfl
    | some m =>
      obtain ⟨hne, _⟩ := hb
      cases m with
      | nil => exact absurd rfl hne
      | cons e t =>
        have := h e.1
        simp [aGet, getKey] at this
  | some m =>
    cases b with
    | none =>
      obtain ⟨hne, _⟩ := ha
      cases m with
      | nil => exact absurd rfl hne
      | cons e t =>
        have := h e.1
        simp [aGet, getKey] at this
    | some n =>
      rw [sorted_getKey_ext ha.2 hb.2 (fun k => h k)]

theorem compose_none_right (a : Option AttrMap) (kN : Bool) (ha : ValidA a) :
    AttributeMap.compose a none kN = a := by
  apply validA_ext (compose_validA a none kN ha trivial) ha
  intro k
  rw [aGet_compose a none kN ha trivial]
  simp [aGet]

theorem tp1_attr (x a b : Option AttrMap)
    (hx : ValidA x) (ha : ValidA a) (hb : ValidA b) :
    AttributeMap.compose (AttributeMap.compose x a false)
        (AttributeMap.transform a b false) false =
      AttributeMap.compose (AttributeMap.compose x b false)
        (AttributeMap.transform b a true) false := by
  have hxa := compose_validA x a false hx ha
  have hxb := compose_validA x b false hx hb
  have hta := transform_validA a b false hb
  have htb := transform_validA b a true ha
  apply validA_ext (compose_validA _ _ false hxa hta) (compose_validA _ _ false hxb htb)
  intro k
  rw [aGet_compose _ _ false hxa hta, aGet_compose _ _ false hxb htb,
    aGet_compose x a false hx ha, aGet_compose x b false hx hb,
    aGet_transform a b false hb, aGet_transform b a true ha]
  cases hgb : aGet k b with
  | some v =>
    cases hga : aGet k a <;> simp [hga, hgb]
  | none =>
    cases hga : aGet k a <;> simp [hga, hgb]


/- ── Unit-stream semantics lemmas ──────────────────────────────────────── -/

theorem applyAttrE_none {e : Elem} (he : ValidA e.2) : applyAttrE none e = e := by
  obtain ⟨g, a⟩ := e
  simp only [applyAttrE]
  rw [compose_none_right a false he]

theorem uValidL_cons {o : UOp} {u : List UOp} :
    UValidL (o :: u) ↔ UValid o ∧ UValidL u := by
  constructor
  · intro h
    exact ⟨h o (by simp), fun f hf => h f (by simp [hf])⟩
  · intro h f hf
    rcases List.mem_cons.mp hf with h1 | h1
    · rw [h1]; exact h.1
    · exact h.2 f h1

theorem validDocL_cons {e : Elem} {d : DocL} :
    ValidDocL (e :: d) ↔ ValidA e.2 ∧ ValidDocL d := by
  constructor
  · intro h
    exact ⟨h e (by simp), fun f hf => h f (by simp [hf])⟩
  · intro h f hf
    rcases List.mem_cons.mp hf with h1 | h1
    · rw [h1]; exact h.1
    · exact h.2 f h1

theorem applyU_valid :
    ∀ (u : List UOp) (d d' : DocL), applyU u d = some d' →
      UValidL u → ValidDocL d → ValidDocL d' := by
  intro u
  induction u with
  | nil =>
    intro d d' h _ hd
    cases h
    exact hd
  | cons o t ih =>
    intro d d' h hu hd
    obtain ⟨ho, ht⟩ := uValidL_cons.mp hu
    cases o with
    | uins g a =>
      simp only [applyU] at h
      cases hr : applyU t d with
      | none => rw [hr] at h; cases h
      | some r =>
        rw [hr] at h
        cases h
        exact validDocL_cons.mpr ⟨ho, ih d r hr ht hd⟩
    | uret a =>
      cases d with
      | nil => cases h
      | cons e dt =>
        obtain ⟨he, hdt⟩ := validDocL_cons.mp hd
        simp only [applyU] at h
        cases hr : applyU t dt with
        | none => rw [hr] at h; cases h
        | some r =>
          rw [hr] at h
          cases h
          refine validDocL_cons.mpr ⟨?_, ih dt r hr ht hdt⟩
          exact compose_validA _ _ false he ho
    | udel =>
      cases d with
      | nil => cases h
      | cons e dt =>
        simp only [applyU] at h
        exact ih dt d' h ht (validDocL_cons.mp hd).2

theorem applyU_some :
    ∀ (u : List UOp) (d : DocL), blenU u ≤ d.length →
      ∃ d', applyU u d = some d' ∧ d'.length + blenU u = tlenU u + d.length := by
  intro u
  induction u with
  | nil =>
    intro d _
    exact ⟨d, rfl, by simp [blenU, tlenU]⟩
  | cons o t ih =>
    intro d hle
    cases o with
    | uins g a =>
      simp only [blenU] at hle
      obtain ⟨r, hr, hlen⟩ := ih d hle
      refine ⟨(g, a) :: r, ?_, ?_⟩
      · simp [applyU, hr]
      · simp only [blenU, tlenU, List.length_cons]
        omega
    | uret a =>
      cases d with
      | nil => simp [blenU] at hle
      | cons e dt =>
        simp only [blenU, List.length_cons] at hle
        obtain ⟨r, hr, hlen⟩ := ih dt (by omega)
        refine ⟨applyAttrE a e :: r, ?_, ?_⟩
        · simp [applyU, hr]
        · simp only [blenU, tlenU, List.length_cons] at hlen ⊢
          omega
    | udel =>
      cases d with
      | nil => simp [blenU] at hle
      | cons e dt =>
        simp only [blenU, List.length_cons] at hle
        obtain ⟨r, hr, hlen⟩ := ih dt (by omega)
        refine ⟨r, ?_, ?_⟩
        · simp [applyU, hr]
        · simp only [blenU, tlenU, List.length_cons] at hlen ⊢
          omega

theorem applyU_replicate_ret_none :
    ∀ (k : Nat) (d : DocL), ValidDocL d → k ≤ d.length →
      applyU (List.replicate k (.uret none)) d = some d := by
  intro k
  induction k with
  | zero => intro d _ _; rfl
  | succ n ih =>
    intro d hd hk
    cases d with
    | nil => simp at hk
    | cons e dt =>
      obtain ⟨he, hdt⟩ := validDocL_cons.mp hd
      simp only [List.replicate, applyU]
      rw [ih dt hdt (by simpa using hk)]
      simp [applyAttrE_none he]

theorem uTransform_nil_left (y : List UOp) (p : Bool) : uTransform [] y p = y := by
  induction y with
  | nil => simp [uTransform]
  | cons yo y' ih => cases yo <;> simp [uTransform, uIsIns, ih, AttributeMap.transform]

theorem uTransform_nil_right : ∀ (x : List UOp) (p : Bool),
    uTransform x [] p = List.replicate (tlenU x) (.uret none) := by
  intro x p
  induction x with
  | nil => simp [uTransform, tlenU]
  | cons xo x' ih =>
    cases xo with
    | uins g a =>
      simp [uTransform, uIsIns, tlenU, ih, List.replicate_succ]
    | uret a =>
      cases a with
      | none =>
        simp [uTransform, uIsIns, tlenU, ih, List.replicate_succ, AttributeMap.transform]
      | some m =>
        simp [uTransform, uIsIns, tlenU, ih, List.replicate_succ, AttributeMap.transform]
    | udel =>
      simp [uTransform, uIsIns, tlenU, ih]


theorem uValid_ins {g : Glyph} {a : Option AttrMap} (h : UValid (.uins g a)) : ValidA a := h

theorem uValid_ret {a : Option AttrMap} (h : UValid (.uret a)) : ValidA a := h

/-- The convergence core (transformation property TP1) of the quill-delta
transform, elementwise: transforming each of two concurrent unit streams
over the other (the already-committed side keeping priority) and applying
the results to the respective intermediate documents reaches one common
document. -/
theorem tp1_unit :
    ∀ (x y : List UOp) (d : DocL),
      UValidL x → UValidL y → ValidDocL d →
      blenU x ≤ d.length → blenU y ≤ d.length →
      ∃ dx dy dz,
        applyU x d = some dx ∧ applyU y d = some dy ∧
        applyU (uTransform x y false) dx = some dz ∧
        applyU (uTransform y x true) dy = some dz := by
  intro x
  induction x with
  | nil =>
    intro y d _ hvy hvd _ hby
    obtain ⟨dy, hdy, hlen⟩ := applyU_some y d hby
    refine ⟨d, dy, dy, rfl, hdy, ?_, ?_⟩
    · rw [uTransform_nil_left]
      exact hdy
    · rw [uTransform_nil_right]
      exact applyU_replicate_ret_none (tlenU y) dy
        (applyU_valid y d dy hdy hvy hvd) (by omega)
  | cons xo x' ihx =>
    intro y
    induction y with
    | nil =>
      intro d hvx _ hvd hbx _
      obtain ⟨dx, hdx, hlen⟩ := applyU_some (xo :: x') d hbx
      refine ⟨dx, d, dx, hdx, rfl, ?_, ?_⟩
      · rw [uTransform_nil_right]
        exact applyU_replicate_ret_none _ dx
          (applyU_valid _ d dx hdx hvx hvd) (by omega)
      · rw [uTransform_nil_left]
        exact hdx
    | cons yo y' ihy =>
      intro d hvx hvy hvd hbx hby
      obtain ⟨hvxo, hvx'⟩ := uValidL_cons.mp hvx
      obtain ⟨hvyo, hvy'⟩ := uValidL_cons.mp hvy
      cases xo with
      | uins g A =>
        cases yo with
        | uins h B =>
          have hb' : blenU y' ≤ d.length := by simpa [blenU] using hby
          obtain ⟨dx0, dy0, dz0, h1, h2, h3, h4⟩ := ihy d hvx hvy' hvd hbx hb'
          have ht1 : uTransform (.uins g A :: x') (.uins h B :: y') false =
              .uins h B :: uTransform (.uins g A :: x') y' false := by
            simp [uTransform, uIsIns]
          have ht2 : uTransform (.uins h B :: y') (.uins g A :: x') true =
              .uret none :: uTransform y' (.uins g A :: x') true := by
            simp [uTransform, uIsIns]
          refine ⟨dx0, (h, B) :: dy0, (h, B) :: dz0, h1, by simp [applyU, h2], ?_, ?_⟩
          · rw [ht1]
            simp [applyU, h3]
          · rw [ht2]
            simp [applyU, h4]
            exact @applyAttrE_none (h, B) (uValid_ins hvyo)
        | uret B =>
          have hb' : blenU x' ≤ d.length := by simpa [blenU] using hbx
          obtain ⟨dx0, dy0, dz0, h1, h2, h3, h4⟩ :=
            ihx (.uret B :: y') d hvx' hvy hvd hb' hby
          have ht1 : uTransform (.uins g A :: x') (.uret B :: y') false =
              .uret none :: uTransform x' (.uret B :: y') false := by
            simp [uTransform, uIsIns]
          have ht2 : uTransform (.uret B :: y') (.uins g A :: x') true =
              .uins g A :: uTransform (.uret B :: y') x' true := by
            simp [uTransform, uIsIns]
          refine ⟨(g, A) :: dx0, dy0, (g, A) :: dz0, by simp [applyU, h1], h2, ?_, ?_⟩
          · rw [ht1]
            simp [applyU, h3]
            exact @applyAttrE_none (g, A) (uValid_ins hvxo)
          · rw [ht2]
            simp [applyU, h4]
        | udel =>
          have hb' : blenU x' ≤ d.length := by simpa [blenU] using hbx
          obtain ⟨dx0, dy0, dz0, h1, h2, h3, h4⟩ :=
            ihx (.udel :: y') d hvx' hvy hvd hb' hby
          have ht1 : uTransform (.uins g A :: x') (.udel :: y') false =
              .uret none :: uTransform x' (.udel :: y') false := by
            simp [uTransform, uIsIns]
          have ht2 : uTransform (.udel :: y') (.uins g A :: x') true =
              .uins g A :: uTransform (.udel :: y') x' true := by
            simp [uTransform, uIsIns]
          refine ⟨(g, A) :: dx0, dy0, (g, A) :: dz0, by simp [applyU, h1], h2, ?_, ?_⟩
          · rw [ht1]
            simp [applyU, h3]
            exact @applyAttrE_none (g, A) (uValid_ins hvxo)
          · rw [ht2]
            simp [applyU, h4]
      | uret A =>
        cases yo with
        | uins h B =>
          have hb' : blenU y' ≤ d.length := by simpa [blenU] using hby
          obtain ⟨dx0, dy0, dz0, h1, h2, h3, h4⟩ := ihy d hvx hvy' hvd hbx hb'
          have ht1 : uTransform (.uret A :: x') (.uins h B :: y') false =
              .uins h B :: uTransform (.uret A :: x') y' false := by
            simp [uTransform, uIsIns]
          have ht2 : uTransform (.uins h B :: y') (.uret A :: x') true =
              .uret none :: uTransform y' (.uret A :: x') true := by
            simp [uTransform, uIsIns]
          refine ⟨dx0, (h, B) :: dy0, (h, B) :: dz0, h1, by simp [applyU, h2], ?_, ?_⟩
          · rw [ht1]
            simp [applyU, h3]
          · rw [ht2]
            simp [applyU, h4]
            exact @applyAttrE_none (h, B) (uValid_ins hvyo)
        | uret B =>
          cases d with
          | nil => simp [blenU] at hbx
          | cons e d' =>
            obtain ⟨hve, hvd'⟩ := validDocL_cons.mp hvd
            have hbx' : blenU x' ≤ d'.length := by
              simp only [blenU, List.length_cons] at hbx
              omega
            have hby' : blenU y' ≤ d'.length := by
              simp only [blenU, List.length_cons] at hby
              omega
            obtain ⟨dx0, dy0, dz0, h1, h2, h3, h4⟩ := ihx y' d' hvx' hvy' hvd' hbx' hby'
            have ht1 : uTransform (.uret A :: x') (.uret B :: y') false =
                .uret (AttributeMap.transform A B false) :: uTransform x' y' false := by
              simp [uTransform, uIsIns]
            have ht2 : uTransform (.uret B :: y') (.uret A :: x') true =
                .uret (AttributeMap.transform B A true) :: uTransform y' x' true := by
              simp [uTransform, uIsIns]
            refine ⟨applyAttrE A e :: dx0, applyAttrE B e :: dy0,
              applyAttrE (AttributeMap.transform A B false) (applyAttrE A e) :: dz0,
              by simp [applyU, h1], by simp [applyU, h2], ?_, ?_⟩
            · rw [ht1]
              simp [applyU, h3]
            · rw [ht2]
              simp only [applyU, h4, Option.map_some]
              have helem : applyAttrE (AttributeMap.transform B A true) (applyAttrE B e) =
                  applyAttrE (AttributeMap.transform A B false) (applyAttrE A e) := by
                simp only [applyAttrE]
                rw [(tp1_attr e.2 A B hve (uValid_ret hvxo) (uValid_ret hvyo)).symm]
              rw [helem]
              rfl
        | udel =>
          cases d with
          | nil => simp [blenU] at hbx
          | cons e d' =>
            obtain ⟨hve, hvd'⟩ := validDocL_cons.mp hvd
            have hbx' : blenU x' ≤ d'.length := by
              simp only [blenU, List.length_cons] at hbx
              omega
            have hby' : blenU y' ≤ d'.length := by
              simp only [blenU, List.length_cons] at hby
              omega
            obtain ⟨dx0, dy0, dz0, h1, h2, h3, h4⟩ := ihx y' d' hvx' hvy' hvd' hbx' hby'
            have ht1 : uTransform (.uret A :: x') (.udel :: y') false =
                .udel :: uTransform x' y' false := by
              simp [uTransform, uIsIns]
            have ht2 : uTransform (.udel :: y') (.uret A :: x') true =
                uTransform y' x' true := by
              simp [uTransform, uIsIns]
            refine ⟨applyAttrE A e :: dx0, dy0, dz0,
              by simp [applyU, h1], by simp [applyU, h2], ?_, ?_⟩
            · rw [ht1]
              simp [applyU, h3]
            · rw [ht2]
              exact h4
      | udel =>
        cases d with
        | nil => simp [blenU] at hbx
        | cons e d' =>
          obtain ⟨hve, hvd'⟩ := validDocL_cons.mp hvd
          have hbx' : blenU x' ≤ d'.length := by
            simp only [blenU, List.length_cons] at hbx
            omega
          cases yo with
          | uins h B =>
            have hb' : blenU y' ≤ (e :: d').length := by simpa [blenU] using hby
            obtain ⟨dx0, dy0, dz0, h1, h2, h3, h4⟩ :=
              ihy (e :: d') hvx hvy' hvd hbx hb'
            have ht1 : uTransform (.udel :: x') (.uins h B :: y') false =
                .uins h B :: uTransform (.udel :: x') y' false := by
              simp [uTransform, uIsIns]
            have ht2 : uTransform (.uins h B :: y') (.udel :: x') true =
                .uret none :: uTransform y' (.udel :: x') true := by
              simp [uTransform, uIsIns]
            refine ⟨dx0, (h, B) :: dy0, (h, B) :: dz0, h1, by simp [applyU, h2], ?_, ?_⟩
            · rw [ht1]
              simp [applyU, h3]
            · rw [ht2]
              simp [applyU, h4]
              exact @applyAttrE_none (h, B) (uValid_ins hvyo)
          | uret B =>
            have hby' : blenU y' ≤ d'.length := by
              simp only [blenU, List.length_cons] at hby
              omega
            obtain ⟨dx0, dy0, dz0, h1, h2, h3, h4⟩ := ihx y' d' hvx' hvy' hvd' hbx' hby'
            have ht1 : uTransform (.udel :: x') (.uret B :: y') false =
                uTransform x' y' false := by
              simp [uTransform, uIsIns]
            have ht2 : uTransform (.uret B :: y') (.udel :: x') true =
                .udel :: uTransform y' x' true := by
              simp [uTransform, uIsIns]
            refine ⟨dx0, applyAttrE B e :: dy0, dz0,
              by simp [applyU, h1], by simp [applyU, h2], ?_, ?_⟩
            · rw [ht1]
              exact h3
            · rw [ht2]
              simp [applyU, h4]
          | udel =>
            have hby' : blenU y' ≤ d'.length := by
              simp only [blenU, List.length_cons] at hby
              omega
            obtain ⟨dx0, dy0, dz0, h1, h2, h3, h4⟩ := ihx y' d' hvx' hvy' hvd' hbx' hby'
            have ht1 : uTransform (.udel :: x') (.udel :: y') false =
                uTransform x' y' false := by
              simp [uTransform, uIsIns]
            have ht2 : uTransform (.udel :: y') (.udel :: x') true =
                uTransform y' x' true := by
              simp [uTransform, uIsIns]
            refine ⟨dx0, dy0, dz0, by simp [applyU, h1], by simp [applyU, h2], ?_, ?_⟩
            · rw [ht1]
              exact h3
            · rw [ht2]
              exact h4

/- ── Explosion lemmas ──────────────────────────────────────────────────── -/

theorem explode_append : ∀ (s t : List Op), explode (s ++ t) = explode s ++ explode t := by
  intro s t
  induction s with
  | nil => rfl
  | cons o s' ih => simp [explode, ih]

theorem explodeOp_len (o : Op) : (explodeOp o).length = o.len := by
  cases o <;> simp [explodeOp, Op.len]

theorem validDelta_cons {o : Op} {s : List Op} :
    ValidDelta (o :: s) ↔ ValidOp o ∧ ValidDelta s := by
  constructor
  · intro h
    exact ⟨h o (by simp), fun f hf => h f (by simp [hf])⟩
  · intro h f hf
    rcases List.mem_cons.mp hf with h1 | h1
    · rw [h1]; exact h.1
    · exact h.2 f h1

theorem validDelta_append {s t : List Op} :
    ValidDelta (s ++ t) ↔ ValidDelta s ∧ ValidDelta t := by
  constructor
  · intro h
    exact ⟨fun f hf => h f (by simp [hf]), fun f hf => h f (by simp [hf])⟩
  · intro h f hf
    rcases List.mem_append.mp hf with h1 | h1
    · exact h.1 f h1
    · exact h.2 f h1

theorem validDelta_nil : ValidDelta [] := by
  intro o ho
  simp at ho

/-- Transform of aligned retain runs at unit level. -/
theorem uT_ret_ret :
    ∀ (L : Nat) (A B : Option AttrMap) (X Y : List UOp) (p : Bool),
      uTransform (List.replicate L (.uret A) ++ X) (List.replicate L (.uret B) ++ Y) p =
        List.replicate L (.uret (AttributeMap.transform A B p)) ++
          uTransform X Y p := by
  intro L
  induction L with
  | zero => intro A B X Y p; rfl
  | succ n ih =>
    intro A B X Y p
    simp only [List.replicate_succ, List.cons_append]
    rw [show uTransform (.uret A :: (List.replicate n (.uret A) ++ X))
        (.uret B :: (List.replicate n (.uret B) ++ Y)) p =
        .uret (AttributeMap.transform A B p) ::
          uTransform (List.replicate n (.uret A) ++ X)
            (List.replicate n (.uret B) ++ Y) p from by
      simp [uTransform, uIsIns]]
    rw [ih]

/-- Transform of an aligned retain run against a delete run. -/
theorem uT_ret_del :
    ∀ (L : Nat) (A : Option AttrMap) (X Y : List UOp) (p : Bool),
      uTransform (List.replicate L (.uret A) ++ X) (List.replicate L .udel ++ Y) p =
        List.replicate L .udel ++ uTransform X Y p := by
  intro L
  induction L with
  | zero => intro A X Y p; rfl
  | succ n ih =>
    intro A X Y p
    simp only [List.replicate_succ, List.cons_append]
    rw [show uTransform (.uret A :: (List.replicate n (.uret A) ++ X))
        (.udel :: (List.replicate n .udel ++ Y)) p =
        .udel :: uTransform (List.replicate n (.uret A) ++ X)
          (List.replicate n .udel ++ Y) p from by
      simp [uTransform, uIsIns]]
    rw [ih]

/-- Transform of a delete run against an aligned retain run. -/
theorem uT_del_ret :
    ∀ (L : Nat) (B : Option AttrMap) (X Y : List UOp) (p : Bool),
      uTransform (List.replicate L .udel ++ X) (List.replicate L (.uret B) ++ Y) p =
        uTransform X Y p := by
  intro L
  induction L with
  | zero => intro B X Y p; rfl
  | succ n ih =>
    intro B X Y p
    simp only [List.replicate_succ, List.cons_append]
    rw [show uTransform (.udel :: (List.replicate n .udel ++ X))
        (.uret B :: (List.replicate n (.uret B) ++ Y)) p =
        uTransform (List.replicate n .udel ++ X)
          (List.replicate n (.uret B) ++ Y) p from by
      simp [uTransform, uIsIns]]
    rw [ih]

/-- Transform of aligned delete runs. -/
theorem uT_del_del :
    ∀ (L : Nat) (X Y : List UOp) (p : Bool),
      uTransform (List.replicate L .udel ++ X) (List.replicate L .udel ++ Y) p =
        uTransform X Y p := by
  intro L
  induction L with
  | zero => intro X Y p; rfl
  | succ n ih =>
    intro X Y p
    simp only [List.replicate_succ, List.cons_append]
    rw [show uTransform (.udel :: (List.replicate n .udel ++ X))
        (.udel :: (List.replicate n .udel ++ Y)) p =
        uTransform (List.replicate n .udel ++ X)
          (List.replicate n .udel ++ Y) p from by
      simp [uTransform, uIsIns]]
    rw [ih]

/-- Transform of a leading retain run when the other side is exhausted. -/
theorem uT_ret_nil :
    ∀ (n : Nat) (A : Option AttrMap) (X : List UOp) (p : Bool),
      uTransform (List.replicate n (.uret A) ++ X) [] p =
        List.replicate n (.uret none) ++ uTransform X [] p := by
  intro n
  induction n with
  | zero => intro A X p; rfl
  | succ k ih =>
    intro A X p
    simp only [List.replicate_succ, List.cons_append]
    rw [show uTransform (.uret A :: (List.replicate k (.uret A) ++ X)) [] p =
        .uret (AttributeMap.transform A none p) ::
          uTransform (List.replicate k (.uret A) ++ X) [] p from by
      simp [uTransform, uIsIns]]
    rw [ih]
    cases A <;> simp [AttributeMap.transform]

/-- Transform of a leading delete run when the other side is exhausted. -/
theorem uT_del_nil :
    ∀ (n : Nat) (X : List UOp) (p : Bool),
      uTransform (List.replicate n .udel ++ X) [] p = uTransform X [] p := by
  intro n
  induction n with
  | zero => intro X p; rfl
  | succ k ih =>
    intro X p
    simp only [List.replicate_succ, List.cons_append]
    rw [show uTransform (.udel :: (List.replicate k .udel ++ X)) [] p =
        uTransform (List.replicate k .udel ++ X) [] p from by
      simp [uTransform, uIsIns]]
    rw [ih]

/-- A leading insert run on this side is skipped over with plain retains
whenever this side has priority or the other side is not inserting. -/
theorem uT_ins_left :
    ∀ (gs X Y : List UOp) (p : Bool),
      (∀ u ∈ gs, uIsIns u = true) →
      (p || !((Y.head?.map uIsIns).getD false)) = true →
      uTransform (gs ++ X) Y p =
        List.replicate gs.length (.uret none) ++ uTransform X Y p := by
  intro gs
  induction gs with
  | nil => intro X Y p _ _; rfl
  | cons g gs' ih =>
    intro X Y p hins hcond
    have hg : uIsIns g = true := hins g (by simp)
    simp only [List.cons_append]
    rw [show uTransform (g :: (gs' ++ X)) Y p =
        .uret none :: uTransform (gs' ++ X) Y p from by
      cases g with
      | uins gl a =>
        rw [uTransform.eq_def]
        simp only [uIsIns, Bool.true_and, hcond, if_true]
      | uret a => simp [uIsIns] at hg
      | udel => simp [uIsIns] at hg]
    rw [ih X Y p (fun u hu => hins u (by simp [hu])) hcond]
    simp [List.replicate_succ]

/-- A leading insert run on the other side is emitted verbatim whenever this
side is not a prioritized insert. -/
theorem uT_ins_right :
    ∀ (gs X Y : List UOp) (p : Bool),
      (∀ u ∈ gs, uIsIns u = true) →
      (((X.head?.map uIsIns).getD false) && p) = false →
      uTransform X (gs ++ Y) p = gs ++ uTransform X Y p := by
  intro gs
  induction gs with
  | nil => intro X Y p _ _; rfl
  | cons g gs' ih =>
    intro X Y p hins hcond
    have hg : uIsIns g = true := hins g (by simp)
    simp only [List.cons_append]
    rw [show uTransform X (g :: (gs' ++ Y)) p = g :: uTransform X (gs' ++ Y) p from ?_]
    · rw [ih X Y p (fun u hu => hins u (by simp [hu])) hcond]
    · cases X with
      | nil =>
        rw [uTransform.eq_def]
        cases g with
        | uins gl ga => simp [uIsIns]
        | uret a => simp [uIsIns] at hg
        | udel => simp [uIsIns] at hg
      | cons xo X' =>
        have hcond2 : (uIsIns xo && p) = false := hcond
        rw [uTransform.eq_def]
        cases g with
        | uins gl ga =>
          cases xo with
          | uins xl xa =>
            have hp : p = false := by simpa [uIsIns] using hcond2
            simp [uIsIns, hp]
          | uret xa => simp [uIsIns]
          | udel => simp [uIsIns]
        | uret a => simp [uIsIns] at hg
        | udel => simp [uIsIns] at hg

/-- Transform against a leading retain run when this side is exhausted. -/
theorem uT_nil_ret :
    ∀ (n : Nat) (B : Option AttrMap) (Y : List UOp) (p : Bool),
      uTransform [] (List.replicate n (.uret B) ++ Y) p =
        List.replicate n (.uret (AttributeMap.transform none B p)) ++
          uTransform [] Y p := by
  intro n
  induction n with
  | zero => intro B Y p; rfl
  | succ k ih =>
    intro B Y p
    simp only [List.replicate_succ, List.cons_append]
    rw [show uTransform [] (.uret B :: (List.replicate k (.uret B) ++ Y)) p =
        .uret (AttributeMap.transform none B p) ::
          uTransform [] (List.replicate k (.uret B) ++ Y) p from by
      rw [uTransform.eq_def]
      simp [uIsIns]]
    rw [ih]

/-- Transform against a leading delete run when this side is exhausted. -/
theorem uT_nil_del :
    ∀ (n : Nat) (Y : List UOp) (p : Bool),
      uTransform [] (List.replicate n .udel ++ Y) p =
        List.replicate n .udel ++ uTransform [] Y p := by
  intro n
  induction n with
  | zero => intro Y p; rfl
  | succ k ih =>
    intro Y p
    simp only [List.replicate_succ, List.cons_append]
    rw [show uTransform [] (.udel :: (List.replicate k .udel ++ Y)) p =
        .udel :: uTransform [] (List.replicate k .udel ++ Y) p from by
      rw [uTransform.eq_def]
      simp [uIsIns]]
    rw [ih]

/-- The explosion's head is an insert unit exactly when the delta's head is
an insert op. -/
theorem headIns_explode : ∀ {y : List Op}, ValidDelta y →
    ((explode y).head?.map uIsIns).getD false =
      ((y.head?.map Op.isInsert).getD false) := by
  intro y hv
  cases y with
  | nil => rfl
  | cons yo y' =>
    have hvo : ValidOp yo := hv yo (by simp)
    cases yo with
    | insertText s a =>
      obtain ⟨hs, -⟩ := hvo
      cases s with
      | nil => exact absurd rfl hs
      | cons c s' => simp [explode, explodeOp, uIsIns, Op.isInsert]
    | insertEmbed e a => simp [explode, explodeOp, uIsIns, Op.isInsert]
    | retain n a =>
      obtain ⟨hn, -⟩ := hvo
      cases n with
      | zero => exact absurd rfl hn
      | succ m =>
        simp [explode, explodeOp, List.replicate_succ, uIsIns, Op.isInsert]
    | delete n =>
      cases n with
      | zero => exact absurd rfl hvo
      | succ m =>
        simp [explode, explodeOp, List.replicate_succ, uIsIns, Op.isInsert]

/-- Every unit of an insert op's explosion is an insert unit. -/
theorem explodeOp_allIns : ∀ {o : Op}, o.isInsert = true →
    ∀ u ∈ explodeOp o, uIsIns u = true := by
  intro o h u hu
  cases o with
  | insertText s a =>
    simp [explodeOp] at hu
    obtain ⟨c, -, rfl⟩ := hu
    rfl
  | insertEmbed e a =>
    simp [explodeOp] at hu
    subst hu
    rfl
  | retain n a => simp [Op.isInsert] at h
  | delete n => simp [Op.isInsert] at h

/-- A replicate splits at any cut below its length. -/
theorem replicate_cut {α : Type} (n L : Nat) (hL : L ≤ n) (a : α) :
    List.replicate n a = List.replicate L a ++ List.replicate (n - L) a := by
  rw [← List.replicate_add]
  congr 1
  omega

/-- Explosion of the remainder of a retain op after a chunk is consumed. -/
theorem explode_tail_ret (n L : Nat) (a : Option AttrMap) (x' : List Op) :
    explode (if L = n then x' else Op.retain (n - L) a :: x') =
      List.replicate (n - L) (.uret a) ++ explode x' := by
  by_cases h : L = n
  · simp [h, explode]
  · simp [h, explode, explodeOp]

/-- Explosion of the remainder of a delete op after a chunk is consumed. -/
theorem explode_tail_del (n L : Nat) (x' : List Op) :
    explode (if L = n then x' else Op.delete (n - L) :: x') =
      List.replicate (n - L) .udel ++ explode x' := by
  by_cases h : L = n
  · simp [h, explode]
  · simp [h, explode, explodeOp]

/-- Validity of the remainder of a retain op after a chunk is consumed. -/
theorem valid_tail_ret {n L : Nat} {a : Option AttrMap} {x' : List Op}
    (hL : L ≤ n) (ha : ValidA a) (hv : ValidDelta x') :
    ValidDelta (if L = n then x' else Op.retain (n - L) a :: x') := by
  by_cases h : L = n
  · simpa [h] using hv
  · have hz : n - L ≠ 0 := by omega
    simp only [h, if_false]
    exact validDelta_cons.2 ⟨⟨hz, ha⟩, hv⟩

/-- Validity of the remainder of a delete op after a chunk is consumed. -/
theorem valid_tail_del {n L : Nat} {x' : List Op}
    (hL : L ≤ n) (hv : ValidDelta x') :
    ValidDelta (if L = n then x' else Op.delete (n - L) :: x') := by
  by_cases h : L = n
  · simpa [h] using hv
  · have hz : n - L ≠ 0 := by omega
    simp only [h, if_false]
    exact validDelta_cons.2 ⟨hz, hv⟩

/-- Unit count of an op list, cons form. -/
theorem opsTotal_cons (o : Op) (t : List Op) :
    opsTotal (o :: t) = o.len + opsTotal t := by
  simp [opsTotal]

/-- Unit count of the remainder of a retain op after a chunk is consumed. -/
theorem opsTotal_tail_ret (n L : Nat) (a : Option AttrMap) (x' : List Op) :
    opsTotal (if L = n then x' else Op.retain (n - L) a :: x') =
      (n - L) + opsTotal x' := by
  by_cases h : L = n <;> simp [h, opsTotal, Op.len]

/-- Unit count of the remainder of a delete op after a chunk is consumed. -/
theorem opsTotal_tail_del (n L : Nat) (x' : List Op) :
    opsTotal (if L = n then x' else Op.delete (n - L) :: x') =
      (n - L) + opsTotal x' := by
  by_cases h : L = n <;> simp [h, opsTotal, Op.len]

/-- Length bound of the remainder list after a chunk is consumed. -/
theorem length_tail {α : Type} (L n : Nat) (o : α) (x' : List α) :
    (if L = n then x' else o :: x').length ≤ x'.length + 1 := by
  by_cases h : L = n <;> simp [h]

/-- Transforming against an exhausted other side erases the attributes. -/
theorem transform_none_right (a : Option AttrMap) (p : Bool) :
    AttributeMap.transform a none p = none := by
  cases a <;> rfl

/-- The transform loop agrees with the unit-level transform through
explosion, and always emits a structurally valid stream. -/
theorem transformGo_units :
    ∀ (fuel : Nat) (x y : List Op) (p : Bool), ValidDelta x → ValidDelta y →
      fuelFor x y ≤ fuel →
      explode (transformGo fuel x y p) = uTransform (explode x) (explode y) p ∧
        ValidDelta (transformGo fuel x y p) := by
  intro fuel
  induction fuel with
  | zero =>
    intro x y p _ _ hfuel
    simp [fuelFor] at hfuel
  | succ fuel ih =>
    intro x y p hvx hvy hfuel
    cases x with
    | nil =>
      cases y with
      | nil =>
        refine ⟨?_, validDelta_nil⟩
        show ([] : List UOp) = uTransform [] [] p
        rw [uTransform.eq_def]
      | cons yo y' =>
        have hvyo : ValidOp yo := hvy yo (by simp)
        have hvy' : ValidDelta y' := fun o ho => hvy o (by simp [ho])
        have hfy : fuelFor [] y' ≤ fuel := by
          simp only [fuelFor, opsTotal, List.map_cons, List.sum_cons, List.map_nil,
            List.sum_nil, List.length_nil, List.length_cons] at hfuel ⊢
          omega
        obtain ⟨ihe0, ihv⟩ := ih [] y' p validDelta_nil hvy' hfy
        have ihe : explode (transformGo fuel [] y' p) = uTransform [] (explode y') p := ihe0
        cases yo with
        | insertText s a =>
          obtain ⟨hs, hva⟩ := hvyo
          have hred : transformGo (fuel+1) [] (Op.insertText s a :: y') p =
              Op.insertText s a :: transformGo fuel [] y' p := by
            simp [transformGo, Op.isInsert]
          refine ⟨?_, ?_⟩
          · rw [hred]
            rw [show explode (Op.insertText s a :: transformGo fuel [] y' p) =
              explodeOp (Op.insertText s a) ++ explode (transformGo fuel [] y' p) from rfl]
            rw [ihe]
            rw [show explode (Op.insertText s a :: y') =
              explodeOp (Op.insertText s a) ++ explode y' from rfl]
            rw [show explode ([] : List Op) = [] from rfl]
            rw [uT_ins_right (explodeOp (Op.insertText s a)) [] (explode y') p
              (explodeOp_allIns rfl) (by simp)]
          · rw [hred]
            exact validDelta_cons.2 ⟨⟨hs, hva⟩, ihv⟩
        | insertEmbed e a =>
          have hred : transformGo (fuel+1) [] (Op.insertEmbed e a :: y') p =
              Op.insertEmbed e a :: transformGo fuel [] y' p := by
            simp [transformGo, Op.isInsert]
          refine ⟨?_, ?_⟩
          · rw [hred]
            rw [show explode (Op.insertEmbed e a :: transformGo fuel [] y' p) =
              explodeOp (Op.insertEmbed e a) ++ explode (transformGo fuel [] y' p) from rfl]
            rw [ihe]
            rw [show explode (Op.insertEmbed e a :: y') =
              explodeOp (Op.insertEmbed e a) ++ explode y' from rfl]
            rw [show explode ([] : List Op) = [] from rfl]
            rw [uT_ins_right (explodeOp (Op.insertEmbed e a)) [] (explode y') p
              (explodeOp_allIns rfl) (by simp)]
          · rw [hred]
            exact validDelta_cons.2 ⟨hvyo, ihv⟩
        | retain m b =>
          obtain ⟨hm, hvb⟩ := hvyo
          have hred : transformGo (fuel+1) [] (Op.retain m b :: y') p =
              Op.retain m (AttributeMap.transform none b p) ::
                transformGo fuel [] y' p := by
            simp [transformGo, Op.isInsert]
          refine ⟨?_, ?_⟩
          · rw [hred]
            rw [show explode (Op.retain m (AttributeMap.transform none b p) ::
                transformGo fuel [] y' p) =
              List.replicate m (.uret (AttributeMap.transform none b p)) ++
                explode (transformGo fuel [] y' p) from rfl]
            rw [ihe]
            rw [show explode (Op.retain m b :: y') =
              List.replicate m (.uret b) ++ explode y' from rfl]
            rw [show explode ([] : List Op) = [] from rfl]
            rw [uT_nil_ret]
          · rw [hred]
            exact validDelta_cons.2
              ⟨⟨hm, transform_validA none b p hvb⟩, ihv⟩
        | delete m =>
          have hm : m ≠ 0 := hvyo
          have hred : transformGo (fuel+1) [] (Op.delete m :: y') p =
              Op.delete m :: transformGo fuel [] y' p := by
            simp [transformGo, Op.isInsert]
          refine ⟨?_, ?_⟩
          · rw [hred]
            rw [show explode (Op.delete m :: transformGo fuel [] y' p) =
              List.replicate m .udel ++ explode (transformGo fuel [] y' p) from rfl]
            rw [ihe]
            rw [show explode (Op.delete m :: y') =
              List.replicate m .udel ++ explode y' from rfl]
            rw [show explode ([] : List Op) = [] from rfl]
            rw [uT_nil_del]
          · rw [hred]
            exact validDelta_cons.2 ⟨hm, ihv⟩
    | cons xo x' =>
      have hvxo : ValidOp xo := hvx xo (by simp)
      have hvx' : ValidDelta x' := fun o ho => hvx o (by simp [ho])
      by_cases hc1 : (xo.isInsert && (p || !(y.head?.map Op.isInsert |>.getD false))) = true
      · -- this side's insert is skipped over with a plain retain
        have hins : xo.isInsert = true := by
          cases h : xo.isInsert
          · rw [h] at hc1; simp at hc1
          · rfl
        have hz : xo.len ≠ 0 := by
          cases xo with
          | insertText s a =>
            obtain ⟨hs, -⟩ := hvxo
            cases s with
            | nil => exact absurd rfl hs
            | cons c s' => simp [Op.len]
          | insertEmbed e a => simp [Op.len]
          | retain n a => simp [Op.isInsert] at hins
          | delete n => simp [Op.isInsert] at hins
        have hred : transformGo (fuel+1) (xo :: x') y p =
            Op.retain xo.len none :: transformGo fuel x' y p := by
          simp [transformGo, hc1]
        have hfx : fuelFor x' y ≤ fuel := by
          simp only [fuelFor, opsTotal_cons, List.length_cons] at hfuel ⊢
          omega
        obtain ⟨ihe, ihv⟩ := ih x' y p hvx' hvy hfx
        have h2 : (p || !(((explode y).head?.map uIsIns).getD false)) = true := by
          rw [headIns_explode hvy]
          have h3 := hc1
          simp only [Bool.and_eq_true] at h3
          exact h3.2
        refine ⟨?_, ?_⟩
        · rw [hred]
          rw [show explode (Op.retain xo.len none :: transformGo fuel x' y p) =
            List.replicate xo.len (.uret none) ++
              explode (transformGo fuel x' y p) from rfl]
          rw [ihe]
          rw [show explode (xo :: x') = explodeOp xo ++ explode x' from rfl]
          rw [uT_ins_left (explodeOp xo) (explode x') (explode y) p
            (explodeOp_allIns hins) h2]
          rw [explodeOp_len]
        · rw [hred]
          exact validDelta_cons.2 ⟨⟨hz, trivial⟩, ihv⟩
      · rw [Bool.not_eq_true] at hc1
        cases y with
        | nil =>
          have hxi : xo.isInsert = false := by simpa using hc1
          have hfx : fuelFor x' [] ≤ fuel := by
            simp only [fuelFor, opsTotal_cons, List.length_cons] at hfuel ⊢
            omega
          obtain ⟨ihe0, ihv⟩ := ih x' [] p hvx' validDelta_nil hfx
          have ihe : explode (transformGo fuel x' [] p) =
              uTransform (explode x') [] p := ihe0
          cases xo with
          | insertText s a => simp [Op.isInsert] at hxi
          | insertEmbed e a => simp [Op.isInsert] at hxi
          | retain n a =>
            obtain ⟨hn, hva⟩ := hvxo
            have hred : transformGo (fuel+1) (Op.retain n a :: x') [] p =
                Op.retain n (AttributeMap.transform a none p) ::
                  transformGo fuel x' [] p := by
              simp [transformGo, Op.isInsert]
            refine ⟨?_, ?_⟩
            · rw [hred]
              rw [show explode (Op.retain n (AttributeMap.transform a none p) ::
                  transformGo fuel x' [] p) =
                List.replicate n (.uret (AttributeMap.transform a none p)) ++
                  explode (transformGo fuel x' [] p) from rfl]
              rw [ihe]
              rw [show explode (Op.retain n a :: x') =
                List.replicate n (.uret a) ++ explode x' from rfl]
              rw [show explode ([] : List Op) = [] from rfl]
              rw [uT_ret_nil, transform_none_right]
            · rw [hred]
              exact validDelta_cons.2
                ⟨⟨hn, transform_validA a none p trivial⟩, ihv⟩
          | delete n =>
            have hred : transformGo (fuel+1) (Op.delete n :: x') [] p =
                transformGo fuel x' [] p := by
              simp [transformGo, Op.isInsert]
            refine ⟨?_, ?_⟩
            · rw [hred, ihe]
              rw [show explode (Op.delete n :: x') =
                List.replicate n .udel ++ explode x' from rfl]
              rw [show explode ([] : List Op) = [] from rfl]
              rw [uT_del_nil]
            · rw [hred]; exact ihv
        | cons yo y' =>
          have hvyo : ValidOp yo := hvy yo (by simp)
          have hvy' : ValidDelta y' := fun o ho => hvy o (by simp [ho])
          by_cases hyi : yo.isInsert = true
          · -- the other side's insert is emitted verbatim
            have hcx : (xo.isInsert && p) = false := by simpa [hyi] using hc1
            have hcx' : (((explode (xo :: x')).head?.map uIsIns).getD false && p)
                = false := by
              rw [headIns_explode hvx]
              exact hcx
            have hfy : fuelFor (xo :: x') y' ≤ fuel := by
              simp only [fuelFor, opsTotal_cons, List.length_cons] at hfuel ⊢
              omega
            obtain ⟨ihe, ihv⟩ := ih (xo :: x') y' p hvx hvy' hfy
            have hred : transformGo (fuel+1) (xo :: x') (yo :: y') p =
                yo :: transformGo fuel (xo :: x') y' p := by
              simp [transformGo, hyi, hcx]
            refine ⟨?_, ?_⟩
            · rw [hred]
              rw [show explode (yo :: transformGo fuel (xo :: x') y' p) =
                explodeOp yo ++ explode (transformGo fuel (xo :: x') y' p) from rfl]
              rw [ihe]
              rw [show explode (yo :: y') = explodeOp yo ++ explode y' from rfl]
              rw [uT_ins_right (explodeOp yo) (explode (xo :: x')) (explode y') p
                (explodeOp_allIns hyi) hcx']
            · rw [hred]
              exact validDelta_cons.2 ⟨hvyo, ihv⟩
          · -- aligned chunk of two non-insert heads
            rw [Bool.not_eq_true] at hyi
            have hxi : xo.isInsert = false := by simpa [hyi] using hc1
            cases xo with
            | insertText s a => simp [Op.isInsert] at hxi
            | insertEmbed e a => simp [Op.isInsert] at hxi
            | retain n a =>
              obtain ⟨hn, hva⟩ := hvxo
              cases yo with
              | insertText t b => simp [Op.isInsert] at hyi
              | insertEmbed f b => simp [Op.isInsert] at hyi
              | retain m b =>
                obtain ⟨hm, hvb⟩ := hvyo
                have hLn : min n m ≤ n := Nat.min_le_left n m
                have hLm : min n m ≤ m := Nat.min_le_right n m
                have hL1 : 1 ≤ min n m := by omega
                have hred : transformGo (fuel+1) (Op.retain n a :: x')
                    (Op.retain m b :: y') p =
                    Op.retain (min n m) (AttributeMap.transform a b p) ::
                      transformGo fuel
                        (if min n m = n then x'
                          else Op.retain (n - min n m) a :: x')
                        (if min n m = m then y'
                          else Op.retain (m - min n m) b :: y') p := by
                  simp [transformGo, Op.isInsert, Op.isDelete, Op.len, Op.drop,
                    hn, hm]
                have hfc : fuelFor
                    (if min n m = n then x' else Op.retain (n - min n m) a :: x')
                    (if min n m = m then y' else Op.retain (m - min n m) b :: y')
                    ≤ fuel := by
                  have e1 := opsTotal_tail_ret n (min n m) a x'
                  have e2 := opsTotal_tail_ret m (min n m) b y'
                  have l1 := length_tail (min n m) n (Op.retain (n - min n m) a) x'
                  have l2 := length_tail (min n m) m (Op.retain (m - min n m) b) y'
                  simp only [fuelFor, opsTotal_cons, Op.len, List.length_cons]
                    at hfuel
                  simp only [fuelFor]
                  rw [e1, e2]
                  omega
                obtain ⟨ihe, ihv⟩ := ih _ _ p
                  (valid_tail_ret hLn hva hvx') (valid_tail_ret hLm hvb hvy') hfc
                refine ⟨?_, ?_⟩
                · rw [hred]
                  rw [show explode (Op.retain (min n m) (AttributeMap.transform a b p)
                      :: transformGo fuel
                        (if min n m = n then x'
                          else Op.retain (n - min n m) a :: x')
                        (if min n m = m then y'
                          else Op.retain (m - min n m) b :: y') p) =
                    List.replicate (min n m)
                        (.uret (AttributeMap.transform a b p)) ++
                      explode (transformGo fuel
                        (if min n m = n then x'
                          else Op.retain (n - min n m) a :: x')
                        (if min n m = m then y'
                          else Op.retain (m - min n m) b :: y') p) from rfl]
                  rw [ihe]
                  rw [explode_tail_ret n (min n m) a x',
                    explode_tail_ret m (min n m) b y']
                  rw [show explode (Op.retain n a :: x') =
                    List.replicate n (.uret a) ++ explode x' from rfl]
                  rw [show explode (Op.retain m b :: y') =
                    List.replicate m (.uret b) ++ explode y' from rfl]
                  rw [replicate_cut n (min n m) hLn (UOp.uret a),
                    replicate_cut m (min n m) hLm (UOp.uret b)]
                  rw [List.append_assoc, List.append_assoc]
                  rw [uT_ret_ret]
                · rw [hred]
                  exact validDelta_cons.2
                    ⟨⟨by omega, transform_validA a b p hvb⟩, ihv⟩
              | delete m =>
                have hm : m ≠ 0 := hvyo
                have hLn : min n m ≤ n := Nat.min_le_left n m
                have hLm : min n m ≤ m := Nat.min_le_right n m
                have hL1 : 1 ≤ min n m := by omega
                have hred : transformGo (fuel+1) (Op.retain n a :: x')
                    (Op.delete m :: y') p =
                    Op.delete (min n m) ::
                      transformGo fuel
                        (if min n m = n then x'
                          else Op.retain (n - min n m) a :: x')
                        (if min n m = m then y'
                          else Op.delete (m - min n m) :: y') p := by
                  simp [transformGo, Op.isInsert, Op.isDelete, Op.len, Op.drop,
                    hn, hm]
                have hfc : fuelFor
                    (if min n m = n then x' else Op.retain (n - min n m) a :: x')
                    (if min n m = m then y' else Op.delete (m - min n m) :: y')
                    ≤ fuel := by
                  have e1 := opsTotal_tail_ret n (min n m) a x'
                  have e2 := opsTotal_tail_del m (min n m) y'
                  have l1 := length_tail (min n m) n (Op.retain (n - min n m) a) x'
                  have l2 := length_tail (min n m) m (Op.delete (m - min n m)) y'
                  simp only [fuelFor, opsTotal_cons, Op.len, List.length_cons]
                    at hfuel
                  simp only [fuelFor]
                  rw [e1, e2]
                  omega
                obtain ⟨ihe, ihv⟩ := ih _ _ p
                  (valid_tail_ret hLn hva hvx') (valid_tail_del hLm hvy') hfc
                refine ⟨?_, ?_⟩
                · rw [hred]
                  rw [show explode (Op.delete (min n m) ::
                      transformGo fuel
                        (if min n m = n then x'
                          else Op.retain (n - min n m) a :: x')
                        (if min n m = m then y'
                          else Op.delete (m - min n m) :: y') p) =
                    List.replicate (min n m) .udel ++
                      explode (transformGo fuel
                        (if min n m = n then x'
                          else Op.retain (n - min n m) a :: x')
                        (if min n m = m then y'
                          else Op.delete (m - min n m) :: y') p) from rfl]
                  rw [ihe]
                  rw [explode_tail_ret n (min n m) a x',
                    explode_tail_del m (min n m) y']
                  rw [show explode (Op.retain n a :: x') =
                    List.replicate n (.uret a) ++ explode x' from rfl]
                  rw [show explode (Op.delete m :: y') =
                    List.replicate m .udel ++ explode y' from rfl]
                  rw [replicate_cut n (min n m) hLn (UOp.uret a),
                    replicate_cut m (min n m) hLm UOp.udel]
                  rw [List.append_assoc, List.append_assoc]
                  rw [uT_ret_del]
                · rw [hred]
                  exact validDelta_cons.2 ⟨show min n m ≠ 0 by omega, ihv⟩
            | delete n =>
              have hn : n ≠ 0 := hvxo
              cases yo with
              | insertText t b => simp [Op.isInsert] at hyi
              | insertEmbed f b => simp [Op.isInsert] at hyi
              | retain m b =>
                obtain ⟨hm, hvb⟩ := hvyo
                have hLn : min n m ≤ n := Nat.min_le_left n m
                have hLm : min n m ≤ m := Nat.min_le_right n m
                have hL1 : 1 ≤ min n m := by omega
                have hred : transformGo (fuel+1) (Op.delete n :: x')
                    (Op.retain m b :: y') p =
                    transformGo fuel
                      (if min n m = n then x'
                        else Op.delete (n - min n m) :: x')
                      (if min n m = m then y'
                        else Op.retain (m - min n m) b :: y') p := by
                  simp [transformGo, Op.isInsert, Op.isDelete, Op.len, Op.drop,
                    hn, hm]
                have hfc : fuelFor
                    (if min n m = n then x' else Op.delete (n - min n m) :: x')
                    (if min n m = m then y' else Op.retain (m - min n m) b :: y')
                    ≤ fuel := by
                  have e1 := opsTotal_tail_del n (min n m) x'
                  have e2 := opsTotal_tail_ret m (min n m) b y'
                  have l1 := length_tail (min n m) n (Op.delete (n - min n m)) x'
                  have l2 := length_tail (min n m) m (Op.retain (m - min n m) b) y'
                  simp only [fuelFor, opsTotal_cons, Op.len, List.length_cons]
                    at hfuel
                  simp only [fuelFor]
                  rw [e1, e2]
                  omega
                obtain ⟨ihe, ihv⟩ := ih _ _ p
                  (valid_tail_del hLn hvx') (valid_tail_ret hLm hvb hvy') hfc
                refine ⟨?_, ?_⟩
                · rw [hred]
                  rw [ihe]
                  rw [explode_tail_del n (min n m) x',
                    explode_tail_ret m (min n m) b y']
                  rw [show explode (Op.delete n :: x') =
                    List.replicate n .udel ++ explode x' from rfl]
                  rw [show explode (Op.retain m b :: y') =
                    List.replicate m (.uret b) ++ explode y' from rfl]
                  rw [replicate_cut n (min n m) hLn UOp.udel,
                    replicate_cut m (min n m) hLm (UOp.uret b)]
                  rw [List.append_assoc, List.append_assoc]
                  rw [uT_del_ret]
                · rw [hred]
                  exact ihv
              | delete m =>
                have hm : m ≠ 0 := hvyo
                have hLn : min n m ≤ n := Nat.min_le_left n m
                have hLm : min n m ≤ m := Nat.min_le_right n m
                have hL1 : 1 ≤ min n m := by omega
                have hred : transformGo (fuel+1) (Op.delete n :: x')
                    (Op.delete m :: y') p =
                    transformGo fuel
                      (if min n m = n then x'
                        else Op.delete (n - min n m) :: x')
                      (if min n m = m then y'
                        else Op.delete (m - min n m) :: y') p := by
                  simp [transformGo, Op.isInsert, Op.isDelete, Op.len, Op.drop,
                    hn, hm]
                have hfc : fuelFor
                    (if min n m = n then x' else Op.delete (n - min n m) :: x')
                    (if min n m = m then y' else Op.delete (m - min n m) :: y')
                    ≤ fuel := by
                  have e1 := opsTotal_tail_del n (min n m) x'
                  have e2 := opsTotal_tail_del m (min n m) y'
                  have l1 := length_tail (min n m) n (Op.delete (n - min n m)) x'
                  have l2 := length_tail (min n m) m (Op.delete (m - min n m)) y'
                  simp only [fuelFor, opsTotal_cons, Op.len, List.length_cons]
                    at hfuel
                  simp only [fuelFor]
                  rw [e1, e2]
                  omega
                obtain ⟨ihe, ihv⟩ := ih _ _ p
                  (valid_tail_del hLn hvx') (valid_tail_del hLm hvy') hfc
                refine ⟨?_, ?_⟩
                · rw [hred]
                  rw [ihe]
                  rw [explode_tail_del n (min n m) x',
                    explode_tail_del m (min n m) y']
                  rw [show explode (Op.delete n :: x') =
                    List.replicate n .udel ++ explode x' from rfl]
                  rw [show explode (Op.delete m :: y') =
                    List.replicate m .udel ++ explode y' from rfl]
                  rw [replicate_cut n (min n m) hLn UOp.udel,
                    replicate_cut m (min n m) hLm UOp.udel]
                  rw [List.append_assoc, List.append_assoc]
                  rw [uT_del_del]
                · rw [hred]
                  exact ihv

/-- Elements of a concatenation of unit streams. -/
theorem insElems_append : ∀ (u v : List UOp),
    insElems (u ++ v) = insElems u ++ insElems v := by
  intro u v
  induction u with
  | nil => rfl
  | cons g u' ih =>
    cases g with
    | uins gl a => simp [insElems, ih]
    | uret a => simp [insElems, ih]
    | udel => simp [insElems, ih]

/-- Laying down the elements of an insert-only stream rebuilds the stream. -/
theorem unitsOf_insElems : ∀ (gs : List UOp), (∀ g ∈ gs, uIsIns g = true) →
    unitsOfDoc (insElems gs) = gs := by
  intro gs
  induction gs with
  | nil => intro h; rfl
  | cons g gs' ih =>
    intro h
    cases g with
    | uins gl a =>
      have h2 := ih (fun g hg => h g (by simp [hg]))
      simp only [insElems, unitsOfDoc, List.map_cons]
      simp only [unitsOfDoc] at h2
      rw [h2]
    | uret a =>
      have hq := h (.uret a) (by simp)
      simp [uIsIns] at hq
    | udel =>
      have hq := h .udel (by simp)
      simp [uIsIns] at hq

/-- Nil and cons views of an insert-only delta. -/
theorem insOnly_nil : InsOnly [] := by
  intro o ho
  simp at ho

theorem insOnly_cons {o : Op} {s : List Op} :
    InsOnly (o :: s) ↔ o.isInsert = true ∧ InsOnly s := by
  constructor
  · intro h
    exact ⟨h o (by simp), fun q hq => h q (by simp [hq])⟩
  · intro h q hq
    rcases List.mem_cons.1 hq with rfl | hq2
    · exact h.1
    · exact h.2 q hq2

/-- A leading insert run lays its elements down in front of the rest. -/
theorem applyU_ins_run : ∀ (gs u : List UOp) (d : DocL),
    (∀ g ∈ gs, uIsIns g = true) →
    applyU (gs ++ u) d = (applyU u d).map (fun r => insElems gs ++ r) := by
  intro gs
  induction gs with
  | nil =>
    intro u d h
    simp only [List.nil_append, insElems]
    cases applyU u d <;> simp
  | cons g gs' ih =>
    intro u d h
    cases g with
    | uins gl a =>
      have h2 := ih u d (fun g hg => h g (by simp [hg]))
      simp only [List.cons_append, insElems]
      rw [show applyU (.uins gl a :: (gs' ++ u)) d =
        (applyU (gs' ++ u) d).map (fun r => (gl, a) :: r) from by simp [applyU]]
      rw [h2]
      cases applyU u d <;> simp
    | uret a =>
      have hq := h (.uret a) (by simp)
      simp [uIsIns] at hq
    | udel =>
      have hq := h .udel (by simp)
      simp [uIsIns] at hq

/-- A retain run reformats exactly the elements it covers. -/
theorem applyU_ret_run : ∀ (d1 : DocL) (b : Option AttrMap) (u : List UOp)
    (d2 : DocL),
    applyU (List.replicate d1.length (.uret b) ++ u) (d1 ++ d2) =
      (applyU u d2).map (fun r => d1.map (applyAttrE b) ++ r) := by
  intro d1
  induction d1 with
  | nil =>
    intro b u d2
    simp only [List.length_nil, List.replicate_zero, List.nil_append,
      List.map_nil]
    cases applyU u d2 <;> simp
  | cons e d1' ih =>
    intro b u d2
    simp only [List.length_cons, List.replicate_succ, List.cons_append,
      List.map_cons]
    rw [show applyU (.uret b :: (List.replicate d1'.length (.uret b) ++ u))
        (e :: (d1' ++ d2)) =
      (applyU (List.replicate d1'.length (.uret b) ++ u) (d1' ++ d2)).map
        (fun r => applyAttrE b e :: r) from by simp [applyU]]
    rw [ih b u d2]
    cases applyU u d2 <;> simp

/-- A delete run drops exactly the elements it covers. -/
theorem applyU_del_run : ∀ (d1 : DocL) (u : List UOp) (d2 : DocL),
    applyU (List.replicate d1.length .udel ++ u) (d1 ++ d2) = applyU u d2 := by
  intro d1
  induction d1 with
  | nil => intro u d2; simp
  | cons e d1' ih =>
    intro u d2
    simp only [List.length_cons, List.replicate_succ, List.cons_append]
    rw [show applyU (.udel :: (List.replicate d1'.length .udel ++ u))
        (e :: (d1' ++ d2)) =
      applyU (List.replicate d1'.length .udel ++ u) (d1' ++ d2) from by
        simp [applyU]]
    exact ih u d2

/-- The document of a delta, cons form. -/
theorem docOfD_cons (o : Op) (x : List Op) :
    docOfD (o :: x) = insElems (explodeOp o) ++ docOfD x := by
  simp [docOfD, explode, insElems_append]

/-- Elements of a run of inserted characters. -/
theorem insElems_chRun (s : List Char) (a : Option AttrMap) :
    insElems (s.map (fun c => .uins (.ch c) a)) =
      s.map (fun c => (Glyph.ch c, a)) := by
  induction s with
  | nil => rfl
  | cons c s' ih => simp [insElems, ih]

/-- The document of the remainder of a text insert after a chunk. -/
theorem docOfD_tail_insText (s : List Char) (L : Nat) (a : Option AttrMap)
    (x' : List Op) :
    docOfD (if L = s.length then x' else Op.insertText (s.drop L) a :: x') =
      (s.drop L).map (fun c => (Glyph.ch c, a)) ++ docOfD x' := by
  by_cases h : L = s.length
  · simp [h]
  · simp only [h, if_false, docOfD_cons, explodeOp, insElems_chRun]

/-- Validity of the remainder of a text insert after a chunk. -/
theorem valid_tail_insText {s : List Char} {L : Nat} {a : Option AttrMap}
    {x' : List Op} (hL : L ≤ s.length) (hva : ValidA a) (hv : ValidDelta x') :
    ValidDelta (if L = s.length then x' else Op.insertText (s.drop L) a :: x')
    := by
  by_cases h : L = s.length
  · simpa [h] using hv
  · have hlen : 0 < (s.drop L).length := by
      rw [List.length_drop]
      omega
    simp only [h, if_false]
    exact validDelta_cons.2 ⟨⟨List.length_pos.1 hlen, hva⟩, hv⟩

/-- Insert-onliness of the remainder of a text insert after a chunk. -/
theorem insOnly_tail_insText {s : List Char} {L : Nat} {a : Option AttrMap}
    {x' : List Op} (hx : InsOnly x') :
    InsOnly (if L = s.length then x' else Op.insertText (s.drop L) a :: x')
    := by
  by_cases h : L = s.length
  · simpa [h] using hx
  · simp only [h, if_false]
    exact insOnly_cons.2 ⟨rfl, hx⟩

/-- Unit streams of concatenated documents. -/
theorem unitsOfDoc_append (d1 d2 : DocL) :
    unitsOfDoc (d1 ++ d2) = unitsOfDoc d1 ++ unitsOfDoc d2 := by
  simp [unitsOfDoc]

/-- Unit count of the remainder of a text insert after a chunk. -/
theorem opsTotal_tail_insText (s : List Char) (L : Nat) (a : Option AttrMap)
    (x' : List Op) :
    opsTotal (if L = s.length then x' else Op.insertText (s.drop L) a :: x') =
      (s.length - L) + opsTotal x' := by
  by_cases h : L = s.length <;>
    simp [h, opsTotal, Op.len, List.length_drop]

/-- The compose loop, fed an insert-only document delta and a delta that
applies cleanly to its document, lays down exactly the resulting document as
an insert-only, structurally valid stream. -/
theorem composeGo_units :
    ∀ (fuel : Nat) (x y : List Op) (r : DocL), ValidDelta x → InsOnly x →
      ValidDelta y → fuelFor x y ≤ fuel →
      applyU (explode y) (docOfD x) = some r →
      explode (composeGo fuel x y) = unitsOfDoc r ∧
        ValidDelta (composeGo fuel x y) ∧ InsOnly (composeGo fuel x y) := by
  intro fuel
  induction fuel with
  | zero =>
    intro x y r _ _ _ hfuel _
    simp [fuelFor] at hfuel
  | succ fuel ih =>
    intro x y r hvx hix hvy hfuel happ
    cases y with
    | nil =>
      have hr : r = docOfD x := by
        rw [show explode ([] : List Op) = [] from rfl] at happ
        exact (Option.some.inj happ).symm
      subst hr
      cases x with
      | nil => exact ⟨rfl, validDelta_nil, insOnly_nil⟩
      | cons xo x' =>
        have hvxo : ValidOp xo := hvx xo (by simp)
        have hvx' : ValidDelta x' := fun o ho => hvx o (by simp [ho])
        have hins : xo.isInsert = true := hix xo (by simp)
        have hix' : InsOnly x' := fun o ho => hix o (by simp [ho])
        have hfx : fuelFor x' [] ≤ fuel := by
          simp only [fuelFor, opsTotal_cons, List.length_cons] at hfuel ⊢
          omega
        obtain ⟨ihe, ihv, ihi⟩ := ih x' [] (docOfD x') hvx' hix'
          validDelta_nil hfx rfl
        cases xo with
        | insertText s a =>
          obtain ⟨hs, hva⟩ := hvxo
          have hco : AttributeMap.compose a none false = a :=
            compose_none_right a false hva
          have hred : composeGo (fuel+1) (Op.insertText s a :: x') [] =
              Op.insertText s a :: composeGo fuel x' [] := by
            simp [composeGo, Op.isDelete, hco]
          refine ⟨?_, ?_, ?_⟩
          · rw [hred]
            rw [show explode (Op.insertText s a :: composeGo fuel x' []) =
              explodeOp (Op.insertText s a) ++ explode (composeGo fuel x' [])
              from rfl]
            rw [ihe, docOfD_cons, unitsOfDoc_append,
              unitsOf_insElems (explodeOp (Op.insertText s a))
                (explodeOp_allIns rfl)]
          · rw [hred]
            exact validDelta_cons.2 ⟨⟨hs, hva⟩, ihv⟩
          · rw [hred]
            exact insOnly_cons.2 ⟨rfl, ihi⟩
        | insertEmbed e a =>
          have hva : ValidA a := hvxo
          have hco : AttributeMap.compose a none false = a :=
            compose_none_right a false hva
          have hred : composeGo (fuel+1) (Op.insertEmbed e a :: x') [] =
              Op.insertEmbed e a :: composeGo fuel x' [] := by
            simp [composeGo, Op.isDelete, hco]
          refine ⟨?_, ?_, ?_⟩
          · rw [hred]
            rw [show explode (Op.insertEmbed e a :: composeGo fuel x' []) =
              explodeOp (Op.insertEmbed e a) ++ explode (composeGo fuel x' [])
              from rfl]
            rw [ihe, docOfD_cons, unitsOfDoc_append,
              unitsOf_insElems (explodeOp (Op.insertEmbed e a))
                (explodeOp_allIns rfl)]
          · rw [hred]
            exact validDelta_cons.2 ⟨hva, ihv⟩
          · rw [hred]
            exact insOnly_cons.2 ⟨rfl, ihi⟩
        | retain n a => simp [Op.isInsert] at hins
        | delete n => simp [Op.isInsert] at hins
    | cons yo y' =>
      have hvyo : ValidOp yo := hvy yo (by simp)
      have hvy' : ValidDelta y' := fun o ho => hvy o (by simp [ho])
      by_cases hyi : yo.isInsert = true
      · -- the other delta's insert is copied verbatim to the output
        have hred : composeGo (fuel+1) x (yo :: y') =
            yo :: composeGo fuel x y' := by
          simp [composeGo, hyi]
        rw [show explode (yo :: y') = explodeOp yo ++ explode y' from rfl,
          applyU_ins_run (explodeOp yo) (explode y') (docOfD x)
            (explodeOp_allIns hyi)] at happ
        obtain ⟨r2, hr2, hfr⟩ := Option.map_eq_some'.1 happ
        subst hfr
        have hfy : fuelFor x y' ≤ fuel := by
          simp only [fuelFor, opsTotal_cons, List.length_cons] at hfuel ⊢
          omega
        obtain ⟨ihe, ihv, ihi⟩ := ih x y' r2 hvx hix hvy' hfy hr2
        refine ⟨?_, ?_, ?_⟩
        · rw [hred]
          rw [show explode (yo :: composeGo fuel x y') =
            explodeOp yo ++ explode (composeGo fuel x y') from rfl]
          rw [ihe, unitsOfDoc_append,
            unitsOf_insElems _ (explodeOp_allIns hyi)]
        · rw [hred]
          exact validDelta_cons.2 ⟨hvyo, ihv⟩
        · rw [hred]
          exact insOnly_cons.2 ⟨hyi, ihi⟩
      · rw [Bool.not_eq_true] at hyi
        cases x with
        | nil =>
          exfalso
          cases yo with
          | insertText t b => simp [Op.isInsert] at hyi
          | insertEmbed f b => simp [Op.isInsert] at hyi
          | retain m b =>
            obtain ⟨hm, -⟩ := hvyo
            cases m with
            | zero => exact absurd rfl hm
            | succ m0 =>
              rw [show explode (Op.retain (m0+1) b :: y') =
                UOp.uret b :: (List.replicate m0 (.uret b) ++ explode y')
                from by simp [explode, explodeOp, List.replicate_succ]] at happ
              rw [show docOfD [] = [] from rfl] at happ
              simp [applyU] at happ
          | delete m =>
            have hm : m ≠ 0 := hvyo
            cases m with
            | zero => exact absurd rfl hm
            | succ m0 =>
              rw [show explode (Op.delete (m0+1) :: y') =
                UOp.udel :: (List.replicate m0 .udel ++ explode y')
                from by simp [explode, explodeOp, List.replicate_succ]] at happ
              rw [show docOfD [] = [] from rfl] at happ
              simp [applyU] at happ
        | cons xo x' =>
          have hvxo : ValidOp xo := hvx xo (by simp)
          have hvx' : ValidDelta x' := fun o ho => hvx o (by simp [ho])
          have hins : xo.isInsert = true := hix xo (by simp)
          have hix' : InsOnly x' := fun o ho => hix o (by simp [ho])
          cases xo with
          | retain n a => simp [Op.isInsert] at hins
          | delete n => simp [Op.isInsert] at hins
          | insertText s a =>
            obtain ⟨hs, hva⟩ := hvxo
            have hxl : s.length ≠ 0 := by
              have := List.length_pos.2 hs
              omega
            cases yo with
            | insertText t b => simp [Op.isInsert] at hyi
            | insertEmbed f b => simp [Op.isInsert] at hyi
            | retain m b =>
              obtain ⟨hm, hvb⟩ := hvyo
              have hLn : min s.length m ≤ s.length := Nat.min_le_left _ _
              have hLm : min s.length m ≤ m := Nat.min_le_right _ _
              have hL1 : 1 ≤ min s.length m := by omega
              have hred : composeGo (fuel+1) (Op.insertText s a :: x')
                  (Op.retain m b :: y') =
                  Op.insertText (s.take (min s.length m))
                      (AttributeMap.compose a b false) ::
                    composeGo fuel
                      (if min s.length m = s.length then x'
                        else Op.insertText (s.drop (min s.length m)) a :: x')
                      (if min s.length m = m then y'
                        else Op.retain (m - min s.length m) b :: y') := by
                simp [composeGo, composeEmit, Op.isInsert, Op.isDelete, Op.len,
                  Op.take, Op.drop, hxl, hm]
              have hdoc : docOfD (Op.insertText s a :: x') =
                  (s.take (min s.length m)).map (fun c => (Glyph.ch c, a)) ++
                    ((s.drop (min s.length m)).map (fun c => (Glyph.ch c, a)) ++
                      docOfD x') := by
                rw [docOfD_cons]
                rw [show explodeOp (Op.insertText s a) =
                  s.map (fun c => UOp.uins (.ch c) a) from rfl]
                rw [insElems_chRun]
                rw [show s.map (fun c => (Glyph.ch c, a)) =
                  (s.take (min s.length m)).map (fun c => (Glyph.ch c, a)) ++
                    (s.drop (min s.length m)).map (fun c => (Glyph.ch c, a))
                  from by rw [← List.map_append, List.take_append_drop]]
                rw [List.append_assoc]
              have hexp : explode (Op.retain m b :: y') =
                  List.replicate (min s.length m) (.uret b) ++
                    (List.replicate (m - min s.length m) (.uret b) ++
                      explode y') := by
                rw [show explode (Op.retain m b :: y') =
                  List.replicate m (.uret b) ++ explode y' from rfl]
                rw [replicate_cut m (min s.length m) hLm (UOp.uret b),
                  List.append_assoc]
              have hlen1 : ((s.take (min s.length m)).map
                  (fun c => (Glyph.ch c, a))).length = min s.length m := by
                simp [List.length_take]
              have hrun := applyU_ret_run
                ((s.take (min s.length m)).map (fun c => (Glyph.ch c, a))) b
                (List.replicate (m - min s.length m) (.uret b) ++ explode y')
                ((s.drop (min s.length m)).map (fun c => (Glyph.ch c, a)) ++
                  docOfD x')
              rw [hlen1] at hrun
              rw [hexp, hdoc, hrun] at happ
              obtain ⟨r2, hr2, hfr⟩ := Option.map_eq_some'.1 happ
              subst hfr
              have happ2 : applyU
                  (explode (if min s.length m = m then y'
                    else Op.retain (m - min s.length m) b :: y'))
                  (docOfD (if min s.length m = s.length then x'
                    else Op.insertText (s.drop (min s.length m)) a :: x')) =
                  some r2 := by
                rw [explode_tail_ret m (min s.length m) b y',
                  docOfD_tail_insText s (min s.length m) a x']
                exact hr2
              have hfc : fuelFor
                  (if min s.length m = s.length then x'
                    else Op.insertText (s.drop (min s.length m)) a :: x')
                  (if min s.length m = m then y'
                    else Op.retain (m - min s.length m) b :: y') ≤ fuel := by
                have e1 := opsTotal_tail_insText s (min s.length m) a x'
                have e2 := opsTotal_tail_ret m (min s.length m) b y'
                have l1 := length_tail (min s.length m) s.length
                  (Op.insertText (s.drop (min s.length m)) a) x'
                have l2 := length_tail (min s.length m) m
                  (Op.retain (m - min s.length m) b) y'
                simp only [fuelFor, opsTotal_cons, Op.len, List.length_cons]
                  at hfuel
                simp only [fuelFor]
                rw [e1, e2]
                omega
              obtain ⟨ihe, ihv, ihi⟩ := ih
                (if min s.length m = s.length then x'
                  else Op.insertText (s.drop (min s.length m)) a :: x')
                (if min s.length m = m then y'
                  else Op.retain (m - min s.length m) b :: y') r2
                (valid_tail_insText hLn hva hvx') (insOnly_tail_insText hix')
                (valid_tail_ret hLm hvb hvy') hfc happ2
              refine ⟨?_, ?_, ?_⟩
              · rw [hred]
                rw [show explode (Op.insertText (s.take (min s.length m))
                    (AttributeMap.compose a b false) ::
                      composeGo fuel
                        (if min s.length m = s.length then x'
                          else Op.insertText (s.drop (min s.length m)) a :: x')
                        (if min s.length m = m then y'
                          else Op.retain (m - min s.length m) b :: y')) =
                  (s.take (min s.length m)).map
                      (fun c => UOp.uins (.ch c)
                        (AttributeMap.compose a b false)) ++
                    explode (composeGo fuel
                      (if min s.length m = s.length then x'
                        else Op.insertText (s.drop (min s.length m)) a :: x')
                      (if min s.length m = m then y'
                        else Op.retain (m - min s.length m) b :: y'))
                  from rfl]
                rw [ihe, unitsOfDoc_append]
                simp [unitsOfDoc, applyAttrE, List.map_map, Function.comp_def]
              · rw [hred]
                refine validDelta_cons.2
                  ⟨⟨?_, compose_validA a b false hva hvb⟩, ihv⟩
                have hpos : 0 < (s.take (min s.length m)).length := by
                  simp only [List.length_take]
                  omega
                exact List.length_pos.1 hpos
              · rw [hred]
                exact insOnly_cons.2 ⟨rfl, ihi⟩
            | delete m =>
              have hm : m ≠ 0 := hvyo
              have hLn : min s.length m ≤ s.length := Nat.min_le_left _ _
              have hLm : min s.length m ≤ m := Nat.min_le_right _ _
              have hL1 : 1 ≤ min s.length m := by omega
              have hred : composeGo (fuel+1) (Op.insertText s a :: x')
                  (Op.delete m :: y') =
                  composeGo fuel
                    (if min s.length m = s.length then x'
                      else Op.insertText (s.drop (min s.length m)) a :: x')
                    (if min s.length m = m then y'
                      else Op.delete (m - min s.length m) :: y') := by
                simp [composeGo, composeEmit, Op.isInsert, Op.isDelete, Op.len,
                  Op.take, Op.drop, hxl, hm]
              have hdoc : docOfD (Op.insertText s a :: x') =
                  (s.take (min s.length m)).map (fun c => (Glyph.ch c, a)) ++
                    ((s.drop (min s.length m)).map (fun c => (Glyph.ch c, a)) ++
                      docOfD x') := by
                rw [docOfD_cons]
                rw [show explodeOp (Op.insertText s a) =
                  s.map (fun c => UOp.uins (.ch c) a) from rfl]
                rw [insElems_chRun]
                rw [show s.map (fun c => (Glyph.ch c, a)) =
                  (s.take (min s.length m)).map (fun c => (Glyph.ch c, a)) ++
                    (s.drop (min s.length m)).map (fun c => (Glyph.ch c, a))
                  from by rw [← List.map_append, List.take_append_drop]]
                rw [List.append_assoc]
              have hexp : explode (Op.delete m :: y') =
                  List.replicate (min s.length m) .udel ++
                    (List.replicate (m - min s.length m) .udel ++
                      explode y') := by
                rw [show explode (Op.delete m :: y') =
                  List.replicate m .udel ++ explode y' from rfl]
                rw [replicate_cut m (min s.length m) hLm UOp.udel,
                  List.append_assoc]
              have hlen1 : ((s.take (min s.length m)).map
                  (fun c => (Glyph.ch c, a))).length = min s.length m := by
                simp [List.length_take]
              have hrun := applyU_del_run
                ((s.take (min s.length m)).map (fun c => (Glyph.ch c, a)))
                (List.replicate (m - min s.length m) .udel ++ explode y')
                ((s.drop (min s.length m)).map (fun c => (Glyph.ch c, a)) ++
                  docOfD x')
              rw [hlen1] at hrun
              rw [hexp, hdoc, hrun] at happ
              have happ2 : applyU
                  (explode (if min s.length m = m then y'
                    else Op.delete (m - min s.length m) :: y'))
                  (docOfD (if min s.length m = s.length then x'
                    else Op.insertText (s.drop (min s.length m)) a :: x')) =
                  some r := by
                rw [explode_tail_del m (min s.length m) y',
                  docOfD_tail_insText s (min s.length m) a x']
                exact happ
              have hfc : fuelFor
                  (if min s.length m = s.length then x'
                    else Op.insertText (s.drop (min s.length m)) a :: x')
                  (if min s.length m = m then y'
                    else Op.delete (m - min s.length m) :: y') ≤ fuel := by
                have e1 := opsTotal_tail_insText s (min s.length m) a x'
                have e2 := opsTotal_tail_del m (min s.length m) y'
                have l1 := length_tail (min s.length m) s.length
                  (Op.insertText (s.drop (min s.length m)) a) x'
                have l2 := length_tail (min s.length m) m
                  (Op.delete (m - min s.length m)) y'
                simp only [fuelFor, opsTotal_cons, Op.len, List.length_cons]
                  at hfuel
                simp only [fuelFor]
                rw [e1, e2]
                omega
              obtain ⟨ihe, ihv, ihi⟩ := ih
                (if min s.length m = s.length then x'
                  else Op.insertText (s.drop (min s.length m)) a :: x')
                (if min s.length m = m then y'
                  else Op.delete (m - min s.length m) :: y') r
                (valid_tail_insText hLn hva hvx') (insOnly_tail_insText hix')
                (valid_tail_del hLm hvy') hfc happ2
              exact ⟨by rw [hred]; exact ihe, by rw [hred]; exact ihv,
                by rw [hred]; exact ihi⟩
          | insertEmbed e a =>
            have hva : ValidA a := hvxo
            cases yo with
            | insertText t b => simp [Op.isInsert] at hyi
            | insertEmbed f b => simp [Op.isInsert] at hyi
            | retain m b =>
              obtain ⟨hm, hvb⟩ := hvyo
              have hL1 : min 1 m = 1 := Nat.min_eq_left (by omega)
              have hred : composeGo (fuel+1) (Op.insertEmbed e a :: x')
                  (Op.retain m b :: y') =
                  Op.insertEmbed e (AttributeMap.compose a b false) ::
                    composeGo fuel x'
                      (if 1 = m then y' else Op.retain (m - 1) b :: y') := by
                simp [composeGo, composeEmit, Op.isInsert, Op.isDelete, Op.len,
                  Op.take, Op.drop, hm, hL1]
              have hdoc : docOfD (Op.insertEmbed e a :: x') =
                  (Glyph.emb e, a) :: docOfD x' := by
                rw [docOfD_cons]
                simp [explodeOp, insElems]
              have hexp : explode (Op.retain m b :: y') =
                  UOp.uret b :: (List.replicate (m - 1) (.uret b) ++
                    explode y') := by
                rw [show explode (Op.retain m b :: y') =
                  List.replicate m (.uret b) ++ explode y' from rfl]
                rw [replicate_cut m 1 (by omega) (UOp.uret b),
                  List.append_assoc]
                simp [List.replicate_succ]
              rw [hexp, hdoc] at happ
              rw [show applyU (UOp.uret b ::
                  (List.replicate (m - 1) (.uret b) ++ explode y'))
                  ((Glyph.emb e, a) :: docOfD x') =
                (applyU (List.replicate (m - 1) (.uret b) ++ explode y')
                    (docOfD x')).map
                  (fun r => (Glyph.emb e, AttributeMap.compose a b false) :: r)
                from by simp [applyU, applyAttrE]] at happ
              obtain ⟨r2, hr2, hfr⟩ := Option.map_eq_some'.1 happ
              subst hfr
              have happ2 : applyU (explode (if 1 = m then y'
                  else Op.retain (m - 1) b :: y')) (docOfD x') = some r2 := by
                rw [explode_tail_ret m 1 b y']
                exact hr2
              have hfc : fuelFor x' (if 1 = m then y'
                  else Op.retain (m - 1) b :: y') ≤ fuel := by
                have e2 := opsTotal_tail_ret m 1 b y'
                have l2 := length_tail 1 m (Op.retain (m - 1) b) y'
                simp only [fuelFor, opsTotal_cons, Op.len, List.length_cons]
                  at hfuel
                simp only [fuelFor]
                rw [e2]
                omega
              obtain ⟨ihe, ihv, ihi⟩ := ih x'
                (if 1 = m then y' else Op.retain (m - 1) b :: y') r2 hvx' hix'
                (valid_tail_ret (by omega) hvb hvy') hfc happ2
              refine ⟨?_, ?_, ?_⟩
              · rw [hred]
                rw [show explode (Op.insertEmbed e
                    (AttributeMap.compose a b false) ::
                      composeGo fuel x'
                        (if 1 = m then y' else Op.retain (m - 1) b :: y')) =
                  UOp.uins (.emb e) (AttributeMap.compose a b false) ::
                    explode (composeGo fuel x'
                      (if 1 = m then y' else Op.retain (m - 1) b :: y'))
                  from rfl]
                rw [ihe]
                simp [unitsOfDoc]
              · rw [hred]
                exact validDelta_cons.2 ⟨compose_validA a b false hva hvb, ihv⟩
              · rw [hred]
                exact insOnly_cons.2 ⟨rfl, ihi⟩
            | delete m =>
              have hm : m ≠ 0 := hvyo
              have hL1 : min 1 m = 1 := Nat.min_eq_left (by omega)
              have hred : composeGo (fuel+1) (Op.insertEmbed e a :: x')
                  (Op.delete m :: y') =
                  composeGo fuel x'
                    (if 1 = m then y' else Op.delete (m - 1) :: y') := by
                simp [composeGo, composeEmit, Op.isInsert, Op.isDelete, Op.len,
                  Op.take, Op.drop, hm, hL1]
              have hdoc : docOfD (Op.insertEmbed e a :: x') =
                  (Glyph.emb e, a) :: docOfD x' := by
                rw [docOfD_cons]
                simp [explodeOp, insElems]
              have hexp : explode (Op.delete m :: y') =
                  UOp.udel :: (List.replicate (m - 1) .udel ++ explode y') := by
                rw [show explode (Op.delete m :: y') =
                  List.replicate m .udel ++ explode y' from rfl]
                rw [replicate_cut m 1 (by omega) UOp.udel, List.append_assoc]
                simp [List.replicate_succ]
              rw [hexp, hdoc] at happ
              rw [show applyU (UOp.udel ::
                  (List.replicate (m - 1) .udel ++ explode y'))
                  ((Glyph.emb e, a) :: docOfD x') =
                applyU (List.replicate (m - 1) .udel ++ explode y') (docOfD x')
                from rfl] at happ
              have happ2 : applyU (explode (if 1 = m then y'
                  else Op.delete (m - 1) :: y')) (docOfD x') = some r := by
                rw [explode_tail_del m 1 y']
                exact happ
              have hfc : fuelFor x' (if 1 = m then y'
                  else Op.delete (m - 1) :: y') ≤ fuel := by
                have e2 := opsTotal_tail_del m 1 y'
                have l2 := length_tail 1 m (Op.delete (m - 1)) y'
                simp only [fuelFor, opsTotal_cons, Op.len, List.length_cons]
                  at hfuel
                simp only [fuelFor]
                rw [e2]
                omega
              obtain ⟨ihe, ihv, ihi⟩ := ih x'
                (if 1 = m then y' else Op.delete (m - 1) :: y') r hvx' hix'
                (valid_tail_del (by omega) hvy') hfc happ2
              exact ⟨by rw [hred]; exact ihe, by rw [hred]; exact ihv,
                by rw [hred]; exact ihi⟩

/-- A merge refusal against a text insert does not depend on its characters. -/
theorem mergeOps_none_text {q : Op} {s1 s2 : List Char} {a : Option AttrMap}
    (h : mergeOps q (Op.insertText s1 a) = none) :
    mergeOps q (Op.insertText s2 a) = none := by
  cases q with
  | insertText u c =>
    by_cases hc : c = a
    · simp [mergeOps, hc] at h
    · simp [mergeOps, hc]
  | insertEmbed e c => rfl
  | retain n c => rfl
  | delete n => rfl

/-- `push` of a valid insert onto an insert-only reversed accumulator keeps
it insert-only, valid and merge-reduced, and appends the insert's units. -/
theorem pushR_ins_spec :
    ∀ (acc : List Op) (o : Op), ValidOp o → o.isInsert = true →
      (∀ q ∈ acc, ValidOp q) → (∀ q ∈ acc, q.isInsert = true) →
      List.Chain' (fun o1 o2 => mergeOps o2 o1 = none) acc →
      (∀ q ∈ pushR acc o, ValidOp q) ∧
      (∀ q ∈ pushR acc o, q.isInsert = true) ∧
      List.Chain' (fun o1 o2 => mergeOps o2 o1 = none) (pushR acc o) ∧
      explode (pushR acc o).reverse = explode acc.reverse ++ explodeOp o := by
  intro acc o hvo hio hva hia hch
  cases acc with
  | nil =>
    refine ⟨?_, ?_, ?_, ?_⟩
    · intro q hq
      simp [pushR] at hq
      subst hq
      exact hvo
    · intro q hq
      simp [pushR] at hq
      subst hq
      exact hio
    · simp [pushR]
    · simp [pushR, explode]
  | cons lastOp rest =>
    have hlv : ValidOp lastOp := hva _ (by simp)
    have hli : lastOp.isInsert = true := hia _ (by simp)
    have hld : lastOp.isDelete = false := by
      cases lastOp <;> simp [Op.isDelete] <;> simp [Op.isInsert] at hli
    cases hm : mergeOps lastOp o with
    | none =>
      have hred : pushR (lastOp :: rest) o = o :: lastOp :: rest := by
        simp [pushR, hm, hld]
      refine ⟨?_, ?_, ?_, ?_⟩
      · intro q hq
        rw [hred] at hq
        rcases List.mem_cons.1 hq with rfl | hq2
        · exact hvo
        · exact hva q hq2
      · intro q hq
        rw [hred] at hq
        rcases List.mem_cons.1 hq with rfl | hq2
        · exact hio
        · exact hia q hq2
      · rw [hred]
        exact List.Chain'.cons hm hch
      · rw [hred]
        rw [show (o :: lastOp :: rest).reverse =
          (lastOp :: rest).reverse ++ [o] from by simp]
        rw [explode_append]
        simp [explode]
    | some merged =>
      cases lastOp with
      | retain n c => simp [Op.isInsert] at hli
      | delete n => simp [Op.isInsert] at hli
      | insertEmbed e1 a1 =>
        simp [mergeOps] at hm
      | insertText s1 a1 =>
        cases o with
        | retain n c => simp [Op.isInsert] at hio
        | delete n => simp [Op.isInsert] at hio
        | insertEmbed e2 a2 => simp [mergeOps] at hm
        | insertText s2 a2 =>
          by_cases hab : a1 = a2
          · subst hab
            simp [mergeOps] at hm
            subst hm
            have hred : pushR (Op.insertText s1 a1 :: rest)
                (Op.insertText s2 a1) =
                Op.insertText (s1 ++ s2) a1 :: rest := by
              simp [pushR, mergeOps]
            obtain ⟨hs1, hva1⟩ := hlv
            refine ⟨?_, ?_, ?_, ?_⟩
            · intro q hq
              rw [hred] at hq
              rcases List.mem_cons.1 hq with rfl | hq2
              · exact ⟨by simp [hs1], hva1⟩
              · exact hva q (by simp [hq2])
            · intro q hq
              rw [hred] at hq
              rcases List.mem_cons.1 hq with rfl | hq2
              · rfl
              · exact hia q (by simp [hq2])
            · rw [hred]
              rw [List.chain'_cons'] at hch ⊢
              refine ⟨?_, hch.2⟩
              intro b hb
              exact mergeOps_none_text (hch.1 b hb)
            · rw [hred]
              rw [show (Op.insertText (s1 ++ s2) a1 :: rest).reverse =
                rest.reverse ++ [Op.insertText (s1 ++ s2) a1] from by simp]
              rw [show (Op.insertText s1 a1 :: rest).reverse =
                rest.reverse ++ [Op.insertText s1 a1] from by simp]
              rw [explode_append, explode_append]
              simp [explode, explodeOp, List.append_assoc]
          · simp [mergeOps, hab] at hm

/-- Folding `push` over a valid insert-only stream from an insert-only
reduced accumulator: the result is insert-only, valid, merge-reduced, and
its reversed explosion extends the accumulator's by the stream's. -/
theorem pushDone_spec :
    ∀ (s : List Op) (acc : List Op), ValidDelta s → InsOnly s →
      (∀ q ∈ acc, ValidOp q) → (∀ q ∈ acc, q.isInsert = true) →
      List.Chain' (fun o1 o2 => mergeOps o2 o1 = none) acc →
      (∀ q ∈ s.foldl pushR acc, ValidOp q) ∧
      (∀ q ∈ s.foldl pushR acc, q.isInsert = true) ∧
      List.Chain' (fun o1 o2 => mergeOps o2 o1 = none) (s.foldl pushR acc) ∧
      explode (s.foldl pushR acc).reverse =
        explode acc.reverse ++ explode s := by
  intro s
  induction s with
  | nil =>
    intro acc _ _ hva hia hch
    exact ⟨hva, hia, hch, by simp [explode]⟩
  | cons o s' ih =>
    intro acc hvs his hva hia hch
    have hvo : ValidOp o := hvs o (by simp)
    have hio : o.isInsert = true := his o (by simp)
    obtain ⟨pva, pia, pch, pe⟩ := pushR_ins_spec acc o hvo hio hva hia hch
    obtain ⟨qva, qia, qch, qe⟩ := ih (pushR acc o)
      (fun q hq => hvs q (by simp [hq])) (fun q hq => his q (by simp [hq]))
      pva pia pch
    refine ⟨qva, qia, qch, ?_⟩
    rw [show (o :: s').foldl pushR acc = s'.foldl pushR (pushR acc o)
      from rfl]
    rw [qe, pe]
    simp [explode, List.append_assoc]

/-- Push-normalizing a valid insert-only stream keeps it valid, insert-only
and explosion-equal, and leaves no mergeable neighbours. -/
theorem pushFold_ins_spec {s : List Op} (hv : ValidDelta s) (hi : InsOnly s) :
    ValidDelta (pushFold s) ∧ InsOnly (pushFold s) ∧
    List.Chain' (fun o1 o2 => mergeOps o1 o2 = none) (pushFold s) ∧
    explode (pushFold s) = explode s := by
  obtain ⟨qva, qia, qch, qe⟩ := pushDone_spec s [] hv hi
    (by simp) (by simp) (by simp)
  refine ⟨?_, ?_, ?_, ?_⟩
  · intro q hq
    exact qva q (by simpa [pushFold] using hq)
  · intro q hq
    exact qia q (by simpa [pushFold] using hq)
  · rw [pushFold]
    exact List.chain'_reverse.2 qch
  · rw [pushFold]
    simpa [explode] using qe

/-- `chop` does nothing to an insert-only delta. -/
theorem chop_insOnly {q : List Op} (h : InsOnly q) : chop q = q := by
  unfold chop
  cases hrev : q.reverse with
  | nil => rfl
  | cons o rest =>
    have ho : o ∈ q := by
      have h2 : o ∈ q.reverse := by
        rw [hrev]
        simp
      simpa using h2
    have hoi := h o ho
    cases o with
    | insertText s a => rfl
    | insertEmbed e a => rfl
    | retain n a => simp [Op.isInsert] at hoi
    | delete n => rfl

/-- Normalizing a valid insert-only stream keeps it valid, insert-only and
explosion-equal. -/
theorem normD_insOnly_spec {s : List Op} (hv : ValidDelta s)
    (hi : InsOnly s) :
    ValidDelta (normD s) ∧ InsOnly (normD s) ∧ explode (normD s) = explode s
    := by
  obtain ⟨v, i, c, e⟩ := pushFold_ins_spec hv hi
  rw [normD, chop_insOnly i]
  exact ⟨v, i, e⟩

/-- A successful merge of valid ops is valid. -/
theorem mergeOps_valid {l o merged : Op} (hl : ValidOp l) (ho : ValidOp o)
    (hm : mergeOps l o = some merged) : ValidOp merged := by
  cases l with
  | delete m =>
    cases o with
    | delete n =>
      simp [mergeOps] at hm
      subst hm
      have hm0 : m ≠ 0 := hl
      exact show m + n ≠ 0 by omega
    | insertText t b => simp [mergeOps] at hm
    | insertEmbed f b => simp [mergeOps] at hm
    | retain n b => simp [mergeOps] at hm
  | insertText s a =>
    cases o with
    | insertText t b =>
      by_cases hab : a = b
      · subst hab
        simp [mergeOps] at hm
        subst hm
        obtain ⟨hs, hva⟩ := hl
        exact ⟨fun h => hs (List.append_eq_nil.1 h).1, hva⟩
      · simp [mergeOps, hab] at hm
    | delete n => simp [mergeOps] at hm
    | insertEmbed f b => simp [mergeOps] at hm
    | retain n b => simp [mergeOps] at hm
  | insertEmbed e a => simp [mergeOps] at hm
  | retain m a =>
    cases o with
    | retain n b =>
      by_cases hab : a = b
      · subst hab
        simp [mergeOps] at hm
        subst hm
        obtain ⟨hm0, hva⟩ := hl
        exact ⟨by omega, hva⟩
      · simp [mergeOps, hab] at hm
    | delete n => simp [mergeOps] at hm
    | insertText t b => simp [mergeOps] at hm
    | insertEmbed f b => simp [mergeOps] at hm

/-- `push` of a valid op onto a valid reversed accumulator stays valid. -/
theorem pushR_valid : ∀ (acc : List Op) (o : Op), ValidOp o →
    (∀ q ∈ acc, ValidOp q) → ∀ q ∈ pushR acc o, ValidOp q := by
  intro acc o hvo hva q hq
  cases acc with
  | nil =>
    simp [pushR] at hq
    subst hq
    exact hvo
  | cons lastOp rest =>
    have hlv : ValidOp lastOp := hva _ (by simp)
    cases hm : mergeOps lastOp o with
    | some merged =>
      rw [show pushR (lastOp :: rest) o = merged :: rest from by
        simp [pushR, hm]] at hq
      rcases List.mem_cons.1 hq with rfl | hq2
      · exact mergeOps_valid hlv hvo hm
      · exact hva q (by simp [hq2])
    | none =>
      by_cases hcond : (lastOp.isDelete && o.isInsert) = true
      · cases rest with
        | nil =>
          rw [show pushR [lastOp] o = [lastOp, o] from by
            simp [pushR, hm, hcond]] at hq
          rcases List.mem_cons.1 hq with rfl | hq2
          · exact hlv
          · simp at hq2
            subst hq2
            exact hvo
        | cons last2 rest2 =>
          have hl2 : ValidOp last2 := hva _ (by simp)
          cases hm2 : mergeOps last2 o with
          | some m2 =>
            rw [show pushR (lastOp :: last2 :: rest2) o =
              lastOp :: m2 :: rest2 from by
                simp [pushR, hm, hcond, hm2]] at hq
            rcases List.mem_cons.1 hq with rfl | hq2
            · exact hlv
            · rcases List.mem_cons.1 hq2 with rfl | hq3
              · exact mergeOps_valid hl2 hvo hm2
              · exact hva q (by simp [hq3])
          | none =>
            rw [show pushR (lastOp :: last2 :: rest2) o =
              lastOp :: o :: last2 :: rest2 from by
                simp [pushR, hm, hcond, hm2]] at hq
            rcases List.mem_cons.1 hq with rfl | hq2
            · exact hlv
            · rcases List.mem_cons.1 hq2 with rfl | hq3
              · exact hvo
              · exact hva q (by simp [hq3])
      · rw [show pushR (lastOp :: rest) o = o :: lastOp :: rest from by
          simp [pushR, hm, hcond]] at hq
        rcases List.mem_cons.1 hq with rfl | hq2
        · exact hvo
        · exact hva q (by simp [hq2])

/-- Folding `push` over a valid stream keeps every accumulator op valid. -/
theorem pushDone_valid : ∀ (s acc : List Op), ValidDelta s →
    (∀ q ∈ acc, ValidOp q) → ∀ q ∈ s.foldl pushR acc, ValidOp q := by
  intro s
  induction s with
  | nil =>
    intro acc _ hva
    exact hva
  | cons o s' ih =>
    intro acc hvs hva
    exact ih (pushR acc o) (fun q hq => hvs q (by simp [hq]))
      (pushR_valid acc o (hvs o (by simp)) hva)

/-- Push-normalizing a valid stream yields a valid delta. -/
theorem pushFold_valid {s : List Op} (hv : ValidDelta s) :
    ValidDelta (pushFold s) := by
  intro q hq
  exact pushDone_valid s [] hv (by simp) q (by simpa [pushFold] using hq)

/-- `chop` of a valid delta is valid. -/
theorem chop_valid {q : List Op} (hv : ValidDelta q) : ValidDelta (chop q)
    := by
  unfold chop
  cases hrev : q.reverse with
  | nil => exact hv
  | cons o rest =>
    have hq : q = rest.reverse ++ [o] := by
      have h2 : q = (o :: rest).reverse := by
        rw [← hrev, List.reverse_reverse]
      simpa using h2
    cases o with
    | insertText s a => exact hv
    | insertEmbed e a => exact hv
    | delete n => exact hv
    | retain n a =>
      cases n with
      | zero => exact hv
      | succ k =>
        cases a with
        | some m => exact hv
        | none =>
          intro q' hq'
          exact hv q' (by rw [hq]; exact List.mem_append_left _ hq')

/-- Normalizing a valid stream yields a valid delta. -/
theorem normD_valid {s : List Op} (hv : ValidDelta s) :
    ValidDelta (normD s) :=
  chop_valid (pushFold_valid hv)

/-- Base length of a concatenation of unit streams. -/
theorem blenU_append : ∀ (u v : List UOp),
    blenU (u ++ v) = blenU u + blenU v := by
  intro u v
  induction u with
  | nil => simp [blenU]
  | cons o u' ih =>
    cases o <;> simp [blenU, ih] <;> omega

/-- Base length of a retain run. -/
theorem blenU_replicate_ret : ∀ (n : Nat) (a : Option AttrMap),
    blenU (List.replicate n (.uret a)) = n := by
  intro n a
  induction n with
  | zero => rfl
  | succ k ih => simp [List.replicate_succ, blenU, ih]

/-- A unit stream that applies cleanly fits within the document. -/
theorem applyU_some_blen : ∀ (u : List UOp) (d r : DocL),
    applyU u d = some r → blenU u ≤ d.length := by
  intro u
  induction u with
  | nil =>
    intro d r _
    simp [blenU]
  | cons o u' ih =>
    intro d r h
    cases o with
    | uins g a =>
      simp only [blenU]
      rw [show applyU (.uins g a :: u') d =
        (applyU u' d).map (fun r => (g, a) :: r) from by simp [applyU]] at h
      obtain ⟨r2, hr2, -⟩ := Option.map_eq_some'.1 h
      exact ih d r2 hr2
    | uret a =>
      cases d with
      | nil => simp [applyU] at h
      | cons e d' =>
        simp only [blenU, List.length_cons]
        rw [show applyU (.uret a :: u') (e :: d') =
          (applyU u' d').map (fun r => applyAttrE a e :: r) from by
            simp [applyU]] at h
        obtain ⟨r2, hr2, -⟩ := Option.map_eq_some'.1 h
        have := ih d' r2 hr2
        omega
    | udel =>
      cases d with
      | nil => simp [applyU] at h
      | cons e d' =>
        simp only [blenU, List.length_cons]
        have := ih d' r (by simpa [applyU] using h)
        omega

/-- Two unit streams that agree on every document stay in agreement behind
any common prefix. -/
theorem applyU_congr_prefix : ∀ (A : List UOp) {u v : List UOp},
    (∀ d, applyU u d = applyU v d) →
    ∀ d, applyU (A ++ u) d = applyU (A ++ v) d := by
  intro A
  induction A with
  | nil =>
    intro u v h d
    exact h d
  | cons o A' ih =>
    intro u v h d
    cases o with
    | uins g a =>
      simp only [List.cons_append]
      rw [show applyU (.uins g a :: (A' ++ u)) d =
        (applyU (A' ++ u) d).map (fun r => (g, a) :: r) from by simp [applyU]]
      rw [show applyU (.uins g a :: (A' ++ v)) d =
        (applyU (A' ++ v) d).map (fun r => (g, a) :: r) from by simp [applyU]]
      rw [ih h d]
    | uret a =>
      cases d with
      | nil => rfl
      | cons e d' =>
        simp only [List.cons_append]
        rw [show applyU (.uret a :: (A' ++ u)) (e :: d') =
          (applyU (A' ++ u) d').map (fun r => applyAttrE a e :: r) from by
            simp [applyU]]
        rw [show applyU (.uret a :: (A' ++ v)) (e :: d') =
          (applyU (A' ++ v) d').map (fun r => applyAttrE a e :: r) from by
            simp [applyU]]
        rw [ih h d']
    | udel =>
      cases d with
      | nil => rfl
      | cons e d' =>
        simp only [List.cons_append]
        rw [show applyU (.udel :: (A' ++ u)) (e :: d') =
          applyU (A' ++ u) d' from rfl]
        rw [show applyU (.udel :: (A' ++ v)) (e :: d') =
          applyU (A' ++ v) d' from rfl]
        rw [ih h d']

/-- One insert commutes semantically over a preceding delete run. -/
theorem applyU_swap_one : ∀ (k : Nat) (g : Glyph) (a : Option AttrMap)
    (w : List UOp) (d : DocL),
    applyU (List.replicate k .udel ++ (.uins g a :: w)) d =
      applyU (.uins g a :: (List.replicate k .udel ++ w)) d := by
  intro k
  induction k with
  | zero =>
    intro g a w d
    simp
  | succ k ih =>
    intro g a w d
    cases d with
    | nil =>
      simp [List.replicate_succ, applyU]
    | cons e d' =>
      simp only [List.replicate_succ, List.cons_append]
      rw [show applyU (.udel :: (List.replicate k .udel ++ (.uins g a :: w)))
        (e :: d') = applyU (List.replicate k .udel ++ (.uins g a :: w)) d'
        from rfl]
      rw [ih g a w d']
      rw [show applyU (.uins g a :: (List.replicate k .udel ++ w)) d' =
        (applyU (List.replicate k .udel ++ w) d').map (fun r => (g, a) :: r)
        from by simp [applyU]]
      rw [show applyU (.uins g a ::
        (.udel :: (List.replicate k .udel ++ w))) (e :: d') =
        (applyU (.udel :: (List.replicate k .udel ++ w)) (e :: d')).map
          (fun r => (g, a) :: r) from by simp [applyU]]
      rw [show applyU (.udel :: (List.replicate k .udel ++ w)) (e :: d') =
        applyU (List.replicate k .udel ++ w) d' from rfl]

/-- An insert run commutes semantically over a preceding delete run. -/
theorem applyU_swap_run : ∀ (I : List UOp) (k : Nat) (w : List UOp)
    (d : DocL), (∀ g ∈ I, uIsIns g = true) →
    applyU (List.replicate k .udel ++ (I ++ w)) d =
      applyU (I ++ (List.replicate k .udel ++ w)) d := by
  intro I
  induction I with
  | nil =>
    intro k w d _
    simp
  | cons g I' ih =>
    intro k w d h
    cases g with
    | uins gl a =>
      simp only [List.cons_append]
      rw [applyU_swap_one k gl a (I' ++ w) d]
      rw [show applyU (.uins gl a :: (List.replicate k .udel ++ (I' ++ w))) d
        = (applyU (List.replicate k .udel ++ (I' ++ w)) d).map
          (fun r => (gl, a) :: r) from by simp [applyU]]
      rw [ih k w d (fun g hg => h g (by simp [hg]))]
      rw [show applyU (.uins gl a :: (I' ++ (List.replicate k .udel ++ w))) d
        = (applyU (I' ++ (List.replicate k .udel ++ w)) d).map
          (fun r => (gl, a) :: r) from by simp [applyU]]
    | uret a =>
      have hq := h (.uret a) (by simp)
      simp [uIsIns] at hq
    | udel =>
      have hq := h .udel (by simp)
      simp [uIsIns] at hq

/-- A successful merge concatenates the units. -/
theorem mergeOps_explode {l o merged : Op} (hm : mergeOps l o = some merged) :
    explodeOp merged = explodeOp l ++ explodeOp o := by
  cases l with
  | delete m =>
    cases o with
    | delete n =>
      simp [mergeOps] at hm
      subst hm
      simp only [explodeOp]
      rw [List.replicate_add]
    | insertText t b => simp [mergeOps] at hm
    | insertEmbed f b => simp [mergeOps] at hm
    | retain n b => simp [mergeOps] at hm
  | insertText s a =>
    cases o with
    | insertText t b =>
      by_cases hab : a = b
      · subst hab
        simp [mergeOps] at hm
        subst hm
        simp [explodeOp]
      · simp [mergeOps, hab] at hm
    | delete n => simp [mergeOps] at hm
    | insertEmbed f b => simp [mergeOps] at hm
    | retain n b => simp [mergeOps] at hm
  | insertEmbed e a => simp [mergeOps] at hm
  | retain m a =>
    cases o with
    | retain n b =>
      by_cases hab : a = b
      · subst hab
        simp [mergeOps] at hm
        subst hm
        simp only [explodeOp]
        rw [List.replicate_add]
      · simp [mergeOps, hab] at hm
    | delete n => simp [mergeOps] at hm
    | insertText t b => simp [mergeOps] at hm
    | insertEmbed f b => simp [mergeOps] at hm

/-- `push` preserves the semantics of the accumulated stream. -/
theorem pushR_sem : ∀ (acc : List Op) (o : Op) (w : List UOp) (d : DocL),
    applyU (explode ((pushR acc o).reverse) ++ w) d =
      applyU (explode (acc.reverse ++ [o]) ++ w) d := by
  intro acc o w d
  cases acc with
  | nil =>
    simp [pushR]
  | cons lastOp rest =>
    cases hm : mergeOps lastOp o with
    | some merged =>
      rw [show pushR (lastOp :: rest) o = merged :: rest from by
        simp [pushR, hm]]
      rw [show explode ((merged :: rest).reverse) =
        explode (((lastOp :: rest).reverse ++ [o])) from by
          simp [explode_append, explode, mergeOps_explode hm,
            List.append_assoc]]
    | none =>
      by_cases hcond : (lastOp.isDelete && o.isInsert) = true
      · obtain ⟨hdel, hins⟩ := Bool.and_eq_true_iff.1 hcond
        have hall : ∀ g ∈ explodeOp o, uIsIns g = true := explodeOp_allIns hins
        cases lastOp with
        | insertText s a => simp [Op.isDelete] at hdel
        | insertEmbed e a => simp [Op.isDelete] at hdel
        | retain n a => simp [Op.isDelete] at hdel
        | delete m =>
          cases rest with
          | nil =>
            rw [show pushR [Op.delete m] o = [Op.delete m, o] from by
              simp [pushR, hm, hcond]]
            simp only [List.reverse_cons, List.reverse_nil, List.nil_append,
              explode_append, explode, List.append_nil, List.append_assoc]
            rw [show explodeOp (Op.delete m) = List.replicate m UOp.udel
              from rfl]
            exact applyU_swap_run (explodeOp o) m w d hall |>.symm
          | cons last2 rest2 =>
            cases hm2 : mergeOps last2 o with
            | some m2 =>
              rw [show pushR (Op.delete m :: last2 :: rest2) o =
                Op.delete m :: m2 :: rest2 from by
                  simp [pushR, hm, hcond, hm2]]
              simp only [List.reverse_cons, explode_append, explode,
                List.append_nil, List.append_assoc, mergeOps_explode hm2]
              rw [show explodeOp (Op.delete m) = List.replicate m UOp.udel
                from rfl]
              refine applyU_congr_prefix (explode rest2.reverse) ?_ d
              intro d1
              refine applyU_congr_prefix (explodeOp last2) ?_ d1
              intro d2
              exact applyU_swap_run (explodeOp o) m w d2 hall |>.symm
            | none =>
              rw [show pushR (Op.delete m :: last2 :: rest2) o =
                Op.delete m :: o :: last2 :: rest2 from by
                  simp [pushR, hm, hcond, hm2]]
              simp only [List.reverse_cons, explode_append, explode,
                List.append_nil, List.append_assoc]
              rw [show explodeOp (Op.delete m) = List.replicate m UOp.udel
                from rfl]
              refine applyU_congr_prefix (explode rest2.reverse) ?_ d
              intro d1
              refine applyU_congr_prefix (explodeOp last2) ?_ d1
              intro d2
              exact applyU_swap_run (explodeOp o) m w d2 hall |>.symm
      · rw [show pushR (lastOp :: rest) o = o :: lastOp :: rest from by
          simp [pushR, hm, hcond]]
        rw [show explode ((o :: lastOp :: rest).reverse) =
          explode (((lastOp :: rest).reverse ++ [o])) from by
            simp [explode_append, explode, List.append_assoc]]

/-- The push fold preserves the semantics of the whole stream. -/
theorem pushDone_sem : ∀ (s acc : List Op) (w : List UOp) (d : DocL),
    applyU (explode ((s.foldl pushR acc).reverse) ++ w) d =
      applyU (explode acc.reverse ++ (explode s ++ w)) d := by
  intro s
  induction s with
  | nil =>
    intro acc w d
    simp [explode]
  | cons o s' ih =>
    intro acc w d
    rw [show (o :: s').foldl pushR acc = s'.foldl pushR (pushR acc o)
      from rfl]
    rw [ih (pushR acc o) w d]
    rw [show explode (pushR acc o).reverse ++ (explode s' ++ w) =
      explode (pushR acc o).reverse ++ (explode s' ++ w) from rfl]
    rw [show applyU (explode ((pushR acc o).reverse) ++ (explode s' ++ w)) d
      = applyU (explode ((acc.reverse ++ [o])) ++ (explode s' ++ w)) d
      from pushR_sem acc o (explode s' ++ w) d]
    simp [explode_append, explode, List.append_assoc]

/-- Push-normalization preserves what the stream does to every document. -/
theorem pushFold_sem (s : List Op) (d : DocL) :
    applyU (explode (pushFold s)) d = applyU (explode s) d := by
  have h := pushDone_sem s [] [] d
  simpa [pushFold, explode] using h

/-- `chop` either keeps the delta or strips one trailing plain retain. -/
theorem chop_shape (q : List Op) :
    chop q = q ∨ ∃ k, q = chop q ++ [Op.retain (k+1) none] := by
  unfold chop
  cases hrev : q.reverse with
  | nil => exact Or.inl rfl
  | cons o rest =>
    have hq : q = rest.reverse ++ [o] := by
      have h2 : q = (o :: rest).reverse := by
        rw [← hrev, List.reverse_reverse]
      simpa using h2
    cases o with
    | insertText s a => exact Or.inl rfl
    | insertEmbed e a => exact Or.inl rfl
    | delete n => exact Or.inl rfl
    | retain n a =>
      cases n with
      | zero => exact Or.inl rfl
      | succ k =>
        cases a with
        | some m => exact Or.inl rfl
        | none => exact Or.inr ⟨k, hq⟩

/-- A trailing plain retain that stays inside the document is a no-op. -/
theorem applyU_ret_none_tail : ∀ (u : List UOp) (k : Nat) (d : DocL),
    ValidDocL d → blenU u + k ≤ d.length →
    applyU (u ++ List.replicate k (.uret none)) d = applyU u d := by
  intro u
  induction u with
  | nil =>
    intro k d hd hk
    simp only [List.nil_append]
    rw [applyU_replicate_ret_none k d hd (by simpa [blenU] using hk)]
    rfl
  | cons o u' ih =>
    intro k d hd hk
    cases o with
    | uins g a =>
      simp only [List.cons_append]
      rw [show applyU (.uins g a :: (u' ++ List.replicate k (.uret none))) d
        = (applyU (u' ++ List.replicate k (.uret none)) d).map
          (fun r => (g, a) :: r) from by simp [applyU]]
      rw [ih k d hd (by simpa [blenU] using hk)]
      rw [show applyU (.uins g a :: u') d =
        (applyU u' d).map (fun r => (g, a) :: r) from by simp [applyU]]
    | uret a =>
      cases d with
      | nil =>
        exfalso
        simp [blenU] at hk
      | cons e d' =>
        simp only [List.cons_append]
        rw [show applyU (.uret a :: (u' ++ List.replicate k (.uret none)))
          (e :: d') = (applyU (u' ++ List.replicate k (.uret none)) d').map
            (fun r => applyAttrE a e :: r) from by simp [applyU]]
        have hk' : blenU u' + k ≤ d'.length := by
          simp only [blenU, List.length_cons] at hk
          omega
        rw [ih k d' (fun x hx => hd x (by simp [hx])) hk']
        rw [show applyU (.uret a :: u') (e :: d') =
          (applyU u' d').map (fun r => applyAttrE a e :: r) from by
            simp [applyU]]
    | udel =>
      cases d with
      | nil =>
        exfalso
        simp [blenU] at hk
      | cons e d' =>
        simp only [List.cons_append]
        rw [show applyU (.udel :: (u' ++ List.replicate k (.uret none)))
          (e :: d') = applyU (u' ++ List.replicate k (.uret none)) d'
          from rfl]
        have hk' : blenU u' + k ≤ d'.length := by
          simp only [blenU, List.length_cons] at hk
          omega
        rw [ih k d' (fun x hx => hd x (by simp [hx])) hk']
        rfl

/-- Normalization preserves a clean application to a valid document. -/
theorem normD_sem : ∀ (s : List Op) (d r : DocL), ValidDocL d →
    applyU (explode s) d = some r →
    applyU (explode (normD s)) d = some r := by
  intro s d r hd happ
  have h1 : applyU (explode (pushFold s)) d = some r := by
    rw [pushFold_sem]
    exact happ
  rcases chop_shape (pushFold s) with hid | ⟨k, hq⟩
  · rw [normD, hid]
    exact h1
  · have hblen : blenU (explode (pushFold s)) ≤ d.length :=
      applyU_some_blen _ _ _ h1
    have hsplit : explode (pushFold s) =
        explode (chop (pushFold s)) ++ List.replicate (k+1) (.uret none) := by
      conv_lhs => rw [hq]
      simp [explode_append, explode, explodeOp]
    have hble : blenU (explode (chop (pushFold s))) + (k+1) ≤ d.length := by
      rw [hsplit, blenU_append, blenU_replicate_ret] at hblen
      omega
    rw [normD]
    rw [← applyU_ret_none_tail (explode (chop (pushFold s))) (k+1) d hd hble]
    rw [← hsplit]
    exact h1

/-- A valid op explodes to at least one unit. -/
theorem explodeOp_ne_nil {o : Op} (hv : ValidOp o) : explodeOp o ≠ [] := by
  cases o with
  | insertText s a =>
    obtain ⟨hs, -⟩ := hv
    simp [explodeOp, hs]
  | insertEmbed e a => simp [explodeOp]
  | retain n a =>
    obtain ⟨hn, -⟩ := hv
    simp [explodeOp, hn]
  | delete n =>
    have hn : n ≠ 0 := hv
    simp [explodeOp, hn]

/-- An insert-only delta whose explosion starts with an inserted character
starts with a text op of the same formatting. -/
theorem head_of_explode_ch : ∀ (t : List Op) (c : Char) (a : Option AttrMap),
    ValidDelta t → InsOnly t →
    (explode t).head? = some (.uins (.ch c) a) →
    ∃ s3 t', t = Op.insertText s3 a :: t' := by
  intro t c a hv hi hh
  cases t with
  | nil => simp [explode] at hh
  | cons o t' =>
    cases o with
    | insertText s3 b =>
      have hs3 : s3 ≠ [] := (hv (Op.insertText s3 b) (by simp)).1
      cases s3 with
      | nil => exact absurd rfl hs3
      | cons c0 s3' =>
        rw [show explode (Op.insertText (c0 :: s3') b :: t') =
          UOp.uins (.ch c0) b ::
            ((s3'.map fun ch => UOp.uins (.ch ch) b) ++ explode t')
          from rfl] at hh
        simp at hh
        exact ⟨c0 :: s3', t', by rw [hh.2]⟩
    | insertEmbed e b =>
      rw [show explode (Op.insertEmbed e b :: t') =
        UOp.uins (.emb e) b :: explode t' from rfl] at hh
      simp at hh
    | retain n b =>
      have hq := hi (Op.retain n b) (by simp)
      simp [Op.isInsert] at hq
    | delete n =>
      have hq := hi (Op.delete n) (by simp)
      simp [Op.isInsert] at hq

/-- Two merge-reduced text runs with a common explosion cannot have the
first strictly shorter. -/
theorem text_lt_absurd : ∀ (s1 s2 : List Char) (a : Option AttrMap)
    (t1 t2 : List Op), ValidDelta t1 → InsOnly t1 →
    List.Chain' (fun o1 o2 => mergeOps o1 o2 = none)
      (Op.insertText s1 a :: t1) →
    s1.length < s2.length →
    s1.map (fun c => UOp.uins (.ch c) a) ++ explode t1 =
      s2.map (fun c => UOp.uins (.ch c) a) ++ explode t2 → False := by
  intro s1 s2 a t1 t2 hv hi hch hlt he
  rw [show s2.map (fun c => UOp.uins (.ch c) a) =
    (s2.take s1.length).map (fun c => UOp.uins (.ch c) a) ++
      (s2.drop s1.length).map (fun c => UOp.uins (.ch c) a) from by
        rw [← List.map_append, List.take_append_drop]] at he
  rw [List.append_assoc] at he
  have hlen : (s1.map (fun c => UOp.uins (.ch c) a)).length =
      ((s2.take s1.length).map (fun c => UOp.uins (.ch c) a)).length := by
    simp [List.length_take]
    omega
  have ht1 : explode t1 =
      (s2.drop s1.length).map (fun c => UOp.uins (.ch c) a) ++ explode t2 :=
    List.append_inj_right he hlen
  cases hd2 : s2.drop s1.length with
  | nil =>
    have hl := List.length_drop s1.length s2
    rw [hd2] at hl
    simp at hl
    omega
  | cons c rest =>
    rw [hd2] at ht1
    have hh : (explode t1).head? = some (.uins (.ch c) a) := by
      rw [ht1]
      simp
    obtain ⟨s3, t1', hteq⟩ := head_of_explode_ch t1 c a hv hi hh
    rw [hteq] at hch
    have hrel : mergeOps (Op.insertText s1 a) (Op.insertText s3 a) = none :=
      (List.chain'_cons.1 hch).1
    simp [mergeOps] at hrel

/-- Two valid, insert-only, merge-reduced deltas with the same explosion
are equal. -/
theorem reduced_unique : ∀ (r1 r2 : List Op), ValidDelta r1 → InsOnly r1 →
    ValidDelta r2 → InsOnly r2 →
    List.Chain' (fun o1 o2 => mergeOps o1 o2 = none) r1 →
    List.Chain' (fun o1 o2 => mergeOps o1 o2 = none) r2 →
    explode r1 = explode r2 → r1 = r2 := by
  intro r1
  induction r1 with
  | nil =>
    intro r2 _ _ hv2 _ _ _ he
    cases r2 with
    | nil => rfl
    | cons o2 t2 =>
      exfalso
      rw [show explode ([] : List Op) = [] from rfl] at he
      rw [show explode (o2 :: t2) = explodeOp o2 ++ explode t2 from rfl] at he
      have hne := explodeOp_ne_nil (hv2 o2 (by simp))
      cases hoe : explodeOp o2 with
      | nil => exact hne hoe
      | cons u us =>
        rw [hoe] at he
        simp at he
  | cons o1 t1 ih =>
    intro r2 hv1 hi1 hv2 hi2 hc1 hc2 he
    have hv1o : ValidOp o1 := hv1 _ (by simp)
    have hv1t : ValidDelta t1 := fun q hq => hv1 q (by simp [hq])
    have hi1o : o1.isInsert = true := hi1 _ (by simp)
    have hi1t : InsOnly t1 := fun q hq => hi1 q (by simp [hq])
    have hc1t : List.Chain' (fun o1 o2 => mergeOps o1 o2 = none) t1 :=
      (List.chain'_cons'.1 hc1).2
    cases r2 with
    | nil =>
      exfalso
      rw [show explode ([] : List Op) = [] from rfl] at he
      rw [show explode (o1 :: t1) = explodeOp o1 ++ explode t1 from rfl] at he
      have hne := explodeOp_ne_nil hv1o
      cases hoe : explodeOp o1 with
      | nil => exact hne hoe
      | cons u us =>
        rw [hoe] at he
        simp at he
    | cons o2 t2 =>
      have hv2o : ValidOp o2 := hv2 _ (by simp)
      have hv2t : ValidDelta t2 := fun q hq => hv2 q (by simp [hq])
      have hi2o : o2.isInsert = true := hi2 _ (by simp)
      have hi2t : InsOnly t2 := fun q hq => hi2 q (by simp [hq])
      have hc2t : List.Chain' (fun o1 o2 => mergeOps o1 o2 = none) t2 :=
        (List.chain'_cons'.1 hc2).2
      cases o1 with
      | retain n c => simp [Op.isInsert] at hi1o
      | delete n => simp [Op.isInsert] at hi1o
      | insertEmbed e1 a1 =>
        cases o2 with
        | retain n c => simp [Op.isInsert] at hi2o
        | delete n => simp [Op.isInsert] at hi2o
        | insertEmbed e2 a2 =>
          rw [show explode (Op.insertEmbed e1 a1 :: t1) =
            UOp.uins (.emb e1) a1 :: explode t1 from rfl] at he
          rw [show explode (Op.insertEmbed e2 a2 :: t2) =
            UOp.uins (.emb e2) a2 :: explode t2 from rfl] at he
          simp only [List.cons.injEq] at he
          obtain ⟨hu, ht⟩ := he
          simp only [UOp.uins.injEq, Glyph.emb.injEq] at hu
          obtain ⟨he12, ha12⟩ := hu
          subst he12
          subst ha12
          rw [ih t2 hv1t hi1t hv2t hi2t hc1t hc2t ht]
        | insertText s2 a2 =>
          exfalso
          have hs2 : s2 ≠ [] := (hv2 (Op.insertText s2 a2) (by simp)).1
          cases s2 with
          | nil => exact hs2 rfl
          | cons c2 s2' =>
            rw [show explode (Op.insertEmbed e1 a1 :: t1) =
              UOp.uins (.emb e1) a1 :: explode t1 from rfl] at he
            rw [show explode (Op.insertText (c2 :: s2') a2 :: t2) =
              UOp.uins (.ch c2) a2 ::
                ((s2'.map fun ch => UOp.uins (.ch ch) a2) ++ explode t2)
              from rfl] at he
            simp at he
      | insertText s1 a1 =>
        cases o2 with
        | retain n c => simp [Op.isInsert] at hi2o
        | delete n => simp [Op.isInsert] at hi2o
        | insertEmbed e2 a2 =>
          exfalso
          have hs1 : s1 ≠ [] := hv1o.1
          cases s1 with
          | nil => exact hs1 rfl
          | cons c1 s1' =>
            rw [show explode (Op.insertText (c1 :: s1') a1 :: t1) =
              UOp.uins (.ch c1) a1 ::
                ((s1'.map fun ch => UOp.uins (.ch ch) a1) ++ explode t1)
              from rfl] at he
            rw [show explode (Op.insertEmbed e2 a2 :: t2) =
              UOp.uins (.emb e2) a2 :: explode t2 from rfl] at he
            simp at he
        | insertText s2 a2 =>
          have hs1 : s1 ≠ [] := hv1o.1
          have hs2 : s2 ≠ [] := hv2o.1
          cases s1 with
          | nil => exact absurd rfl hs1
          | cons c1 s1' =>
            cases s2 with
            | nil => exact absurd rfl hs2
            | cons c2 s2' =>
              rw [show explode (Op.insertText (c1 :: s1') a1 :: t1) =
                (c1 :: s1').map (fun c => UOp.uins (.ch c) a1) ++ explode t1
                from rfl] at he
              rw [show explode (Op.insertText (c2 :: s2') a2 :: t2) =
                (c2 :: s2').map (fun c => UOp.uins (.ch c) a2) ++ explode t2
                from rfl] at he
              have hhd : (UOp.uins (.ch c1) a1 : UOp) =
                  UOp.uins (.ch c2) a2 := by
                have h2 := congrArg List.head? he
                simpa using h2
              simp only [UOp.uins.injEq, Glyph.ch.injEq] at hhd
              obtain ⟨hc12, ha12⟩ := hhd
              subst hc12
              subst ha12
              rcases Nat.lt_trichotomy (c1 :: s1').length (c1 :: s2').length
                with hlt | heq | hgt
              · exact absurd he
                  (by
                    intro habs
                    exact text_lt_absurd (c1 :: s1') (c1 :: s2') a1 t1 t2
                      hv1t hi1t hc1 hlt habs)
              · have hlen : ((c1 :: s1').map
                    (fun c => UOp.uins (.ch c) a1)).length =
                    ((c1 :: s2').map
                      (fun c => UOp.uins (.ch c) a1)).length := by
                  simpa using heq
                obtain ⟨hmeq, hteq⟩ := List.append_inj he hlen
                have hinj : Function.Injective
                    (fun c => UOp.uins (Glyph.ch c) a1) := by
                  intro u v huv
                  simpa using huv
                have hseq : (c1 :: s1') = (c1 :: s2') :=
                  List.map_injective_iff.2 hinj hmeq
                rw [ih t2 hv1t hi1t hv2t hi2t hc1t hc2t hteq]
                rw [show s1' = s2' from by
                  injection hseq]
              · exact absurd he.symm
                  (by
                    intro habs
                    exact text_lt_absurd (c1 :: s2') (c1 :: s1') a1 t2 t1
                      hv2t hi2t hc2 hgt habs)

/-- Valid insert-only streams with equal explosions normalize identically. -/
theorem normD_eq_of_units {s t : List Op} (hvs : ValidDelta s)
    (his : InsOnly s) (hvt : ValidDelta t) (hit : InsOnly t)
    (he : explode s = explode t) : normD s = normD t := by
  obtain ⟨v1, i1, c1, e1⟩ := pushFold_ins_spec hvs his
  obtain ⟨v2, i2, c2, e2⟩ := pushFold_ins_spec hvt hit
  rw [normD, normD, chop_insOnly i1, chop_insOnly i2]
  exact reduced_unique (pushFold s) (pushFold t) v1 i1 v2 i2 c1 c2
    (by rw [e1, e2, he])

/-- Every unit of a valid delta's explosion carries canonical attributes. -/
theorem explode_uvalid : ∀ (x : List Op), ValidDelta x →
    UValidL (explode x) := by
  intro x
  induction x with
  | nil =>
    intro _ u hu
    simp [explode] at hu
  | cons o t ih =>
    intro hv u hu
    rw [show explode (o :: t) = explodeOp o ++ explode t from rfl] at hu
    rcases List.mem_append.1 hu with h1 | h2
    · have hvo : ValidOp o := hv o (by simp)
      cases o with
      | insertText s a =>
        simp [explodeOp] at h1
        obtain ⟨c, -, rfl⟩ := h1
        exact hvo.2
      | insertEmbed e a =>
        simp [explodeOp] at h1
        subst h1
        exact hvo
      | retain n a =>
        simp [explodeOp, List.mem_replicate] at h1
        obtain ⟨-, rfl⟩ := h1
        exact hvo.2
      | delete n =>
        simp [explodeOp, List.mem_replicate] at h1
        obtain ⟨-, rfl⟩ := h1
        exact trivial
    · exact ih (fun q hq => hv q (by simp [hq])) u h2

/-- The elements laid down by a canonical unit stream are canonical. -/
theorem insElems_valid : ∀ (u : List UOp), UValidL u →
    ValidDocL (insElems u) := by
  intro u
  induction u with
  | nil =>
    intro _ e he
    simp [insElems] at he
  | cons g u' ih =>
    intro hv e he
    cases g with
    | uins gl a =>
      rw [show insElems (.uins gl a :: u') = (gl, a) :: insElems u'
        from rfl] at he
      rcases List.mem_cons.1 he with rfl | h2
      · exact hv (.uins gl a) (by simp)
      · exact ih (fun q hq => hv q (by simp [hq])) e h2
    | uret a =>
      rw [show insElems (.uret a :: u') = insElems u' from rfl] at he
      exact ih (fun q hq => hv q (by simp [hq])) e he
    | udel =>
      rw [show insElems (.udel :: u') = insElems u' from rfl] at he
      exact ih (fun q hq => hv q (by simp [hq])) e he

/-- Laying a document down as inserts and reading it back is the identity. -/
theorem insElems_unitsOfDoc : ∀ (d : DocL), insElems (unitsOfDoc d) = d := by
  intro d
  induction d with
  | nil => rfl
  | cons e d' ih =>
    rw [show unitsOfDoc (e :: d') = UOp.uins e.1 e.2 :: unitsOfDoc d'
      from rfl]
    rw [show insElems (UOp.uins e.1 e.2 :: unitsOfDoc d') =
      (e.1, e.2) :: insElems (unitsOfDoc d') from rfl]
    rw [ih]

/-- C1: Diamond property of the OT engine: for every base document delta
`B` (structurally valid and insert-only, as document snapshots are) and
every pair of structurally valid deltas `a`, `b` that share base `B` (their
base length fits the document `B` denotes),
`compose(compose(B, a), transform(a, b, false))` equals
`compose(compose(B, b), transform(b, a, true))`, where `transform` and
`compose` are the OT engine's transform and compose over quill deltas (the
results are push/chop-normalized by construction, so they agree up to — in
fact on the nose after — delta normalization). -/
theorem c1_diamond (B a b : Delta)
    (hvB : ValidDelta B) (hiB : InsOnly B)
    (hva : ValidDelta a) (hvb : ValidDelta b)
    (hba : blenU (explode a) ≤ (docOfD B).length)
    (hbb : blenU (explode b) ≤ (docOfD B).length) :
    OTEngine.compose (OTEngine.compose B a) (Delta.transform a b false) =
      OTEngine.compose (OTEngine.compose B b) (Delta.transform b a true)
    := by
  have hUa : UValidL (explode a) := explode_uvalid a hva
  have hUb : UValidL (explode b) := explode_uvalid b hvb
  have hdocB : ValidDocL (docOfD B) :=
    insElems_valid (explode B) (explode_uvalid B hvB)
  obtain ⟨dx, dy, dz, hdx, hdy, hdzx, hdzy⟩ :=
    tp1_unit (explode a) (explode b) (docOfD B) hUa hUb hdocB hba hbb
  obtain ⟨hS1e, hS1v, hS1i⟩ :=
    composeGo_units (fuelFor B a) B a dx hvB hiB hva le_rfl hdx
  obtain ⟨hS1e', hS1v', hS1i'⟩ :=
    composeGo_units (fuelFor B b) B b dy hvB hiB hvb le_rfl hdy
  have hcompBa : OTEngine.compose B a =
      normD (composeGo (fuelFor B a) B a) := rfl
  have hcompBb : OTEngine.compose B b =
      normD (composeGo (fuelFor B b) B b) := rfl
  obtain ⟨hN1v, hN1i, hN1e⟩ := normD_insOnly_spec hS1v hS1i
  obtain ⟨hN1v', hN1i', hN1e'⟩ := normD_insOnly_spec hS1v' hS1i'
  have hdoc1 : docOfD (OTEngine.compose B a) = dx := by
    rw [hcompBa, docOfD, hN1e, hS1e, insElems_unitsOfDoc]
  have hdoc1' : docOfD (OTEngine.compose B b) = dy := by
    rw [hcompBb, docOfD, hN1e', hS1e', insElems_unitsOfDoc]
  obtain ⟨hT1e, hT1v⟩ :=
    transformGo_units (fuelFor a b) a b false hva hvb le_rfl
  obtain ⟨hT1e', hT1v'⟩ :=
    transformGo_units (fuelFor b a) b a true hvb hva le_rfl
  have htr : Delta.transform a b false =
      normD (transformGo (fuelFor a b) a b false) := rfl
  have htr' : Delta.transform b a true =
      normD (transformGo (fuelFor b a) b a true) := rfl
  have hvT : ValidDelta (Delta.transform a b false) := by
    rw [htr]
    exact normD_valid hT1v
  have hvT' : ValidDelta (Delta.transform b a true) := by
    rw [htr']
    exact normD_valid hT1v'
  have hvdx : ValidDocL dx :=
    applyU_valid (explode a) (docOfD B) dx hdx hUa hdocB
  have hvdy : ValidDocL dy :=
    applyU_valid (explode b) (docOfD B) dy hdy hUb hdocB
  have happT : applyU (explode (Delta.transform a b false)) dx = some dz
      := by
    rw [htr]
    exact normD_sem _ dx dz hvdx (by rw [hT1e]; exact hdzx)
  have happT' : applyU (explode (Delta.transform b a true)) dy = some dz
      := by
    rw [htr']
    exact normD_sem _ dy dz hvdy (by rw [hT1e']; exact hdzy)
  obtain ⟨hS2e, hS2v, hS2i⟩ := composeGo_units
    (fuelFor (OTEngine.compose B a) (Delta.transform a b false))
    (OTEngine.compose B a) (Delta.transform a b false) dz
    (by rw [hcompBa]; exact hN1v) (by rw [hcompBa]; exact hN1i) hvT le_rfl
    (by rw [hdoc1]; exact happT)
  obtain ⟨hS2e', hS2v', hS2i'⟩ := composeGo_units
    (fuelFor (OTEngine.compose B b) (Delta.transform b a true))
    (OTEngine.compose B b) (Delta.transform b a true) dz
    (by rw [hcompBb]; exact hN1v') (by rw [hcompBb]; exact hN1i') hvT' le_rfl
    (by rw [hdoc1']; exact happT')
  show normD (composeGo
      (fuelFor (OTEngine.compose B a) (Delta.transform a b false))
      (OTEngine.compose B a) (Delta.transform a b false)) =
    normD (composeGo
      (fuelFor (OTEngine.compose B b) (Delta.transform b a true))
      (OTEngine.compose B b) (Delta.transform b a true))
  exact normD_eq_of_units hS2v hS2i hS2v' hS2i'
    (by rw [hS2e, hS2e'])

/-- Witness for C1 at a concrete input: base document "H" with two
concurrent front inserts "A" and "B". -/
theorem c1_diamond_witness :
    OTEngine.compose
        (OTEngine.compose [Op.insertText ['H'] none]
          [Op.insertText ['A'] none])
        (Delta.transform [Op.insertText ['A'] none]
          [Op.insertText ['B'] none] false) =
      OTEngine.compose
        (OTEngine.compose [Op.insertText ['H'] none]
          [Op.insertText ['B'] none])
        (Delta.transform [Op.insertText ['B'] none]
          [Op.insertText ['A'] none] true) :=
  c1_diamond [Op.insertText ['H'] none] [Op.insertText ['A'] none]
    [Op.insertText ['B'] none]
    (by
      intro o ho
      simp at ho
      subst ho
      exact ⟨by simp, trivial⟩)
    (by
      intro o ho
      simp at ho
      subst ho
      rfl)
    (by
      intro o ho
      simp at ho
      subst ho
      exact ⟨by simp, trivial⟩)
    (by
      intro o ho
      simp at ho
      subst ho
      exact ⟨by simp, trivial⟩)
    (by decide) (by decide)

end GDocs
